import Mathlib

/-!
Shallow embedding of the OnPair / OnPair16 string-compression core
(`onpair16.cpp`, `lpm16.h`, the unbounded `onpair.cpp` / `lpm.h` variant and
`pair_hash.h` callers).  Bytes are `Nat` values below 256; 64-bit machine
words are `Nat` values below `2 ^ 64`; the `uint16_t` pair counters, which
can wrap, are taken modulo `2 ^ 16`.  Hash maps are modelled as association
lists whose lookup returns the first (i.e. earliest inserted) binding, which
matches `robin_hood::unordered_map::emplace` keeping the earlier entry on a
duplicate key.  The out-of-bounds bytes touched by the unconditional 8-byte
loads are modelled as zero, which the length masks erase exactly as in the
source (design note on safe widening loads).
-/

namespace OnPairModel

/-- Little-endian value of a byte list: byte 0 is the low-order byte. -/
def wordOf : List Nat → Nat
  | [] => 0
  | b :: bs => b + 256 * wordOf bs

/-- The `n` bytes of the buffer starting at `pos`, zero-padded past the end
(models the safe widening load sanctioned by the design notes). -/
def window (d : List Nat) (pos n : Nat) : List Nat :=
  (List.range n).map (fun i => d.getD (pos + i) 0)

/-- `MASKS` table from `lpm16.h` / `lpm.h`: keep the first `len` bytes of a
little-endian u64.  The source array has entries for lengths 0..8 only. -/
def MASKS : Nat → Nat
  | 0 => 0
  | 1 => 0xFF
  | 2 => 0xFFFF
  | 3 => 0xFFFFFF
  | 4 => 0xFFFFFFFF
  | 5 => 0xFFFFFFFFFF
  | 6 => 0xFFFFFFFFFFFF
  | 7 => 0xFFFFFFFFFFFFFF
  | 8 => 0xFFFFFFFFFFFFFFFF
  | _ + 9 => 0

/-- `bytes_to_u64_le`: read 8 bytes little-endian, mask to `len` bytes. -/
def bytesToU64LE (d : List Nat) (pos len : Nat) : Nat :=
  wordOf (window d pos 8) &&& MASKS len

/-- Count-trailing-zero-bits helper with explicit fuel. -/
def ctzAux : Nat → Nat → Nat
  | 0, _ => 0
  | f + 1, n => if n % 2 = 1 then 0 else 1 + ctzAux f (n / 2)

/-- `std::countr_zero` on a 64-bit word (returns 64 when the word is 0). -/
def ctz64 (n : Nat) : Nat := ctzAux 64 n

/-- `shared_prefix_size` from `lpm16.h`: trailing zero bits of the XOR,
divided by 8. -/
def sharedPrefixSize (a b : Nat) : Nat := ctz64 (a ^^^ b) >>> 3

/-- `is_prefix` from `lpm16.h`. -/
def isPrefix64 (text pre textSize preSize : Nat) : Bool :=
  decide (preSize ≤ textSize) && decide (preSize ≤ sharedPrefixSize text pre)

/-- A long-pattern bucket entry of `LongestPrefixMatcher16`:
(masked suffix word, suffix length, token id). -/
abbrev Entry16 := Nat × Nat × Nat

/-- State of `LongestPrefixMatcher16`: the short-pattern hash map keyed by
(masked word, length) and the long-pattern buckets keyed by the 8-byte
prefix word. -/
structure LPM16 where
  dictionary : List ((Nat × Nat) × Nat)
  buckets : List (Nat × List Entry16)

/-- First-wins association-list lookup (hash map `find`). -/
def lookupShort (m : List ((Nat × Nat) × Nat)) (k : Nat × Nat) : Option Nat :=
  match m with
  | [] => none
  | (k0, v) :: rest => if k0 = k then some v else lookupShort rest k

/-- Hash map `emplace`: keeps the earlier entry on a duplicate key. -/
def emplaceShort (m : List ((Nat × Nat) × Nat)) (k : Nat × Nat) (v : Nat) :
    List ((Nat × Nat) × Nat) :=
  if (lookupShort m k).isSome then m else m ++ [(k, v)]

/-- Bucket-map read; `operator[]` of an absent key yields an empty bucket. -/
def bucketsGet (bs : List (Nat × List Entry16)) (k : Nat) : List Entry16 :=
  match bs with
  | [] => []
  | (k0, b) :: rest => if k0 = k then b else bucketsGet rest k

/-- Bucket-map write-back. -/
def bucketsSet (bs : List (Nat × List Entry16)) (k : Nat) (b : List Entry16) :
    List (Nat × List Entry16) :=
  match bs with
  | [] => [(k, b)]
  | (k0, b0) :: rest =>
    if k0 = k then (k0, b) :: rest else (k0, b0) :: bucketsSet rest k b

/-- One step of the insertion sort used to model `std::sort` with the
comparator ordering entries by suffix length, descending. -/
def sortInsert16 (e : Entry16) : List Entry16 → List Entry16
  | [] => [e]
  | x :: xs => if x.2.1 < e.2.1 then e :: x :: xs else x :: sortInsert16 e xs

/-- Sort a bucket by suffix length, descending. -/
def sortDesc16 : List Entry16 → List Entry16
  | [] => []
  | x :: xs => sortInsert16 x (sortDesc16 xs)

/-- The empty matcher (`LongestPrefixMatcher16` default constructor). -/
def LPM16.empty : LPM16 := ⟨[], []⟩

/-- `LongestPrefixMatcher16::insert` on the pattern `d[pos .. pos+len)`.
Returns the `bool` result together with the new state. -/
def LPM16.insert (s : LPM16) (d : List Nat) (pos len id : Nat) : Bool × LPM16 :=
  if len ≤ 8 then
    let value := bytesToU64LE d pos len
    (true, { s with dictionary := emplaceShort s.dictionary (value, len) id })
  else
    let pk := bytesToU64LE d pos 8
    let bucket := bucketsGet s.buckets pk
    if 128 ≤ bucket.length then
      (false, s)
    else
      let suffixLen := len - 8
      let suffix := bytesToU64LE d (pos + 8) suffixLen
      (true, { s with
        buckets := bucketsSet s.buckets pk
          (sortDesc16 (bucket ++ [(suffix, suffixLen, id)])) })

/-- Long-phase scan of a bucket: first entry whose suffix matches wins
(the descending sort puts the longest first). -/
def findLongBucket (sfx sfxLen : Nat) : List Entry16 → Option (Nat × Nat)
  | [] => none
  | (es, esl, id) :: rest =>
    if isPrefix64 sfx es sfxLen esl then some (id, 8 + esl)
    else findLongBucket sfx sfxLen rest

/-- Short-phase probe loop: for `len` down to 1, re-mask the running word
and look it up. -/
def findShort (m : List ((Nat × Nat) × Nat)) : Nat → Nat → Option (Nat × Nat)
  | _, 0 => none
  | w, len + 1 =>
    let w2 := w &&& MASKS (len + 1)
    match lookupShort m (w2, len + 1) with
    | some id => some (id, len + 1)
    | none => findShort m w2 len

/-- `LongestPrefixMatcher16::find_longest_match` on the cursor
`d[pos .. pos+len)`. -/
def LPM16.findLongestMatch (s : LPM16) (d : List Nat) (pos len : Nat) :
    Option (Nat × Nat) :=
  let long : Option (Nat × Nat) :=
    if 8 < len then
      let sfxLen := min len 16 - 8
      let pk := bytesToU64LE d pos 8
      let sfx := bytesToU64LE d (pos + 8) sfxLen
      findLongBucket sfx sfxLen (bucketsGet s.buckets pk)
    else none
  match long with
  | some r => some r
  | none => findShort s.dictionary (bytesToU64LE d pos 8) (min len 8)

/-- First-wins lookup in the pair-frequency map, defaulting to 0
(`operator[]` of an absent key value-initialises the counter). -/
def freqGet (m : List ((Nat × Nat) × Nat)) (k : Nat × Nat) : Nat :=
  match m with
  | [] => 0
  | (k0, v) :: rest => if k0 = k then v else freqGet rest k

/-- Store a counter value, updating in place or appending. -/
def freqSet (m : List ((Nat × Nat) × Nat)) (k : Nat × Nat) (v : Nat) :
    List ((Nat × Nat) × Nat) :=
  match m with
  | [] => [(k, v)]
  | (k0, v0) :: rest =>
    if k0 = k then (k0, v) :: rest else (k0, v0) :: freqSet rest k v

/-- `erase` of a pair-frequency entry. -/
def freqErase (m : List ((Nat × Nat) × Nat)) (k : Nat × Nat) :
    List ((Nat × Nat) × Nat) :=
  match m with
  | [] => []
  | (k0, v0) :: rest =>
    if k0 = k then rest else (k0, v0) :: freqErase rest k

/-- Mutable state of `OnPair16::train_dictionary`: the matcher, the pair
counters (uint16, hence mod `2 ^ 16`), the dictionary blob and offsets,
the next free token id and the dictionary-full flag. -/
structure TrainSt where
  lpm : LPM16
  freq : List ((Nat × Nat) × Nat)
  dict : List Nat
  offsets : List Nat
  nextId : Nat
  full : Bool

/-- Inner `while (pos < end)` loop of `OnPair16::train_dictionary`.  The
fuel argument bounds the iteration count; `end - pos` is enough because
every step advances `pos` by at least one byte. -/
def trainLoop (d : List Nat) (endp threshold : Nat) :
    Nat → Nat → Nat → Nat → TrainSt → TrainSt
  | 0, _, _, _, st => st
  | fuel + 1, pos, prevId, prevLen, st =>
    if pos < endp then
      match st.lpm.findLongestMatch d pos (endp - pos) with
      | none => st
      | some (matchId, matchLen) =>
        if matchLen + prevLen ≤ 16 then
          let cnt := (freqGet st.freq (prevId, matchId) + 1) % 65536
          let freq1 := freqSet st.freq (prevId, matchId) cnt
          if threshold ≤ cnt then
            match st.lpm.insert d (pos - prevLen) (prevLen + matchLen) st.nextId with
            | (true, lpm1) =>
              let dict1 := st.dict ++ window d (pos - prevLen) (prevLen + matchLen)
              let offs1 := st.offsets ++ [dict1.length]
              let freq2 := freqErase freq1 (prevId, matchId)
              if st.nextId = 65535 then
                { lpm := lpm1, freq := freq2, dict := dict1, offsets := offs1,
                  nextId := st.nextId, full := true }
              else
                trainLoop d endp threshold fuel (pos + matchLen) st.nextId
                  (prevLen + matchLen)
                  { lpm := lpm1, freq := freq2, dict := dict1, offsets := offs1,
                    nextId := st.nextId + 1, full := st.full }
            | (false, lpm1) =>
              trainLoop d endp threshold fuel (pos + matchLen) matchId matchLen
                { st with lpm := lpm1, freq := freq1 }
          else
            trainLoop d endp threshold fuel (pos + matchLen) matchId matchLen
              { st with freq := freq1 }
        else
          trainLoop d endp threshold fuel (pos + matchLen) matchId matchLen st
    else st

/-- One step of the single-byte initialisation loop of
`OnPair16::train_dictionary`: insert byte `b` with id `b`, append it to the
blob and push the new blob length. -/
def initStep (st : TrainSt) (b : Nat) : TrainSt :=
  let dict1 := st.dict ++ [b]
  { st with
    lpm := (st.lpm.insert [b] 0 1 b).2
    dict := dict1
    offsets := st.offsets ++ [dict1.length] }

/-- Initialisation of `OnPair16::train_dictionary`: push offset 0, then
insert the 256 single-byte tokens. -/
def initTrainSt : TrainSt :=
  (List.range 256).foldl initStep
    { lpm := LPM16.empty, freq := [], dict := [], offsets := [0],
      nextId := 256, full := false }

/-- Outer loop of `OnPair16::train_dictionary` over the shuffled string
indices.  The shuffle itself uses a nondeterministically seeded PRNG, so
the visit order is a parameter here. -/
def trainOuter (d ends : List Nat) (threshold : Nat) :
    List Nat → TrainSt → TrainSt
  | [], st => st
  | idx :: rest, st =>
    if st.full then st
    else
      let start := ends.getD idx 0
      let endp := ends.getD (idx + 1) 0
      if start = endp then trainOuter d ends threshold rest st
      else
        match st.lpm.findLongestMatch d start (endp - start) with
        | none => trainOuter d ends threshold rest st
        | some (prevId, prevLen) =>
          trainOuter d ends threshold rest
            (trainLoop d endp threshold (endp - (start + prevLen))
              (start + prevLen) prevId prevLen st)

/-- `OnPair16::train_dictionary`, parameterised by the shuffled visit order
and the (float-computed, hence abstract) promotion threshold. -/
def trainDictionary (d ends order : List Nat) (threshold : Nat) : TrainSt :=
  trainOuter d ends threshold order initTrainSt

/-- Greedy parse loop of one string in `OnPair16::parse_data`; returns the
extended token stream and the final cursor position. -/
def parseString (lpm : LPM16) (d : List Nat) (endp : Nat) :
    Nat → Nat → List Nat → List Nat × Nat
  | 0, pos, acc => (acc, pos)
  | fuel + 1, pos, acc =>
    if pos < endp then
      match lpm.findLongestMatch d pos (endp - pos) with
      | none => (acc, pos)
      | some (id, len) => parseString lpm d endp fuel (pos + len) (acc ++ [id])
    else (acc, pos)

/-- Per-string loop of `OnPair16::parse_data`, pushing one boundary after
each string. -/
def parseLoop (lpm : LPM16) (d ends : List Nat) :
    Nat → Nat → List Nat → List Nat → List Nat × List Nat
  | 0, _, cd, sb => (cd, sb)
  | count + 1, i, cd, sb =>
    let start := ends.getD i 0
    let endp := ends.getD (i + 1) 0
    if start = endp then
      parseLoop lpm d ends count (i + 1) cd (sb ++ [cd.length])
    else
      let cd1 := (parseString lpm d endp (endp - start) start cd).1
      parseLoop lpm d ends count (i + 1) cd1 (sb ++ [cd1.length])

/-- `OnPair16::parse_data`: token stream and string boundaries. -/
def parseData (lpm : LPM16) (d ends : List Nat) : List Nat × List Nat :=
  parseLoop lpm d ends (ends.length - 1) 0 [] [0]

/-- The four arrays an `OnPair16` instance retains after compression. -/
structure OnPair16St where
  compressed_data : List Nat
  string_boundaries : List Nat
  dictionary_data : List Nat
  dictionary_offsets : List Nat

/-- `OnPair16::compress_bytes`. -/
def compressBytes16 (d ends order : List Nat) (threshold : Nat) : OnPair16St :=
  let ts := trainDictionary d ends order threshold
  let p := parseData ts.lpm d ends
  { compressed_data := p.1, string_boundaries := p.2,
    dictionary_data := ts.dict, dictionary_offsets := ts.offsets }

/-- `flatten_strings`: concatenated bytes plus the prefix-sum end
positions, starting at 0. -/
def flattenStrings (strings : List (List Nat)) : List Nat × List Nat :=
  strings.foldl
    (fun (acc : List Nat × List Nat) s =>
      (acc.1 ++ s, acc.2 ++ [acc.1.length + s.length]))
    ([], [0])

/-- `OnPair16::compress_strings`. -/
def compressStrings16 (strings : List (List Nat)) (order : List Nat)
    (threshold : Nat) : OnPair16St :=
  let f := flattenStrings strings
  compressBytes16 f.1 f.2 order threshold

/-- One `memcpy` of `n` bytes from the dictionary blob into the output
buffer (the buffer is a total function, i.e. has unlimited slack). -/
def writeBlock (buf : Nat → Nat) (dst : Nat) (src : List Nat) (srcPos n : Nat) :
    Nat → Nat :=
  fun j => if dst ≤ j ∧ j < dst + n then src.getD (srcPos + (j - dst)) 0 else buf j

/-- Token-by-token loop shared by `decompress_string` and `decompress_all`
in `onpair16.cpp`: per token, one unconditional 16-byte copy, then advance
by the true token length. -/
def decompressTokens (dict offsets : List Nat) :
    List Nat → (Nat → Nat) → Nat → (Nat → Nat) × Nat
  | [], buf, size => (buf, size)
  | id :: rest, buf, size =>
    let ds := offsets.getD id 0
    let de := offsets.getD (id + 1) 0
    let len := de - ds
    decompressTokens dict offsets rest (writeBlock buf size dict ds 16) (size + len)

/-- `OnPair16::decompress_string`: returns the final buffer contents and
the byte count written. -/
def decompressString16 (st : OnPair16St) (index : Nat) (buf : Nat → Nat) :
    (Nat → Nat) × Nat :=
  let ds := st.string_boundaries.getD index 0
  let de := st.string_boundaries.getD (index + 1) 0
  decompressTokens st.dictionary_data st.dictionary_offsets
    ((st.compressed_data.drop ds).take (de - ds)) buf 0

/-- `OnPair16::space_used`. -/
def spaceUsed16 (st : OnPair16St) : Nat :=
  2 * st.compressed_data.length + st.dictionary_data.length +
    4 * st.dictionary_offsets.length + 8 * st.string_boundaries.length

/-! ### The unbounded variant: `LongestPrefixMatcher<V>` and `OnPair` -/

/-- State of the unbounded `LongestPrefixMatcher`: short-pattern map, long
buckets holding token ids, the auxiliary suffix blob and its end-position
table (one entry per inserted id, starting at 0). -/
structure LPMU where
  short : List ((Nat × Nat) × Nat)
  buckets : List (Nat × List Nat)
  dict : List Nat
  ends : List Nat

/-- Bucket-map read for id buckets. -/
def bucketsGetU (bs : List (Nat × List Nat)) (k : Nat) : List Nat :=
  match bs with
  | [] => []
  | (k0, b) :: rest => if k0 = k then b else bucketsGetU rest k

/-- Bucket-map write-back for id buckets. -/
def bucketsSetU (bs : List (Nat × List Nat)) (k : Nat) (b : List Nat) :
    List (Nat × List Nat) :=
  match bs with
  | [] => [(k, b)]
  | (k0, b0) :: rest =>
    if k0 = k then (k0, b) :: rest else (k0, b0) :: bucketsSetU rest k b

/-- Insertion-sort step for id buckets; the comparator reads suffix lengths
from the end-position table, descending. -/
def sortInsertU (ends : List Nat) (id : Nat) : List Nat → List Nat
  | [] => [id]
  | x :: xs =>
    if ends.getD (x + 1) 0 - ends.getD x 0 < ends.getD (id + 1) 0 - ends.getD id 0
    then id :: x :: xs
    else x :: sortInsertU ends id xs

/-- Sort an id bucket by suffix length, descending. -/
def sortDescU (ends : List Nat) : List Nat → List Nat
  | [] => []
  | x :: xs => sortInsertU ends x (sortDescU ends xs)

/-- `LongestPrefixMatcher` constructor: reserves and pushes end position 0. -/
def LPMU.empty : LPMU := ⟨[], [], [], [0]⟩

/-- `LongestPrefixMatcher::insert` (returns void: insertion never fails and
there is no bucket cap in this variant). -/
def LPMU.insert (s : LPMU) (d : List Nat) (pos len id : Nat) : LPMU :=
  if 8 < len then
    let pk := bytesToU64LE d pos 8
    let dict1 := s.dict ++ window d (pos + 8) (len - 8)
    let ends1 := s.ends ++ [dict1.length]
    let bucket := bucketsGetU s.buckets pk ++ [id]
    { s with
      dict := dict1
      ends := ends1
      buckets := bucketsSetU s.buckets pk (sortDescU ends1 bucket) }
  else
    let pk := bytesToU64LE d pos len
    { s with
      short := emplaceShort s.short (pk, len) id
      ends := s.ends ++ [s.dict.length] }

/-- Long-phase bucket scan of the unbounded matcher: suffix lengths come
from the end-position table and the suffix bytes are compared
(`memcmp`) against the blob. -/
def findLongBucketU (s : LPMU) (d : List Nat) (pos len : Nat) :
    List Nat → Option (Nat × Nat)
  | [] => none
  | id :: rest =>
    let start := s.ends.getD id 0
    let stop := s.ends.getD (id + 1) 0
    let sfxLen := stop - start
    if 8 + sfxLen ≤ len ∧ window d (pos + 8) sfxLen = (s.dict.drop start).take sfxLen
    then some (id, 8 + sfxLen)
    else findLongBucketU s d pos len rest

/-- Short-phase probe loop of the unbounded matcher (recomputes the masked
word from the data each iteration, as the source does). -/
def findShortU (m : List ((Nat × Nat) × Nat)) (d : List Nat) (pos : Nat) :
    Nat → Option (Nat × Nat)
  | 0 => none
  | len + 1 =>
    match lookupShort m (bytesToU64LE d pos (len + 1), len + 1) with
    | some id => some (id, len + 1)
    | none => findShortU m d pos len

/-- `LongestPrefixMatcher::find_longest_match`. -/
def LPMU.findLongestMatch (s : LPMU) (d : List Nat) (pos len : Nat) :
    Option (Nat × Nat) :=
  let long : Option (Nat × Nat) :=
    if 8 < len then
      findLongBucketU s d pos len (bucketsGetU s.buckets (bytesToU64LE d pos 8))
    else none
  match long with
  | some r => some r
  | none => findShortU s.short d pos (min len 8)

/-- Mutable state of `OnPair::train_dictionary` (`offsets` is the
`token_boundaries` member). -/
structure TrainStU where
  lpm : LPMU
  freq : List ((Nat × Nat) × Nat)
  dict : List Nat
  offsets : List Nat
  nextId : Nat
  full : Bool

/-- Inner `while (pos < end)` loop of `OnPair::train_dictionary`: no
length gate, the counter is bumped on every adjacency, and promotion
inserts unconditionally. -/
def trainLoopU (d : List Nat) (endp threshold : Nat) :
    Nat → Nat → Nat → Nat → TrainStU → TrainStU
  | 0, _, _, _, st => st
  | fuel + 1, pos, prevId, prevLen, st =>
    if pos < endp then
      match st.lpm.findLongestMatch d pos (endp - pos) with
      | none => st
      | some (matchId, matchLen) =>
        let cnt := (freqGet st.freq (prevId, matchId) + 1) % 65536
        let freq1 := freqSet st.freq (prevId, matchId) cnt
        if threshold ≤ cnt then
          let lpm1 := st.lpm.insert d (pos - prevLen) (prevLen + matchLen) st.nextId
          let dict1 := st.dict ++ window d (pos - prevLen) (prevLen + matchLen)
          let offs1 := st.offsets ++ [dict1.length]
          let freq2 := freqErase freq1 (prevId, matchId)
          if st.nextId = 65535 then
            { lpm := lpm1, freq := freq2, dict := dict1, offsets := offs1,
              nextId := st.nextId, full := true }
          else
            trainLoopU d endp threshold fuel (pos + matchLen) st.nextId
              (prevLen + matchLen)
              { lpm := lpm1, freq := freq2, dict := dict1, offsets := offs1,
                nextId := st.nextId + 1, full := st.full }
        else
          trainLoopU d endp threshold fuel (pos + matchLen) matchId matchLen
            { st with freq := freq1 }
    else st

/-- Initialisation of `OnPair::train_dictionary`. -/
def initTrainStU : TrainStU :=
  (List.range 256).foldl
    (fun st b =>
      let dict1 := st.dict ++ [b]
      { st with
        lpm := st.lpm.insert [b] 0 1 b
        dict := dict1
        offsets := st.offsets ++ [dict1.length] })
    { lpm := LPMU.empty, freq := [], dict := [], offsets := [0],
      nextId := 256, full := false }

/-- Outer loop of `OnPair::train_dictionary`. -/
def trainOuterU (d ends : List Nat) (threshold : Nat) :
    List Nat → TrainStU → TrainStU
  | [], st => st
  | idx :: rest, st =>
    if st.full then st
    else
      let start := ends.getD idx 0
      let endp := ends.getD (idx + 1) 0
      if start = endp then trainOuterU d ends threshold rest st
      else
        match st.lpm.findLongestMatch d start (endp - start) with
        | none => trainOuterU d ends threshold rest st
        | some (prevId, prevLen) =>
          trainOuterU d ends threshold rest
            (trainLoopU d endp threshold (endp - (start + prevLen))
              (start + prevLen) prevId prevLen st)

/-- `OnPair::train_dictionary`. -/
def trainDictionaryU (d ends order : List Nat) (threshold : Nat) : TrainStU :=
  trainOuterU d ends threshold order initTrainStU

/-- Greedy parse loop of one string in `OnPair::parse_data`. -/
def parseStringU (lpm : LPMU) (d : List Nat) (endp : Nat) :
    Nat → Nat → List Nat → List Nat × Nat
  | 0, pos, acc => (acc, pos)
  | fuel + 1, pos, acc =>
    if pos < endp then
      match lpm.findLongestMatch d pos (endp - pos) with
      | none => (acc, pos)
      | some (id, len) => parseStringU lpm d endp fuel (pos + len) (acc ++ [id])
    else (acc, pos)

/-- Per-string loop of `OnPair::parse_data`. -/
def parseLoopU (lpm : LPMU) (d ends : List Nat) :
    Nat → Nat → List Nat → List Nat → List Nat × List Nat
  | 0, _, cd, sb => (cd, sb)
  | count + 1, i, cd, sb =>
    let start := ends.getD i 0
    let endp := ends.getD (i + 1) 0
    if start = endp then
      parseLoopU lpm d ends count (i + 1) cd (sb ++ [cd.length])
    else
      let cd1 := (parseStringU lpm d endp (endp - start) start cd).1
      parseLoopU lpm d ends count (i + 1) cd1 (sb ++ [cd1.length])

/-- `OnPair::parse_data`. -/
def parseDataU (lpm : LPMU) (d ends : List Nat) : List Nat × List Nat :=
  parseLoopU lpm d ends (ends.length - 1) 0 [] [0]

/-- The four arrays an `OnPair` instance retains after compression
(`dictionary` and `token_boundaries` in the source). -/
structure OnPairSt where
  compressed_data : List Nat
  string_boundaries : List Nat
  dictionary : List Nat
  token_boundaries : List Nat

/-- `OnPair::compress_bytes`. -/
def compressBytesU (d ends order : List Nat) (threshold : Nat) : OnPairSt :=
  let ts := trainDictionaryU d ends order threshold
  let p := parseDataU ts.lpm d ends
  { compressed_data := p.1, string_boundaries := p.2,
    dictionary := ts.dict, token_boundaries := ts.offsets }

/-- `OnPair::compress_strings`. -/
def compressStringsU (strings : List (List Nat)) (order : List Nat)
    (threshold : Nat) : OnPairSt :=
  let f := flattenStrings strings
  compressBytesU f.1 f.2 order threshold

/-- `OnPair::space_used`: note that, unlike `OnPair16::space_used`, the
`string_boundaries` array is not included in the sum. -/
def spaceUsedU (st : OnPairSt) : Nat :=
  2 * st.compressed_data.length + st.dictionary.length +
    4 * st.token_boundaries.length

/-! ### Little-endian word arithmetic -/

theorem MASKS_eq {len : Nat} (h : len ≤ 8) : MASKS len = 2 ^ (8 * len) - 1 := by
  interval_cases len <;> rfl

theorem and_MASKS (x : Nat) {len : Nat} (h : len ≤ 8) :
    x &&& MASKS len = x % 2 ^ (8 * len) := by
  rw [MASKS_eq h, Nat.and_pow_two_sub_one_eq_mod]

theorem pow256 (k : Nat) : 256 ^ k = 2 ^ (8 * k) := by
  rw [Nat.pow_mul]

theorem wordOf_lt (p : List Nat) (h : ∀ b ∈ p, b < 256) :
    wordOf p < 256 ^ p.length := by
  induction p with
  | nil => simp [wordOf]
  | cons b bs ih =>
    have hb : b < 256 := h b (List.mem_cons_self ..)
    have hbs := ih (fun x hx => h x (List.mem_cons_of_mem _ hx))
    simp only [wordOf, List.length_cons, pow_succ]
    calc b + 256 * wordOf bs < 256 + 256 * wordOf bs := by omega
    _ ≤ 256 * (wordOf bs + 1) := by ring_nf; omega
    _ ≤ 256 * 256 ^ bs.length := by
        exact Nat.mul_le_mul_left _ (by omega)
    _ = 256 ^ bs.length * 256 := by ring

theorem wordOf_append (p q : List Nat) :
    wordOf (p ++ q) = wordOf p + 256 ^ p.length * wordOf q := by
  induction p with
  | nil => simp [wordOf]
  | cons b bs ih =>
    show wordOf (b :: (bs ++ q)) = wordOf (b :: bs) + 256 ^ (b :: bs).length * wordOf q
    rw [wordOf, ih, wordOf, List.length_cons, pow_succ]
    ring

theorem wordOf_mod (p : List Nat) (h : ∀ b ∈ p, b < 256) (k : Nat) :
    wordOf p % 256 ^ k = wordOf (p.take k) := by
  rcases le_or_lt k p.length with hk | hk
  · have hsplit := (List.take_append_drop k p).symm
    have htl : (p.take k).length = k := by
      simp [List.length_take, Nat.min_eq_left hk]
    have hlt : wordOf (p.take k) < 256 ^ k := by
      have := wordOf_lt (p.take k)
        (fun b hb => h b (List.mem_of_mem_take hb))
      rwa [htl] at this
    conv_lhs => rw [hsplit]
    rw [wordOf_append, htl, Nat.add_mul_mod_self_left, Nat.mod_eq_of_lt hlt]
  · have : p.take k = p := List.take_of_length_le (by omega)
    rw [this, Nat.mod_eq_of_lt]
    calc wordOf p < 256 ^ p.length := wordOf_lt p h
    _ ≤ 256 ^ k := Nat.pow_le_pow_right (by omega) (by omega)

theorem wordOf_inj {p q : List Nat} (hl : p.length = q.length)
    (hp : ∀ b ∈ p, b < 256) (hq : ∀ b ∈ q, b < 256)
    (hw : wordOf p = wordOf q) : p = q := by
  induction p generalizing q with
  | nil => cases q with
    | nil => rfl
    | cons c cs => simp at hl
  | cons b bs ih =>
    cases q with
    | nil => simp at hl
    | cons c cs =>
      have hb : b < 256 := hp b (List.mem_cons_self ..)
      have hc : c < 256 := hq c (List.mem_cons_self ..)
      simp only [wordOf] at hw
      have hbc : b = c := by omega
      subst hbc
      have hw2 : wordOf bs = wordOf cs := by omega
      have := ih (by simpa using hl)
        (fun x hx => hp x (List.mem_cons_of_mem _ hx))
        (fun x hx => hq x (List.mem_cons_of_mem _ hx)) hw2
      rw [this]

/-! ### Window lemmas -/

theorem window_length (d : List Nat) (pos n : Nat) :
    (window d pos n).length = n := by
  simp [window]

theorem window_get (d : List Nat) (pos n i : Nat) (h : i < n) :
    (window d pos n).getD i 0 = d.getD (pos + i) 0 := by
  simp [window, List.getD_eq_getElem?_getD, List.getElem?_map, List.getElem?_range h]

theorem window_take (d : List Nat) (pos n k : Nat) :
    (window d pos n).take k = window d pos (min k n) := by
  simp only [window, ← List.map_take, List.take_range]

theorem window_append (d : List Nat) (pos a b : Nat) :
    window d pos a ++ window d (pos + a) b = window d pos (a + b) := by
  simp only [window]
  rw [List.range_add, List.map_append, List.map_map]
  congr 1
  apply List.map_congr_left
  intro i _
  have h2 : pos + a + i = pos + (a + i) := by omega
  simp [Function.comp, h2]

theorem window_bytes_lt {d : List Nat} (hd : ∀ b ∈ d, b < 256)
    (pos n : Nat) : ∀ b ∈ window d pos n, b < 256 := by
  intro b hb
  simp only [window, List.mem_map] at hb
  obtain ⟨i, _, rfl⟩ := hb
  rcases Nat.lt_or_ge (pos + i) d.length with h | h
  · have : d.getD (pos + i) 0 ∈ d := by
      rw [List.getD_eq_getElem _ _ h]
      exact List.getElem_mem ..
    exact hd _ this
  · rw [List.getD_eq_default _ _ h]
    omega

theorem window_eq_slice {d : List Nat} {pos n : Nat}
    (h : pos + n ≤ d.length) : window d pos n = (d.drop pos).take n := by
  apply List.ext_getElem
  · simp [window_length, List.length_take, List.length_drop]
    omega
  · intro i h1 h2
    have hi : i < n := by simpa [window_length] using h1
    have hpi : pos + i < d.length := by omega
    have := window_get d pos n i hi
    rw [List.getD_eq_getElem _ _ h1] at this
    rw [this]
    rw [List.getElem_take, List.getElem_drop]
    rw [List.getD_eq_getElem _ _ hpi]

theorem window_self (p : List Nat) : window p 0 p.length = p := by
  rw [window_eq_slice (by omega)]
  simp

theorem bytesToU64LE_eq {d : List Nat} (hd : ∀ b ∈ d, b < 256)
    (pos : Nat) {len : Nat} (hlen : len ≤ 8) :
    bytesToU64LE d pos len = wordOf (window d pos len) := by
  rw [bytesToU64LE, and_MASKS _ hlen, ← pow256,
    wordOf_mod _ (window_bytes_lt hd pos 8) len, window_take,
    Nat.min_eq_left hlen]

/-! ### Trailing-zero bytes: the arithmetic behind shared_prefix_size -/

theorem ctzAux_le (f n : Nat) : ctzAux f n ≤ f := by
  induction f generalizing n with
  | zero => simp [ctzAux]
  | succ f ih =>
    rw [ctzAux]
    split
    · omega
    · have := ih (n / 2)
      omega

theorem ctzAux_ge {m : Nat} : ∀ {f n : Nat}, n % 2 ^ m = 0 → m ≤ f →
    m ≤ ctzAux f n := by
  induction m with
  | zero => omega
  | succ m ih =>
    intro f n hmod hf
    obtain ⟨f2, rfl⟩ : ∃ f2, f = f2 + 1 := ⟨f - 1, by omega⟩
    have hdvd : 2 ^ (m + 1) ∣ n := Nat.dvd_of_mod_eq_zero hmod
    obtain ⟨c, rfl⟩ := hdvd
    have h2 : 2 ^ (m + 1) * c % 2 = 0 := by
      have he : 2 ^ (m + 1) * c = 2 * (2 ^ m * c) := by ring
      rw [he, Nat.mul_mod_right]
    rw [ctzAux]
    rw [if_neg (by omega)]
    have hdiv : 2 ^ (m + 1) * c / 2 = 2 ^ m * c := by
      rw [pow_succ, mul_comm (2 ^ m) 2, mul_assoc, Nat.mul_div_cancel_left _ (by omega)]
    rw [hdiv]
    have : m ≤ ctzAux f2 (2 ^ m * c) :=
      ih (by simp [Nat.mul_mod_right]) (by omega)
    omega

theorem ctzAux_lt {m : Nat} : ∀ {f n : Nat}, n % 2 ^ m ≠ 0 → ctzAux f n < m := by
  induction m with
  | zero => intro f n h; omega
  | succ m ih =>
    intro f n hmod
    cases f with
    | zero => simp only [ctzAux]; omega
    | succ f =>
      rw [ctzAux]
      split
      · omega
      · rename_i heven
        have h2 : n % 2 = 0 := by omega
        have hd : (n / 2) % 2 ^ m ≠ 0 := by
          intro hc
          apply hmod
          have : 2 ∣ n := Nat.dvd_of_mod_eq_zero h2
          obtain ⟨c, rfl⟩ := this
          rw [Nat.mul_div_cancel_left _ (by omega)] at hc
          have : 2 ^ m ∣ c := Nat.dvd_of_mod_eq_zero hc
          obtain ⟨e, rfl⟩ := this
          have he : 2 * (2 ^ m * e) = 2 ^ (m + 1) * e := by ring
          rw [he, Nat.mul_mod_right]
        have := ih (f := f) hd
        omega

theorem xor_mod_two_pow_eq_zero_iff (a b m : Nat) :
    (a ^^^ b) % 2 ^ m = 0 ↔ a % 2 ^ m = b % 2 ^ m := by
  constructor
  · intro h
    apply Nat.eq_of_testBit_eq
    intro i
    rcases Nat.lt_or_ge i m with hi | hi
    · have hx : (a ^^^ b).testBit i = false := by
        have : ((a ^^^ b) % 2 ^ m).testBit i = (a ^^^ b).testBit i := by
          rw [Nat.testBit_mod_two_pow]
          simp [hi]
        rw [← this, h, Nat.zero_testBit]
      rw [Nat.testBit_xor] at hx
      simp only [Nat.testBit_mod_two_pow, hi, decide_True, Bool.true_and]
      rcases Bool.eq_false_or_eq_true (a.testBit i) with h1 | h1 <;>
        rcases Bool.eq_false_or_eq_true (b.testBit i) with h2 | h2 <;>
        simp [h1, h2] at hx ⊢
    · simp only [Nat.testBit_mod_two_pow]
      have : ¬ i < m := by omega
      simp [this]
  · intro h
    have : ∀ i, i < m → a.testBit i = b.testBit i := by
      intro i hi
      have := congrArg (fun x => x.testBit i) h
      simpa [Nat.testBit_mod_two_pow, hi] using this
    apply Nat.eq_of_testBit_eq
    intro i
    rw [Nat.testBit_mod_two_pow, Nat.zero_testBit]
    rcases Nat.lt_or_ge i m with hi | hi
    · rw [Nat.testBit_xor, this i hi]
      simp
    · have : ¬ i < m := by omega
      simp [this]

theorem sharedPrefixSize_le (a b : Nat) : sharedPrefixSize a b ≤ 8 := by
  have := ctzAux_le 64 (a ^^^ b)
  rw [sharedPrefixSize, Nat.shiftRight_eq_div_pow]
  rw [ctz64]
  omega

theorem sharedPrefixSize_ge_iff {a b k : Nat} (hk : k ≤ 8) :
    k ≤ sharedPrefixSize a b ↔ a % 2 ^ (8 * k) = b % 2 ^ (8 * k) := by
  rw [sharedPrefixSize, Nat.shiftRight_eq_div_pow, ctz64]
  have h8 : (2 : Nat) ^ 3 = 8 := rfl
  rw [h8]
  rw [← xor_mod_two_pow_eq_zero_iff]
  constructor
  · intro h
    by_contra hne
    have := ctzAux_lt (f := 64) (n := a ^^^ b) hne
    omega
  · intro h
    have := ctzAux_ge (f := 64) (n := a ^^^ b) h (by omega)
    omega

/-- The `i`-th little-endian byte of a word. -/
def byteAt (x i : Nat) : Nat := x / 256 ^ i % 256

theorem mod_pow256_succ (x k : Nat) :
    x % 256 ^ (k + 1) = x % 256 + 256 * (x / 256 % 256 ^ k) := by
  rw [pow_succ, mul_comm (256 ^ k) 256, Nat.mod_mul]

theorem mod_pow256_eq_iff (a b k : Nat) :
    a % 256 ^ k = b % 256 ^ k ↔ ∀ i < k, byteAt a i = byteAt b i := by
  induction k generalizing a b with
  | zero => simp [Nat.mod_one]
  | succ k ih =>
    rw [mod_pow256_succ, mod_pow256_succ]
    constructor
    · intro h i hi
      have hlow : a % 256 = b % 256 := by omega
      have hhi : a / 256 % 256 ^ k = b / 256 % 256 ^ k := by
        have h1 : a / 256 % 256 ^ k < 256 ^ k := Nat.mod_lt _ (by positivity)
        have h2 : b / 256 % 256 ^ k < 256 ^ k := Nat.mod_lt _ (by positivity)
        omega
      cases i with
      | zero => simpa [byteAt] using hlow
      | succ i =>
        have := (ih (a / 256) (b / 256)).1 hhi i (by omega)
        simpa [byteAt, Nat.div_div_eq_div_mul, ← pow_succ'] using this
    · intro h
      have hlow : a % 256 = b % 256 := by simpa [byteAt] using h 0 (by omega)
      have hhi : a / 256 % 256 ^ k = b / 256 % 256 ^ k := by
        apply (ih (a / 256) (b / 256)).2
        intro i hi
        have := h (i + 1) (by omega)
        simpa [byteAt, Nat.div_div_eq_div_mul, ← pow_succ'] using this
      omega

/-- Spec-side counting of matching initial bytes, capped at `m`. -/
def commonBytes : Nat → Nat → Nat → Nat
  | 0, _, _ => 0
  | m + 1, a, b =>
    if a % 256 = b % 256 then 1 + commonBytes m (a / 256) (b / 256) else 0

theorem commonBytes_le (m a b : Nat) : commonBytes m a b ≤ m := by
  induction m generalizing a b with
  | zero => simp [commonBytes]
  | succ m ih =>
    rw [commonBytes]
    split
    · have := ih (a / 256) (b / 256)
      omega
    · omega

theorem commonBytes_ge_iff (m a b k : Nat) :
    k ≤ commonBytes m a b ↔ k ≤ m ∧ a % 256 ^ k = b % 256 ^ k := by
  induction m generalizing a b k with
  | zero =>
    simp only [commonBytes]
    constructor
    · intro h
      have : k = 0 := by omega
      subst this; simp [Nat.mod_one]
    · intro ⟨h1, _⟩
      omega
  | succ m ih =>
    rw [commonBytes]
    cases k with
    | zero => simp [Nat.mod_one]
    | succ k =>
      split
      · rename_i hlow
        rw [mod_pow256_succ, mod_pow256_succ]
        constructor
        · intro h
          have h2 := (ih (a / 256) (b / 256) k).1 (by omega)
          refine ⟨by omega, by omega⟩
        · intro ⟨h1, h2⟩
          have hk : a / 256 % 256 ^ k = b / 256 % 256 ^ k := by
            have p1 : a / 256 % 256 ^ k < 256 ^ k := Nat.mod_lt _ (by positivity)
            have p2 : b / 256 % 256 ^ k < 256 ^ k := Nat.mod_lt _ (by positivity)
            omega
          have := (ih (a / 256) (b / 256) k).2 ⟨by omega, hk⟩
          omega
      · rename_i hlow
        rw [mod_pow256_succ, mod_pow256_succ]
        constructor
        · omega
        · intro ⟨h1, h2⟩
          exfalso
          apply hlow
          omega

/-! ### Association-list and bucket behaviour -/

theorem lookupShort_append (m1 m2 : List ((Nat × Nat) × Nat)) (k : Nat × Nat) :
    lookupShort (m1 ++ m2) k =
      match lookupShort m1 k with
      | some v => some v
      | none => lookupShort m2 k := by
  induction m1 with
  | nil => simp [lookupShort]
  | cons kv rest ih =>
    obtain ⟨k0, v⟩ := kv
    show lookupShort ((k0, v) :: (rest ++ m2)) k = _
    rw [lookupShort, lookupShort]
    split <;> simp [ih]

theorem lookupShort_emplace_of_lookup {m : List ((Nat × Nat) × Nat)}
    {k : Nat × Nat} {v : Nat} (k2 : Nat × Nat) (v2 : Nat)
    (h : lookupShort m k = some v) :
    lookupShort (emplaceShort m k2 v2) k = some v := by
  rw [emplaceShort]
  split
  · exact h
  · rw [lookupShort_append, h]

theorem lookupShort_emplace_cases {m : List ((Nat × Nat) × Nat)}
    {k k2 : Nat × Nat} {v v2 : Nat}
    (h : lookupShort (emplaceShort m k2 v2) k = some v) :
    lookupShort m k = some v ∨ (k = k2 ∧ v = v2) := by
  rw [emplaceShort] at h
  by_cases hin : (lookupShort m k2).isSome
  · rw [if_pos hin] at h
    exact Or.inl h
  · rw [if_neg hin, lookupShort_append] at h
    cases hm : lookupShort m k with
    | some v0 =>
      rw [hm] at h
      exact Or.inl h
    | none =>
      rw [hm] at h
      by_cases hk : k2 = k
      · right
        refine ⟨hk.symm, ?_⟩
        simp [lookupShort, hk] at h
        omega
      · exfalso
        simp [lookupShort, hk] at h

theorem bucketsGet_set_self (bs : List (Nat × List Entry16)) (k : Nat)
    (b : List Entry16) : bucketsGet (bucketsSet bs k b) k = b := by
  induction bs with
  | nil => simp [bucketsSet, bucketsGet]
  | cons kb rest ih =>
    obtain ⟨k0, b0⟩ := kb
    rw [bucketsSet]
    split
    · rename_i h
      rw [bucketsGet, if_pos h]
    · rename_i h
      rw [bucketsGet, if_neg h]
      exact ih

theorem bucketsGet_set_ne (bs : List (Nat × List Entry16)) {k k2 : Nat}
    (b : List Entry16) (h : k ≠ k2) :
    bucketsGet (bucketsSet bs k b) k2 = bucketsGet bs k2 := by
  induction bs with
  | nil => simp [bucketsSet, bucketsGet, h]
  | cons kb rest ih =>
    obtain ⟨k0, b0⟩ := kb
    rw [bucketsSet]
    split
    · rename_i h0
      subst h0
      rw [bucketsGet, bucketsGet, if_neg (fun hc => h hc)]
      simp [fun hc => h hc]
    · rw [bucketsGet, bucketsGet]
      split
      · rfl
      · exact ih

theorem mem_sortInsert16 {e2 e : Entry16} {l : List Entry16} :
    e2 ∈ sortInsert16 e l ↔ e2 = e ∨ e2 ∈ l := by
  induction l with
  | nil => simp [sortInsert16]
  | cons x xs ih =>
    rw [sortInsert16]
    split
    · simp
    · simp only [List.mem_cons, ih]
      tauto

theorem mem_sortDesc16 {e : Entry16} {l : List Entry16} :
    e ∈ sortDesc16 l ↔ e ∈ l := by
  induction l with
  | nil => simp [sortDesc16]
  | cons x xs ih =>
    rw [sortDesc16, mem_sortInsert16]
    simp [ih]

theorem length_sortInsert16 (e : Entry16) (l : List Entry16) :
    (sortInsert16 e l).length = l.length + 1 := by
  induction l with
  | nil => simp [sortInsert16]
  | cons x xs ih =>
    rw [sortInsert16]
    split <;> simp [ih]

theorem length_sortDesc16 (l : List Entry16) :
    (sortDesc16 l).length = l.length := by
  induction l with
  | nil => rfl
  | cons x xs ih =>
    rw [sortDesc16, length_sortInsert16, ih, List.length_cons]

/-- Descending order on bucket entries (by suffix length). -/
def BucketSorted (l : List Entry16) : Prop :=
  l.Pairwise (fun x y => y.2.1 ≤ x.2.1)

theorem sortInsert16_sorted {e : Entry16} {l : List Entry16}
    (h : BucketSorted l) : BucketSorted (sortInsert16 e l) := by
  induction l with
  | nil => simp [sortInsert16, BucketSorted]
  | cons x xs ih =>
    rw [BucketSorted, List.pairwise_cons] at h
    rw [sortInsert16]
    split
    · rename_i hlt
      rw [BucketSorted, List.pairwise_cons]
      constructor
      · intro y hy
        rcases List.mem_cons.1 hy with rfl | hy2
        · omega
        · have := h.1 y hy2
          omega
      · exact List.Pairwise.cons h.1 h.2
    · rename_i hge
      rw [BucketSorted, List.pairwise_cons]
      constructor
      · intro y hy
        rcases mem_sortInsert16.1 hy with rfl | hy2
        · omega
        · exact h.1 y hy2
      · exact ih h.2

theorem sortDesc16_sorted (l : List Entry16) : BucketSorted (sortDesc16 l) := by
  induction l with
  | nil => simp [sortDesc16, BucketSorted]
  | cons x xs ih => exact sortInsert16_sorted ih

/-! ### Soundness of the bounded matcher w.r.t. a pattern association -/

/-- Every binding of the short map names an associated pattern whose masked
word and length are the key. -/
def ShortSound (s : LPM16) (A : List (List Nat × Nat)) : Prop :=
  ∀ w len id, lookupShort s.dictionary (w, len) = some id →
    ∃ p, (p, id) ∈ A ∧ p.length = len ∧ 1 ≤ len ∧ len ≤ 8 ∧
      w = wordOf p ∧ (∀ b ∈ p, b < 256)

/-- Every bucket entry names an associated pattern split at byte 8. -/
def BucketSound (s : LPM16) (A : List (List Nat × Nat)) : Prop :=
  ∀ pk sfx sfxLen id, (sfx, sfxLen, id) ∈ bucketsGet s.buckets pk →
    ∃ p, (p, id) ∈ A ∧ p.length = 8 + sfxLen ∧ 1 ≤ sfxLen ∧ sfxLen ≤ 8 ∧
      pk = wordOf (p.take 8) ∧ sfx = wordOf (p.drop 8) ∧ (∀ b ∈ p, b < 256)

/-- Combined matcher soundness. -/
def Sound (s : LPM16) (A : List (List Nat × Nat)) : Prop :=
  ShortSound s A ∧ BucketSound s A

theorem sound_empty : Sound LPM16.empty [] := by
  constructor
  · intro w len id h
    simp [LPM16.empty, lookupShort] at h
  · intro pk sfx sfxLen id h
    simp [LPM16.empty, bucketsGet] at h

theorem sound_mono {s : LPM16} {A A2 : List (List Nat × Nat)}
    (hsub : ∀ x ∈ A, x ∈ A2) (hs : Sound s A) : Sound s A2 := by
  obtain ⟨h1, h2⟩ := hs
  constructor
  · intro w len id h
    obtain ⟨p, hp, rest⟩ := h1 w len id h
    exact ⟨p, hsub _ hp, rest⟩
  · intro pk sfx sfxLen id h
    obtain ⟨p, hp, rest⟩ := h2 pk sfx sfxLen id h
    exact ⟨p, hsub _ hp, rest⟩

theorem window_take_eight {d : List Nat} {pos len : Nat} (h : 8 ≤ len) :
    (window d pos len).take 8 = window d pos 8 := by
  rw [window_take, Nat.min_eq_left h]

theorem window_drop_eight {d : List Nat} {pos len : Nat} (h : 8 ≤ len) :
    (window d pos len).drop 8 = window d (pos + 8) (len - 8) := by
  have happ := window_append d pos 8 (len - 8)
  have hlen : 8 + (len - 8) = len := by omega
  rw [hlen] at happ
  have h8 : (8 : Nat) = (window d pos 8).length := (window_length d pos 8).symm
  conv_lhs => rw [← happ, h8]
  exact List.drop_left ..

theorem insert_sound {s : LPM16} {A : List (List Nat × Nat)}
    {d : List Nat} {pos len id : Nat} (hs : Sound s A)
    (hd : ∀ b ∈ d, b < 256) (h1 : 1 ≤ len) (h16 : len ≤ 16) :
    Sound (s.insert d pos len id).2 ((window d pos len, id) :: A) := by
  have hmono : ∀ x ∈ A, x ∈ (window d pos len, id) :: A :=
    fun x hx => List.mem_cons_of_mem _ hx
  simp only [LPM16.insert]
  split
  · rename_i hlen8
    constructor
    · intro w2 len2 id2 h
      rcases lookupShort_emplace_cases h with hold | ⟨hk, hv⟩
      · obtain ⟨p, hp, rest⟩ := hs.1 w2 len2 id2 hold
        exact ⟨p, hmono _ hp, rest⟩
      · obtain ⟨hw, hl⟩ := Prod.ext_iff.1 hk
        simp only at hw hl
        refine ⟨window d pos len, ?_, ?_, by omega, by omega, ?_,
          window_bytes_lt hd pos len⟩
        · rw [hv]
          exact List.mem_cons_self ..
        · rw [window_length]
          omega
        · rw [hw, bytesToU64LE_eq hd pos hlen8]
    · intro pk sfx sfxLen id2 h
      obtain ⟨p, hp, rest⟩ := hs.2 pk sfx sfxLen id2 h
      exact ⟨p, hmono _ hp, rest⟩
  · rename_i hlen8
    split
    · exact sound_mono hmono hs
    · rename_i hcap
      constructor
      · intro w2 len2 id2 h
        obtain ⟨p, hp, rest⟩ := hs.1 w2 len2 id2 h
        exact ⟨p, hmono _ hp, rest⟩
      · intro pk2 sfx2 sfxLen2 id2 h
        by_cases hpk : bytesToU64LE d pos 8 = pk2
        · rw [← hpk, bucketsGet_set_self] at h
          rw [mem_sortDesc16, List.mem_append] at h
          rcases h with hold | hnew
          · obtain ⟨p, hp, rest⟩ := hs.2 pk2 sfx2 sfxLen2 id2 (hpk ▸ hold)
            exact ⟨p, hmono _ hp, rest⟩
          · simp only [List.mem_singleton, Prod.mk.injEq] at hnew
            obtain ⟨hsfx, hsl, hid⟩ := hnew
            refine ⟨window d pos len, ?_, ?_, by omega, by omega, ?_, ?_, ?_⟩
            · rw [hid]
              exact List.mem_cons_self ..
            · rw [window_length]
              omega
            · rw [← hpk, bytesToU64LE_eq hd pos (by omega),
                window_take_eight (by omega)]
            · rw [hsfx, bytesToU64LE_eq hd (pos + 8) (by omega),
                window_drop_eight (by omega)]
            · exact window_bytes_lt hd pos len
        · rw [bucketsGet_set_ne _ _ hpk] at h
          obtain ⟨p, hp, rest⟩ := hs.2 pk2 sfx2 sfxLen2 id2 h
          exact ⟨p, hmono _ hp, rest⟩

/-! ### Soundness of find_longest_match -/

theorem isPrefix64_true_iff {text pre ts ps : Nat} (hps : ps ≤ 8) :
    isPrefix64 text pre ts ps = true ↔
      ps ≤ ts ∧ text % 2 ^ (8 * ps) = pre % 2 ^ (8 * ps) := by
  rw [isPrefix64, Bool.and_eq_true, decide_eq_true_iff, decide_eq_true_iff,
    sharedPrefixSize_ge_iff hps]

theorem findLongBucket_sound {sfx sfxLen : Nat} :
    ∀ {l : List Entry16} {id L : Nat}, findLongBucket sfx sfxLen l = some (id, L) →
      ∃ es esl, (es, esl, id) ∈ l ∧ isPrefix64 sfx es sfxLen esl = true ∧
        L = 8 + esl := by
  intro l
  induction l with
  | nil => intro id L h; simp [findLongBucket] at h
  | cons e rest ih =>
    intro id L h
    obtain ⟨es, esl, eid⟩ := e
    rw [findLongBucket] at h
    by_cases hp : isPrefix64 sfx es sfxLen esl = true
    · rw [if_pos hp] at h
      obtain ⟨hid, hL⟩ := Prod.ext_iff.1 (Option.some.injEq .. ▸ h :)
      simp only at hid hL
      exact ⟨es, esl, by rw [← hid]; exact List.mem_cons_self .., hp, hL.symm⟩
    · rw [if_neg hp] at h
      obtain ⟨es2, esl2, hmem, hpre, hL⟩ := ih h
      exact ⟨es2, esl2, List.mem_cons_of_mem _ hmem, hpre, hL⟩

theorem maskedWord_eq {d : List Nat} (hd : ∀ b ∈ d, b < 256) (pos : Nat)
    {sl : Nat} (hsl : sl ≤ 8) :
    wordOf (window d pos 8) % 2 ^ (8 * sl) = wordOf (window d pos sl) := by
  rw [← pow256, wordOf_mod _ (window_bytes_lt hd pos 8) sl, window_take,
    Nat.min_eq_left hsl]

theorem findShort_sound {m : List ((Nat × Nat) × Nat)} {d : List Nat}
    {pos : Nat} (hd : ∀ b ∈ d, b < 256) :
    ∀ (sl w : Nat), sl ≤ 8 →
      w % 2 ^ (8 * sl) = wordOf (window d pos 8) % 2 ^ (8 * sl) →
      ∀ {id L : Nat}, findShort m w sl = some (id, L) →
        1 ≤ L ∧ L ≤ sl ∧ lookupShort m (wordOf (window d pos L), L) = some id := by
  intro sl
  induction sl with
  | zero => intro w _ _ id L h; simp [findShort] at h
  | succ len ih =>
    intro w hsl hw id L h
    rw [findShort] at h
    have hw2 : w &&& MASKS (len + 1) = wordOf (window d pos (len + 1)) := by
      rw [and_MASKS _ hsl, hw, maskedWord_eq hd pos hsl]
    revert h
    cases hlk : lookupShort m (w &&& MASKS (len + 1), len + 1) with
    | some id0 =>
      intro h
      simp only [Option.some.injEq] at h
      obtain ⟨hid, hL⟩ := Prod.ext_iff.1 h.symm
      simp only at hid hL
      subst hL
      refine ⟨by omega, by omega, ?_⟩
      rw [← hw2, hid]
      exact hlk
    | none =>
      intro h
      have hmod : (w &&& MASKS (len + 1)) % 2 ^ (8 * len) =
          wordOf (window d pos 8) % 2 ^ (8 * len) := by
        rw [hw2, ← maskedWord_eq hd pos hsl]
        exact Nat.mod_mod_of_dvd _ (pow_dvd_pow 2 (by omega))
      obtain ⟨ha, hb, hc⟩ := ih (w &&& MASKS (len + 1)) (by omega) hmod h
      exact ⟨ha, by omega, hc⟩

theorem find_sound {s : LPM16} {A : List (List Nat × Nat)} {d : List Nat}
    {pos len id L : Nat} (hs : Sound s A) (hd : ∀ b ∈ d, b < 256)
    (h : s.findLongestMatch d pos len = some (id, L)) :
    1 ≤ L ∧ L ≤ len ∧ (window d pos L, id) ∈ A := by
  rw [LPM16.findLongestMatch] at h
  by_cases h8 : 8 < len
  · rw [if_pos h8] at h
    revert h
    cases hlong : findLongBucket (bytesToU64LE d (pos + 8) (min len 16 - 8))
        (min len 16 - 8) (bucketsGet s.buckets (bytesToU64LE d pos 8)) with
    | some r =>
      intro h
      simp only [Option.some.injEq] at h
      subst h
      obtain ⟨es, esl, hmem, hpre, hL⟩ := findLongBucket_sound hlong
      obtain ⟨p, hpA, hplen, hesl1, hesl8, hpk, hsfx, hpb⟩ :=
        hs.2 (bytesToU64LE d pos 8) es esl id hmem
      have hsfxLen : min len 16 - 8 ≤ 8 := by omega
      rw [isPrefix64_true_iff hesl8] at hpre
      obtain ⟨hle, hmodeq⟩ := hpre
      -- the cursor suffix word agrees with the entry suffix on esl bytes
      have hcursor : bytesToU64LE d (pos + 8) (min len 16 - 8) % 2 ^ (8 * esl) =
          wordOf (window d (pos + 8) esl) := by
        rw [bytesToU64LE_eq hd (pos + 8) hsfxLen]
        have h1 : wordOf (window d (pos + 8) (min len 16 - 8)) % 2 ^ (8 * esl) =
            wordOf ((window d (pos + 8) (min len 16 - 8)).take esl) := by
          rw [← pow256]
          exact wordOf_mod _ (window_bytes_lt hd (pos + 8) _) esl
        rw [h1, window_take, Nat.min_eq_left hle]
      have hes : es % 2 ^ (8 * esl) = es := by
        apply Nat.mod_eq_of_lt
        rw [hsfx, ← pow256]
        have hdl : (p.drop 8).length = esl := by
          rw [List.length_drop, hplen]
          omega
        have := wordOf_lt (p.drop 8) (fun b hb => hpb b (List.mem_of_mem_drop hb))
        rw [hdl] at this
        exact this
      have hdropeq : p.drop 8 = window d (pos + 8) esl := by
        apply wordOf_inj
        · rw [List.length_drop, hplen, window_length]
          omega
        · exact fun b hb => hpb b (List.mem_of_mem_drop hb)
        · exact window_bytes_lt hd (pos + 8) esl
        · rw [← hsfx, ← hes, ← hmodeq, hcursor]
      have htakeeq : p.take 8 = window d pos 8 := by
        apply wordOf_inj
        · rw [List.length_take, hplen, window_length]
          omega
        · exact fun b hb => hpb b (List.mem_of_mem_take hb)
        · exact window_bytes_lt hd pos 8
        · rw [← hpk, bytesToU64LE_eq hd pos (by omega)]
      have hp8 : (8 : Nat) ≤ p.length := by omega
      have hpeq : p = window d pos (8 + esl) := by
        have hsplit := (List.take_append_drop 8 p).symm
        rw [hsplit, htakeeq, hdropeq, window_append]
      refine ⟨by omega, by omega, ?_⟩
      rw [hL, ← hpeq]
      exact hpA
    | none =>
      intro h
      simp only at h
      have hw8 : bytesToU64LE d pos 8 % 2 ^ (8 * min len 8) =
          wordOf (window d pos 8) % 2 ^ (8 * min len 8) := by
        rw [bytesToU64LE_eq hd pos (by omega)]
      obtain ⟨ha, hb, hc⟩ :=
        findShort_sound hd (min len 8) (bytesToU64LE d pos 8)
          (by omega) hw8 h
      obtain ⟨p, hpA, hplen, h1p, h8p, hwp, hpb⟩ := hs.1 _ _ _ hc
      have hpeq : p = window d pos L := by
        apply wordOf_inj
        · rw [hplen, window_length]
        · exact hpb
        · exact window_bytes_lt hd pos L
        · rw [← hwp]
      refine ⟨ha, by omega, ?_⟩
      rw [← hpeq]
      exact hpA
  · rw [if_neg h8] at h
    simp only at h
    have hw8 : bytesToU64LE d pos 8 % 2 ^ (8 * min len 8) =
        wordOf (window d pos 8) % 2 ^ (8 * min len 8) := by
      rw [bytesToU64LE_eq hd pos (by omega)]
    obtain ⟨ha, hb, hc⟩ :=
      findShort_sound hd (min len 8) (bytesToU64LE d pos 8)
        (by omega) hw8 h
    obtain ⟨p, hpA, hplen, h1p, h8p, hwp, hpb⟩ := hs.1 _ _ _ hc
    have hpeq : p = window d pos L := by
      apply wordOf_inj
      · rw [hplen, window_length]
      · exact hpb
      · exact window_bytes_lt hd pos L
      · rw [← hwp]
    refine ⟨ha, by omega, ?_⟩
    rw [← hpeq]
    exact hpA

/-! ### Progress: single-byte tokens make every lookup succeed -/

/-- All 256 single-byte keys are present in the short map. -/
def HasBytes (s : LPM16) : Prop :=
  ∀ b : Nat, b < 256 → (lookupShort s.dictionary (b, 1)).isSome

theorem emplace_isSome {m : List ((Nat × Nat) × Nat)} {k : Nat × Nat}
    (k2 : Nat × Nat) (v2 : Nat) (h : (lookupShort m k).isSome) :
    (lookupShort (emplaceShort m k2 v2) k).isSome := by
  obtain ⟨v, hv⟩ := Option.isSome_iff_exists.1 h
  rw [lookupShort_emplace_of_lookup k2 v2 hv]
  rfl

theorem insert_hasBytes {s : LPM16} {d : List Nat} {pos len id : Nat}
    (h : HasBytes s) : HasBytes (s.insert d pos len id).2 := by
  intro b hb
  simp only [LPM16.insert]
  split
  · exact emplace_isSome _ _ (h b hb)
  · split
    · exact h b hb
    · exact h b hb

theorem findShort_isSome {m : List ((Nat × Nat) × Nat)} :
    ∀ {sl w : Nat}, 1 ≤ sl → sl ≤ 8 →
      (lookupShort m (w % 256, 1)).isSome → (findShort m w sl).isSome := by
  intro sl
  induction sl with
  | zero => omega
  | succ len ih =>
    intro w h1 hsl8 hb
    rw [findShort]
    cases hlk : lookupShort m (w &&& MASKS (len + 1), len + 1) with
    | some id => simp
    | none =>
      simp only
      cases len with
      | zero =>
        exfalso
        have hmask : w &&& MASKS 1 = w % 256 := by
          have := @and_MASKS w 1 (by omega)
          simpa using this
        rw [hmask] at hlk
        rw [hlk] at hb
        simp at hb
      | succ len2 =>
        apply ih (by omega) (by omega)
        have hmask : (w &&& MASKS (len2 + 2)) % 256 = w % 256 := by
          rw [@and_MASKS w (len2 + 2) (by omega)]
          have h256 : (256 : Nat) = 2 ^ (8 * 1) := by norm_num
          rw [h256]
          exact Nat.mod_mod_of_dvd _ (pow_dvd_pow 2 (by omega))
        rw [hmask]
        exact hb

theorem window_one (d : List Nat) (pos : Nat) :
    window d pos 1 = [d.getD pos 0] := by
  have h : List.range 1 = [0] := rfl
  simp [window, h]

theorem find_progress {s : LPM16} {d : List Nat} {pos len : Nat}
    (h : HasBytes s) (hd : ∀ b ∈ d, b < 256) (h1 : 1 ≤ len) :
    (s.findLongestMatch d pos len).isSome := by
  simp only [LPM16.findLongestMatch]
  have hbyte : d.getD pos 0 < 256 := by
    rcases Nat.lt_or_ge pos d.length with hp | hp
    · apply hd
      rw [List.getD_eq_getElem _ _ hp]
      exact List.getElem_mem ..
    · rw [List.getD_eq_default _ _ hp]
      omega
  have hkey : bytesToU64LE d pos 8 % 256 = d.getD pos 0 := by
    rw [bytesToU64LE_eq hd pos (by omega)]
    have h256 : (256 : Nat) = 2 ^ (8 * 1) := by norm_num
    rw [h256, maskedWord_eq hd pos (by omega), window_one, wordOf, wordOf]
    omega
  have hshort : (findShort s.dictionary (bytesToU64LE d pos 8) (min len 8)).isSome := by
    apply findShort_isSome (by omega) (by omega)
    rw [hkey]
    exact h _ hbyte
  by_cases h8 : 8 < len
  · rw [if_pos h8]
    cases hlong : findLongBucket (bytesToU64LE d (pos + 8) (min len 16 - 8))
        (min len 16 - 8) (bucketsGet s.buckets (bytesToU64LE d pos 8)) with
    | some r => simp
    | none => exact hshort
  · rw [if_neg h8]
    exact hshort

/-! ### Dictionary slices and the trainer invariant -/

/-- The pattern stored for token id `i`: the bytes of the dictionary blob
between offsets `i` and `i + 1`. -/
def dictSlice (dict offsets : List Nat) (i : Nat) : List Nat :=
  (dict.drop (offsets.getD i 0)).take (offsets.getD (i + 1) 0 - offsets.getD i 0)

/-- Association of every token id with its stored pattern. -/
def assocOf (dict offsets : List Nat) : List (List Nat × Nat) :=
  (List.range (offsets.length - 1)).map (fun i => (dictSlice dict offsets i, i))

theorem mem_assocOf {dict offsets : List Nat} {p : List Nat} {id : Nat} :
    (p, id) ∈ assocOf dict offsets ↔
      id < offsets.length - 1 ∧ p = dictSlice dict offsets id := by
  rw [assocOf, List.mem_map]
  constructor
  · intro ⟨i, hi, heq⟩
    obtain ⟨h1, h2⟩ := Prod.ext_iff.1 heq
    simp only at h1 h2
    subst h2
    exact ⟨List.mem_range.1 hi, h1.symm⟩
  · intro ⟨h1, h2⟩
    exact ⟨id, List.mem_range.2 h1, by rw [h2]⟩

theorem dictSlice_length {dict offsets : List Nat} {i : Nat}
    (hm : offsets.getD i 0 ≤ offsets.getD (i + 1) 0)
    (hb : offsets.getD (i + 1) 0 ≤ dict.length) :
    (dictSlice dict offsets i).length = offsets.getD (i + 1) 0 - offsets.getD i 0 := by
  rw [dictSlice, List.length_take, List.length_drop]
  omega

theorem dictSlice_append {dict offsets : List Nat} {i : Nat} (w : List Nat) (x : Nat)
    (hi : i + 1 < offsets.length)
    (hb : offsets.getD (i + 1) 0 ≤ dict.length)
    (hm : offsets.getD i 0 ≤ offsets.getD (i + 1) 0) :
    dictSlice (dict ++ w) (offsets ++ [x]) i = dictSlice dict offsets i := by
  rw [dictSlice, dictSlice,
    List.getD_append offsets [x] 0 i (by omega),
    List.getD_append offsets [x] 0 (i + 1) hi,
    List.drop_append_of_le_length (by omega),
    List.take_append_of_le_length (by rw [List.length_drop]; omega)]

theorem dictSlice_new {dict offsets : List Nat} (w : List Nat)
    (hne : 1 ≤ offsets.length)
    (hlast : offsets.getD (offsets.length - 1) 0 = dict.length) :
    dictSlice (dict ++ w) (offsets ++ [dict.length + w.length])
      (offsets.length - 1) = w := by
  rw [dictSlice,
    List.getD_append offsets _ 0 (offsets.length - 1) (by omega)]
  have hidx : offsets.length - 1 + 1 = offsets.length := by omega
  rw [hidx, List.getD_append_right offsets _ 0 offsets.length (by omega)]
  simp only [Nat.sub_self, List.getD_cons_zero, hlast]
  have hd8 : (dict.length : Nat) = dict.length := rfl
  conv_lhs => rw [show dict.length = (dict : List Nat).length from rfl]
  rw [List.drop_left]
  have : dict.length + w.length - dict.length = w.length := by omega
  rw [this, List.take_of_length_le (by omega)]

/-- Invariant of `OnPair16::train_dictionary` relating the matcher, the
dictionary blob and the offset table. -/
structure TrainInv (st : TrainSt) : Prop where
  sound : Sound st.lpm (assocOf st.dict st.offsets)
  hasB : HasBytes st.lpm
  olen : 257 ≤ st.offsets.length
  head0 : st.offsets.getD 0 0 = 0
  mono : ∀ i, i + 1 < st.offsets.length →
    st.offsets.getD i 0 ≤ st.offsets.getD (i + 1) 0
  last : st.offsets.getD (st.offsets.length - 1) 0 = st.dict.length
  bounded : ∀ i, i < st.offsets.length → st.offsets.getD i 0 ≤ st.dict.length
  len16 : ∀ i, i + 1 < st.offsets.length →
    st.offsets.getD (i + 1) 0 - st.offsets.getD i 0 ≤ 16
  idinit : ∀ i, i ≤ 256 → st.offsets.getD i 0 = i
  dictinit : ∀ i, i < 256 → st.dict.getD i 0 = i
  dictBytes : ∀ b ∈ st.dict, b < 256
  nid : st.full = false → st.nextId + 1 = st.offsets.length

theorem trainInv_extend {st : TrainSt} {d : List Nat} (inv : TrainInv st)
    (hd : ∀ b ∈ d, b < 256) {pos len : Nat} (h1 : 1 ≤ len) (h16 : len ≤ 16)
    {lpm1 : LPM16}
    (hins : st.lpm.insert d pos len (st.offsets.length - 1) = (true, lpm1))
    (f2 : List ((Nat × Nat) × Nat)) (n2 : Nat) (fl2 : Bool)
    (hn : fl2 = false → n2 + 1 = st.offsets.length + 1) :
    TrainInv
      { lpm := lpm1
        freq := f2
        dict := st.dict ++ window d pos len
        offsets := st.offsets ++ [(st.dict ++ window d pos len).length]
        nextId := n2
        full := fl2 } := by
  have holen := inv.olen
  have hwlen : (window d pos len).length = len := window_length ..
  have hdlen : (st.dict ++ window d pos len).length = st.dict.length + len := by
    rw [List.length_append, hwlen]
  have hsub : ∀ x ∈ (window d pos len, st.offsets.length - 1) ::
      assocOf st.dict st.offsets,
      x ∈ assocOf (st.dict ++ window d pos len)
        (st.offsets ++ [(st.dict ++ window d pos len).length]) := by
    intro x hx
    rcases List.mem_cons.1 hx with rfl | hold
    · rw [mem_assocOf]
      constructor
      · rw [List.length_append]
        simp only [List.length_singleton]
        omega
      · have h2 := @dictSlice_new st.dict st.offsets
          (window d pos len) (by omega) inv.last
        rw [hwlen] at h2
        rw [hdlen]
        exact h2.symm
    · obtain ⟨p, id⟩ := x
      rw [mem_assocOf] at hold
      obtain ⟨hid, hp⟩ := hold
      rw [mem_assocOf]
      constructor
      · rw [List.length_append]
        simp only [List.length_singleton]
        omega
      · rw [dictSlice_append _ _ (by omega) (inv.bounded _ (by omega))
          (inv.mono _ (by omega))]
        exact hp
  refine ⟨?_, ?_, ?_, ?_, ?_, ?_, ?_, ?_, ?_, ?_, ?_, ?_⟩
  · apply sound_mono hsub
    have := @insert_sound _ _ _ pos len (st.offsets.length - 1)
      inv.sound hd h1 h16
    rw [hins] at this
    exact this
  · have := @insert_hasBytes _ d pos len (st.offsets.length - 1) inv.hasB
    rw [hins] at this
    exact this
  · simp only [List.length_append, List.length_singleton]
    omega
  · rw [List.getD_append _ _ 0 0 (by omega)]
    exact inv.head0
  · intro i hi
    simp only [List.length_append, List.length_singleton] at hi
    rcases Nat.lt_or_ge (i + 1) st.offsets.length with hlt | hge
    · rw [List.getD_append _ _ 0 i (by omega), List.getD_append _ _ 0 (i + 1) hlt]
      exact inv.mono i hlt
    · have hieq : i + 1 = st.offsets.length := by omega
      rw [List.getD_append _ _ 0 i (by omega),
        List.getD_append_right _ _ 0 (i + 1) (by omega), hieq]
      simp only [Nat.sub_self, List.getD_cons_zero]
      have : i = st.offsets.length - 1 := by omega
      rw [this, inv.last, hdlen]
      omega
  · simp only [List.length_append, List.length_singleton]
    have hidx : st.offsets.length + 1 - 1 = st.offsets.length := by omega
    rw [hidx, List.getD_append_right _ _ 0 st.offsets.length (by omega)]
    simp [hdlen]
  · intro i hi
    simp only [List.length_append, List.length_singleton] at hi
    rcases Nat.lt_or_ge i st.offsets.length with hlt | hge
    · rw [List.getD_append _ _ 0 i hlt, hdlen]
      have := inv.bounded i hlt
      omega
    · have : i = st.offsets.length := by omega
      rw [this, List.getD_append_right _ _ 0 st.offsets.length (by omega)]
      simp [hdlen]
  · intro i hi
    simp only [List.length_append, List.length_singleton] at hi
    rcases Nat.lt_or_ge (i + 1) st.offsets.length with hlt | hge
    · rw [List.getD_append _ _ 0 i (by omega), List.getD_append _ _ 0 (i + 1) hlt]
      exact inv.len16 i hlt
    · have hieq : i + 1 = st.offsets.length := by omega
      rw [List.getD_append _ _ 0 i (by omega),
        List.getD_append_right _ _ 0 (i + 1) (by omega), hieq]
      simp only [Nat.sub_self, List.getD_cons_zero]
      have : i = st.offsets.length - 1 := by omega
      rw [this, inv.last, hdlen]
      omega
  · intro i hi
    rw [List.getD_append _ _ 0 i (by omega)]
    exact inv.idinit i hi
  · intro i hi
    have h256 : 256 ≤ st.dict.length := by
      have := inv.bounded 256 (by omega)
      rw [inv.idinit 256 (by omega)] at this
      exact this
    rw [List.getD_append _ _ 0 i (by omega)]
    exact inv.dictinit i hi
  · intro b hb
    rcases List.mem_append.1 hb with h | h
    · exact inv.dictBytes b h
    · exact window_bytes_lt hd pos len b h
  · intro hfl
    simp only [List.length_append, List.length_singleton]
    have := hn hfl
    omega

theorem insert_false {s s2 : LPM16} {d : List Nat} {pos len id : Nat}
    (h : s.insert d pos len id = (false, s2)) : s2 = s := by
  simp only [LPM16.insert] at h
  split at h
  · exact absurd (Prod.ext_iff.1 h).1 (by simp)
  · split at h
    · exact (Prod.ext_iff.1 h).2.symm
    · exact absurd (Prod.ext_iff.1 h).1 (by simp)

theorem trainInv_same {st : TrainSt} (inv : TrainInv st)
    (f : List ((Nat × Nat) × Nat)) : TrainInv { st with freq := f } :=
  ⟨inv.sound, inv.hasB, inv.olen, inv.head0, inv.mono, inv.last, inv.bounded,
    inv.len16, inv.idinit, inv.dictinit, inv.dictBytes, inv.nid⟩

theorem trainLoop_inv {d : List Nat} (hd : ∀ b ∈ d, b < 256)
    {endp threshold : Nat} :
    ∀ (fuel pos prevId prevLen : Nat) (st : TrainSt), TrainInv st →
      st.full = false →
      TrainInv (trainLoop d endp threshold fuel pos prevId prevLen st) := by
  intro fuel
  induction fuel with
  | zero => intro pos prevId prevLen st inv _; exact inv
  | succ fuel ih =>
    intro pos prevId prevLen st inv hful
    rw [trainLoop]
    split
    case isFalse => exact inv
    case isTrue hpos =>
      cases hm : st.lpm.findLongestMatch d pos (endp - pos) with
      | none => exact inv
      | some ml =>
        obtain ⟨matchId, matchLen⟩ := ml
        obtain ⟨hm1, hmle, hmA⟩ := find_sound inv.sound hd hm
        simp only
        split
        case isTrue hgate =>
          split
          case isTrue hth =>
            cases hins : st.lpm.insert d (pos - prevLen) (prevLen + matchLen)
                st.nextId with
            | mk ok lpm1 =>
              cases ok with
              | true =>
                have hnid : st.nextId = st.offsets.length - 1 := by
                  have := inv.nid hful
                  omega
                rw [hnid] at hins
                have hext := @trainInv_extend _ _ inv hd
                  (pos - prevLen) (prevLen + matchLen)
                  (by omega) (by omega) _ hins
                simp only
                split
                case isTrue h65 =>
                  exact hext _ st.nextId true (by intro hc; exact absurd hc (by simp))
                case isFalse h65 =>
                  apply ih
                  · have := hext (freqErase
                      (freqSet st.freq (prevId, matchId)
                        ((freqGet st.freq (prevId, matchId) + 1) % 65536))
                      (prevId, matchId)) (st.nextId + 1) st.full
                      (fun _ => by have := inv.nid hful; omega)
                    exact this
                  · exact hful
              | false =>
                have heq : lpm1 = st.lpm := insert_false hins
                subst heq
                apply ih
                · exact trainInv_same inv _
                · exact hful
          case isFalse hth =>
            apply ih
            · exact trainInv_same inv _
            · exact hful
        case isFalse hgate =>
          exact ih _ _ _ st inv hful

theorem trainOuter_inv {d ends : List Nat} (hd : ∀ b ∈ d, b < 256)
    {threshold : Nat} :
    ∀ (order : List Nat) (st : TrainSt), TrainInv st →
      TrainInv (trainOuter d ends threshold order st) := by
  intro order
  induction order with
  | nil => intro st inv; exact inv
  | cons idx rest ih =>
    intro st inv
    rw [trainOuter]
    split
    case isTrue => exact inv
    case isFalse hful =>
      have hful2 : st.full = false := by
        revert hful
        cases st.full <;> simp
      simp only
      split
      case isTrue => exact ih st inv
      case isFalse =>
        cases hm : st.lpm.findLongestMatch d (ends.getD idx 0)
            (ends.getD (idx + 1) 0 - ends.getD idx 0) with
        | none => exact ih st inv
        | some pm =>
          obtain ⟨pid, plen⟩ := pm
          apply ih
          exact trainLoop_inv hd _ _ _ _ st inv hful2

/-! ### The initial dictionary: 256 identity tokens -/

theorem range_getD (n i : Nat) (h : i < n) : (List.range n).getD i 0 = i := by
  rw [List.getD_eq_getElem _ _ (by simpa using h)]
  exact List.getElem_range ..

theorem dictSlice_range {n i : Nat} (h : i < n) :
    dictSlice (List.range n) (List.range (n + 1)) i = [i] := by
  rw [dictSlice, range_getD _ _ (by omega), range_getD _ _ (by omega)]
  have h1 : i + 1 - i = 1 := by omega
  rw [h1]
  apply List.ext_getElem
  · simp only [List.length_take, List.length_drop, List.length_range,
      List.length_singleton]
    omega
  · intro j h1j h2j
    have hj : j = 0 := by
      simp only [List.length_take, List.length_drop, List.length_range] at h1j
      omega
    subst hj
    simp [List.getElem_take, List.getElem_drop, List.getElem_range]

theorem emplace_self_isSome (m : List ((Nat × Nat) × Nat)) (k : Nat × Nat)
    (v : Nat) : (lookupShort (emplaceShort m k v) k).isSome := by
  by_cases hin : (lookupShort m k).isSome
  · rw [emplaceShort, if_pos hin]
    exact hin
  · rw [emplaceShort, if_neg hin, lookupShort_append]
    rw [Option.not_isSome_iff_eq_none] at hin
    rw [hin]
    simp [lookupShort]

theorem insert_short_dictionary {s : LPM16} {d : List Nat} {pos len id : Nat}
    (hlen : len ≤ 8) :
    (s.insert d pos len id).2.dictionary =
      emplaceShort s.dictionary (bytesToU64LE d pos len, len) id := by
  simp only [LPM16.insert, if_pos hlen]

/-- Invariant of the initialisation fold after the first `k` bytes. -/
structure InitInv (k : Nat) (st : TrainSt) : Prop where
  dict_eq : st.dict = List.range k
  off_eq : st.offsets = List.range (k + 1)
  sound : Sound st.lpm (assocOf st.dict st.offsets)
  bytes : ∀ b, b < k → (lookupShort st.lpm.dictionary (b, 1)).isSome
  nid_eq : st.nextId = 256
  full_eq : st.full = false
  freq_eq : st.freq = []

theorem bytesToU64LE_single {k : Nat} (hk : k < 256) :
    bytesToU64LE [k] 0 1 = k := by
  rw [bytesToU64LE_eq (d := [k]) (by simpa using hk) 0 (by omega), window_one]
  simp [wordOf, List.getD_cons_zero]

theorem initInv_steps : ∀ k, k ≤ 256 →
    InitInv k ((List.range k).foldl initStep
      { lpm := LPM16.empty, freq := [], dict := [], offsets := [0],
        nextId := 256, full := false }) := by
  intro k
  induction k with
  | zero =>
    intro _
    exact ⟨rfl, rfl, sound_empty, by omega, rfl, rfl, rfl⟩
  | succ k ih =>
    intro hk256
    have inv := ih (by omega)
    rw [List.range_succ k, List.foldl_append]
    set st := (List.range k).foldl initStep
      { lpm := LPM16.empty, freq := [], dict := [], offsets := [0],
        nextId := 256, full := false } with hst
    simp only [List.foldl_cons, List.foldl_nil]
    have hkb : (k : Nat) < 256 := by omega
    have hdd : ∀ b ∈ [k], b < 256 := by simpa using hkb
    have hw1 : window [k] 0 1 = [k] := by
      rw [window_one]
      simp [List.getD_cons_zero]
    have hsound2 := @insert_sound _ _ [k] 0 1 k
      inv.sound hdd (by omega) (by omega)
    rw [hw1] at hsound2
    have hsub : ∀ x ∈ ([k], k) :: assocOf st.dict st.offsets,
        x ∈ assocOf (st.dict ++ [k]) (st.offsets ++ [(st.dict ++ [k]).length]) := by
      intro x hx
      have hde : st.dict ++ [k] = List.range (k + 1) := by
        rw [inv.dict_eq, ← List.range_succ]
      have hlen1 : (st.dict ++ [k]).length = k + 1 := by
        rw [hde, List.length_range]
      have hoe : st.offsets ++ [(st.dict ++ [k]).length] = List.range (k + 2) := by
        rw [inv.off_eq, hlen1, ← List.range_succ]
      rw [hoe, hde]
      rcases List.mem_cons.1 hx with rfl | hold
      · rw [mem_assocOf]
        refine ⟨by simp [List.length_range], ?_⟩
        rw [show k + 2 = (k + 1) + 1 from rfl, dictSlice_range (by omega)]
      · obtain ⟨p, id⟩ := x
        rw [inv.dict_eq, inv.off_eq] at hold
        rw [mem_assocOf] at hold
        obtain ⟨hid, hp⟩ := hold
        rw [List.length_range] at hid
        rw [mem_assocOf]
        constructor
        · simp only [List.length_range]
          omega
        · rw [show k + 2 = (k + 1) + 1 from rfl, dictSlice_range (by omega)]
          rw [hp, show k + 1 = k + 1 from rfl]
          rw [dictSlice_range (by omega)]
    refine ⟨?_, ?_, ?_, ?_, ?_, ?_, ?_⟩
    · show st.dict ++ [k] = List.range (k + 1)
      rw [inv.dict_eq, ← List.range_succ]
    · show st.offsets ++ [(st.dict ++ [k]).length] = List.range (k + 1 + 1)
      have hlen1 : (st.dict ++ [k]).length = k + 1 := by
        rw [inv.dict_eq, ← List.range_succ, List.length_range]
      rw [inv.off_eq, hlen1, ← List.range_succ]
    · exact sound_mono hsub hsound2
    · intro b hb
      simp only [initStep]
      rw [insert_short_dictionary (by omega), bytesToU64LE_single hkb]
      rcases Nat.lt_or_ge b k with hbk | hbk
      · exact emplace_isSome _ _ (inv.bytes b hbk)
      · have hbe : b = k := by omega
        subst hbe
        exact emplace_self_isSome ..
    · exact inv.nid_eq
    · exact inv.full_eq
    · exact inv.freq_eq

theorem initTrainSt_invs : TrainInv initTrainSt ∧ initTrainSt.freq = [] ∧
    initTrainSt.full = false ∧ initTrainSt.nextId = 256 := by
  have inv := initInv_steps 256 (by omega)
  rw [initTrainSt]
  set st := (List.range 256).foldl initStep
    { lpm := LPM16.empty, freq := [], dict := [], offsets := [0],
      nextId := 256, full := false } with hst
  have holen : st.offsets.length = 257 := by
    rw [inv.off_eq, List.length_range]
  have hdlen : st.dict.length = 256 := by
    rw [inv.dict_eq, List.length_range]
  refine ⟨⟨inv.sound, ?_, ?_, ?_, ?_, ?_, ?_, ?_, ?_, ?_, ?_, ?_⟩,
    inv.freq_eq, inv.full_eq, inv.nid_eq⟩
  · intro b hb
    exact inv.bytes b hb
  · omega
  · rw [inv.off_eq, range_getD _ _ (by omega)]
  · intro i hi
    rw [holen] at hi
    rw [inv.off_eq, range_getD _ _ (by omega), range_getD _ _ (by omega)]
    omega
  · rw [holen, inv.off_eq, hdlen]
    rw [range_getD _ _ (by omega)]
  · intro i hi
    rw [holen] at hi
    rw [inv.off_eq, hdlen, range_getD _ _ (by omega)]
    omega
  · intro i hi
    rw [holen] at hi
    rw [inv.off_eq, range_getD _ _ (by omega), range_getD _ _ (by omega)]
    omega
  · intro i hi
    rw [inv.off_eq, range_getD _ _ (by omega)]
  · intro i hi
    rw [inv.dict_eq, range_getD _ _ (by omega)]
  · intro b hb
    rw [inv.dict_eq] at hb
    exact List.mem_range.1 hb
  · intro _
    rw [inv.nid_eq, holen]

/-! ### The greedy parse -/

theorem trainDictionary_inv {d ends order : List Nat}
    (hd : ∀ b ∈ d, b < 256) (threshold : Nat) :
    TrainInv (trainDictionary d ends order threshold) := by
  obtain ⟨inv, _, _, _⟩ := initTrainSt_invs
  exact trainOuter_inv hd order initTrainSt inv

theorem parseString_acc (lpm : LPM16) (d : List Nat) (endp : Nat) :
    ∀ (fuel pos : Nat) (acc : List Nat),
      parseString lpm d endp fuel pos acc =
        (acc ++ (parseString lpm d endp fuel pos []).1,
          (parseString lpm d endp fuel pos []).2) := by
  intro fuel
  induction fuel with
  | zero => intro pos acc; simp [parseString]
  | succ fuel ih =>
    intro pos acc
    rw [parseString, parseString]
    split
    · cases hm : lpm.findLongestMatch d pos (endp - pos) with
      | none => simp
      | some r =>
        obtain ⟨id, len⟩ := r
        simp only
        rw [ih (pos + len) (acc ++ [id]), ih (pos + len) ([] ++ [id])]
        simp [List.append_assoc]
    · simp

/-- Decode a token list through the dictionary blob and offset table. -/
def decodeList (dict offsets : List Nat) (ts : List Nat) : List Nat :=
  (ts.map (dictSlice dict offsets)).flatten

theorem decodeList_nil (dict offsets : List Nat) :
    decodeList dict offsets [] = [] := rfl

theorem decodeList_cons (dict offsets : List Nat) (id : Nat) (ts : List Nat) :
    decodeList dict offsets (id :: ts) =
      dictSlice dict offsets id ++ decodeList dict offsets ts := by
  rw [decodeList, List.map_cons, List.flatten_cons, decodeList]

theorem parseString_spec {lpm : LPM16} {dict offsets d : List Nat}
    (hs : Sound lpm (assocOf dict offsets)) (hb : HasBytes lpm)
    (hd : ∀ b ∈ d, b < 256) :
    ∀ (fuel pos endp : Nat), pos ≤ endp → endp ≤ d.length →
      endp - pos ≤ fuel →
      (parseString lpm d endp fuel pos []).2 = endp ∧
      decodeList dict offsets (parseString lpm d endp fuel pos []).1 =
        (d.drop pos).take (endp - pos) ∧
      ∀ id ∈ (parseString lpm d endp fuel pos []).1,
        id < offsets.length - 1 := by
  intro fuel
  induction fuel with
  | zero =>
    intro pos endp hpe hed hfu
    have : pos = endp := by omega
    subst this
    rw [parseString]
    refine ⟨rfl, ?_, by simp⟩
    simp [decodeList_nil]
  | succ fuel ih =>
    intro pos endp hpe hed hfu
    rw [parseString]
    by_cases hlt : pos < endp
    · rw [if_pos hlt]
      cases hm : lpm.findLongestMatch d pos (endp - pos) with
      | none =>
        exfalso
        have := @find_progress _ _ pos (endp - pos) hb hd (by omega)
        rw [hm] at this
        simp at this
      | some r =>
        obtain ⟨id, len⟩ := r
        simp only
        obtain ⟨hl1, hlle, hmA⟩ := find_sound hs hd hm
        rw [mem_assocOf] at hmA
        obtain ⟨hid, hslice⟩ := hmA
        rw [parseString_acc]
        obtain ⟨ihp, ihdec, ihids⟩ := ih (pos + len) endp (by omega) hed (by omega)
        refine ⟨ihp, ?_, ?_⟩
        · simp only [List.nil_append, List.singleton_append]
          rw [decodeList_cons, ihdec, ← hslice,
            window_eq_slice (by omega : pos + len ≤ d.length)]
          have hdd : (d.drop pos).drop len = d.drop (pos + len) := by
            rw [List.drop_drop]
          have htake : (d.drop pos).take (endp - pos) =
              (d.drop pos).take (len + (endp - (pos + len))) := by
            congr 1
            omega
          rw [htake, List.take_add, hdd]
        · intro id2 hid2
          simp only [List.nil_append, List.singleton_append,
            List.mem_cons] at hid2
          rcases hid2 with rfl | h2
          · exact hid
          · exact ihids id2 h2
    · rw [if_neg hlt]
      have : pos = endp := by omega
      subst this
      refine ⟨rfl, ?_, by simp⟩
      simp [decodeList_nil]

/-- Tokens of one string under the final matcher. -/
def parseOne (lpm : LPM16) (d : List Nat) (start endp : Nat) : List Nat :=
  (parseString lpm d endp (endp - start) start []).1

/-- Per-string token lists for strings `i, i+1, ..., i+count-1`. -/
def segsOf (lpm : LPM16) (d ends : List Nat) (i count : Nat) : List (List Nat) :=
  (List.range count).map
    (fun k => parseOne lpm d (ends.getD (i + k) 0) (ends.getD (i + k + 1) 0))

/-- Running end positions of a list of segments, starting from `base`. -/
def boundsOf (base : Nat) : List (List Nat) → List Nat
  | [] => []
  | s :: rest => (base + s.length) :: boundsOf (base + s.length) rest

theorem segsOf_zero (lpm : LPM16) (d ends : List Nat) (i : Nat) :
    segsOf lpm d ends i 0 = [] := by
  simp [segsOf]

theorem segsOf_succ (lpm : LPM16) (d ends : List Nat) (i count : Nat) :
    segsOf lpm d ends i (count + 1) =
      parseOne lpm d (ends.getD i 0) (ends.getD (i + 1) 0) ::
        segsOf lpm d ends (i + 1) count := by
  rw [segsOf, List.range_succ_eq_map, List.map_cons, List.map_map]
  have htail : List.map ((fun k => parseOne lpm d (ends.getD (i + k) 0)
      (ends.getD (i + k + 1) 0)) ∘ Nat.succ) (List.range count) =
      segsOf lpm d ends (i + 1) count := by
    rw [segsOf]
    apply List.map_congr_left
    intro k _
    simp only [Function.comp, Nat.succ_eq_add_one]
    have h1 : i + (k + 1) = i + 1 + k := by omega
    rw [h1]
  rw [htail]
  simp

theorem parseLoop_char (lpm : LPM16) (d ends : List Nat) :
    ∀ (count i : Nat) (cd sb : List Nat),
      parseLoop lpm d ends count i cd sb =
        (cd ++ (segsOf lpm d ends i count).flatten,
          sb ++ boundsOf cd.length (segsOf lpm d ends i count)) := by
  intro count
  induction count with
  | zero =>
    intro i cd sb
    rw [parseLoop, segsOf_zero]
    simp [boundsOf]
  | succ count ih =>
    intro i cd sb
    rw [parseLoop, segsOf_succ]
    have hone : parseOne lpm d (ends.getD i 0) (ends.getD (i + 1) 0) =
        (parseString lpm d (ends.getD (i + 1) 0)
          (ends.getD (i + 1) 0 - ends.getD i 0) (ends.getD i 0) []).1 := rfl
    split
    · rename_i hemp
      have hzero : ends.getD (i + 1) 0 - ends.getD i 0 = 0 := by omega
      have hone2 : parseOne lpm d (ends.getD i 0) (ends.getD (i + 1) 0) = [] := by
        rw [hone, hzero, parseString]
      rw [ih (i + 1) cd (sb ++ [cd.length])]
      rw [hone2, List.flatten_cons, List.nil_append, boundsOf]
      simp
    · rename_i hemp
      rw [parseString_acc]
      simp only
      rw [ih (i + 1) (cd ++ (parseString lpm d (ends.getD (i + 1) 0)
        (ends.getD (i + 1) 0 - ends.getD i 0) (ends.getD i 0) []).1)
        (sb ++ [(cd ++ (parseString lpm d (ends.getD (i + 1) 0)
          (ends.getD (i + 1) 0 - ends.getD i 0) (ends.getD i 0) []).1).length])]
      rw [List.flatten_cons, boundsOf, hone]
      simp [List.append_assoc, List.length_append]

/-! ### Segment bookkeeping: boundaries and flattening -/

theorem boundsOf_length (base : Nat) (segs : List (List Nat)) :
    (boundsOf base segs).length = segs.length := by
  induction segs generalizing base with
  | nil => rfl
  | cons s rest ih =>
    rw [boundsOf, List.length_cons, List.length_cons, ih]

theorem joinLen_succ (segs : List (List Nat)) :
    ∀ (i : Nat), i < segs.length →
      ((segs.take (i + 1)).flatten).length =
        ((segs.take i).flatten).length + (segs.getD i []).length := by
  induction segs with
  | nil => intro i h; simp at h
  | cons s rest ih =>
    intro i h
    cases i with
    | zero => simp
    | succ i =>
      rw [List.take_succ_cons, List.take_succ_cons, List.flatten_cons,
        List.flatten_cons, List.length_append, List.length_append,
        List.getD_cons_succ, ih i (by simpa using h)]
      omega

theorem boundsOf_getD (segs : List (List Nat)) :
    ∀ (base i : Nat), i < segs.length →
      (boundsOf base segs).getD i 0 =
        base + ((segs.take (i + 1)).flatten).length := by
  induction segs with
  | nil => intro base i h; simp at h
  | cons s rest ih =>
    intro base i h
    cases i with
    | zero =>
      rw [boundsOf]
      simp
    | succ i =>
      rw [boundsOf, List.getD_cons_succ, ih _ i (by simpa using h),
        List.take_succ_cons, List.flatten_cons, List.length_append]
      omega

theorem join_segment (L : List (List Nat)) :
    ∀ (i : Nat), i < L.length →
      ((L.flatten).drop ((L.take i).flatten.length)).take
        ((L.getD i []).length) = L.getD i [] := by
  induction L with
  | nil => intro i h; simp at h
  | cons x rest ih =>
    intro i h
    cases i with
    | zero =>
      simp only [List.take_zero, List.flatten_nil, List.length_nil,
        List.drop_zero, List.getD_cons_zero, List.flatten_cons]
      exact List.take_left ..
    | succ i =>
      rw [List.take_succ_cons, List.flatten_cons, List.flatten_cons,
        List.length_append, List.getD_cons_succ]
      have hdrop : (x ++ rest.flatten).drop
          (x.length + (rest.take i).flatten.length) =
          rest.flatten.drop ((rest.take i).flatten.length) := by
        rw [← List.drop_drop, List.drop_left]
      rw [hdrop, ih i (by simpa using h)]

theorem flatten_fold (strings : List (List Nat)) :
    ∀ (acc1 acc2 : List Nat),
      strings.foldl
        (fun (acc : List Nat × List Nat) s =>
          (acc.1 ++ s, acc.2 ++ [acc.1.length + s.length])) (acc1, acc2) =
        (acc1 ++ strings.flatten, acc2 ++ boundsOf acc1.length strings) := by
  induction strings with
  | nil => intro acc1 acc2; simp [boundsOf]
  | cons s rest ih =>
    intro acc1 acc2
    rw [List.foldl_cons]
    rw [ih (acc1 ++ s) (acc2 ++ [acc1.length + s.length])]
    rw [List.flatten_cons, boundsOf]
    simp [List.append_assoc, List.length_append]

theorem flattenStrings_char (strings : List (List Nat)) :
    flattenStrings strings = (strings.flatten, 0 :: boundsOf 0 strings) := by
  rw [flattenStrings, flatten_fold strings [] [0]]
  simp [List.length_nil]

theorem joinLen_le_total (L : List (List Nat)) (i : Nat) :
    ((L.take i).flatten).length ≤ L.flatten.length := by
  conv_rhs => rw [← List.take_append_drop i L]
  rw [List.flatten_append, List.length_append]
  omega

theorem dictSlice_getD {dict offsets : List Nat} {i j : Nat}
    (hm : offsets.getD i 0 ≤ offsets.getD (i + 1) 0)
    (hb : offsets.getD (i + 1) 0 ≤ dict.length)
    (hj : j < offsets.getD (i + 1) 0 - offsets.getD i 0) :
    (dictSlice dict offsets i).getD j 0 = dict.getD (offsets.getD i 0 + j) 0 := by
  have hlen2 : j < ((dict.drop (offsets.getD i 0)).take
      (offsets.getD (i + 1) 0 - offsets.getD i 0)).length := by
    rw [List.length_take, List.length_drop]
    omega
  rw [dictSlice, List.getD_eq_getElem _ _ hlen2, List.getElem_take,
    List.getElem_drop,
    List.getD_eq_getElem _ _ (show offsets.getD i 0 + j < dict.length by omega)]

/-! ### Decompression with the unconditional 16-byte copy -/

theorem decompressTokens_spec {dict offsets : List Nat}
    (hmono : ∀ i, i + 1 < offsets.length →
      offsets.getD i 0 ≤ offsets.getD (i + 1) 0)
    (hbound : ∀ i, i < offsets.length → offsets.getD i 0 ≤ dict.length)
    (hlen16 : ∀ i, i + 1 < offsets.length →
      offsets.getD (i + 1) 0 - offsets.getD i 0 ≤ 16) :
    ∀ (ts : List Nat) (buf : Nat → Nat) (size : Nat),
      (∀ id ∈ ts, id + 1 < offsets.length) →
      (decompressTokens dict offsets ts buf size).2 =
        size + (decodeList dict offsets ts).length ∧
      (∀ j, j < size → (decompressTokens dict offsets ts buf size).1 j = buf j) ∧
      (∀ j, j < (decodeList dict offsets ts).length →
        (decompressTokens dict offsets ts buf size).1 (size + j) =
          (decodeList dict offsets ts).getD j 0) := by
  intro ts
  induction ts with
  | nil =>
    intro buf size _
    rw [decompressTokens]
    refine ⟨by simp [decodeList_nil], fun j _ => rfl, fun j hj => ?_⟩
    rw [decodeList_nil] at hj
    simp at hj
  | cons id rest ih =>
    intro buf size hids
    have hid : id + 1 < offsets.length := hids id (List.mem_cons_self ..)
    have hm := hmono id hid
    have hb := hbound (id + 1) (by omega)
    have h16 := hlen16 id hid
    have hslen : (dictSlice dict offsets id).length =
        offsets.getD (id + 1) 0 - offsets.getD id 0 :=
      dictSlice_length hm hb
    rw [decompressTokens]
    obtain ⟨ih2, ihframe, ihcontent⟩ :=
      ih (writeBlock buf size dict (offsets.getD id 0) 16)
        (size + (offsets.getD (id + 1) 0 - offsets.getD id 0))
        (fun i hi => hids i (List.mem_cons_of_mem _ hi))
    have hdlc : decodeList dict offsets (id :: rest) =
        dictSlice dict offsets id ++ decodeList dict offsets rest :=
      decodeList_cons ..
    refine ⟨?_, ?_, ?_⟩
    · rw [ih2, hdlc, List.length_append, hslen]
      omega
    · intro j hj
      rw [ihframe j (by omega), writeBlock, if_neg (by omega)]
    · intro j hj
      rw [hdlc, List.length_append, hslen] at hj
      rcases Nat.lt_or_ge j (offsets.getD (id + 1) 0 - offsets.getD id 0)
        with hjs | hjs
      · rw [ihframe (size + j) (by omega), writeBlock, if_pos (by omega)]
        have hj2 : size + j - size = j := by omega
        rw [hj2, hdlc, List.getD_append _ _ _ _ (by rw [hslen]; exact hjs)]
        rw [dictSlice_getD hm hb hjs]
      · have hj2 : j = (offsets.getD (id + 1) 0 - offsets.getD id 0) +
            (j - (offsets.getD (id + 1) 0 - offsets.getD id 0)) := by omega
        have hadd : size + j = size +
            (offsets.getD (id + 1) 0 - offsets.getD id 0) +
            (j - (offsets.getD (id + 1) 0 - offsets.getD id 0)) := by omega
        rw [hadd, ihcontent _ (by omega), hdlc,
          List.getD_append_right _ _ _ _ (by rw [hslen]; omega)]
        rw [hslen]

/-! ### Pipeline assembly -/

/-- End-position table produced by `flatten_strings`. -/
def ends16 (strings : List (List Nat)) : List Nat := 0 :: boundsOf 0 strings

/-- The trainer state after `train_dictionary` inside `compress_strings`. -/
def trained16 (strings : List (List Nat)) (order : List Nat)
    (threshold : Nat) : TrainSt :=
  trainDictionary strings.flatten (ends16 strings) order threshold

/-- Per-string token segments of the final parse. -/
def segs16 (strings : List (List Nat)) (order : List Nat)
    (threshold : Nat) : List (List Nat) :=
  segsOf (trained16 strings order threshold).lpm strings.flatten
    (ends16 strings) 0 strings.length

theorem flatten_bytes {strings : List (List Nat)}
    (hbytes : ∀ s ∈ strings, ∀ b ∈ s, b < 256) :
    ∀ b ∈ strings.flatten, b < 256 := by
  intro b hb
  obtain ⟨s, hs, hbs⟩ := List.mem_flatten.1 hb
  exact hbytes s hs b hbs

theorem ends16_length (strings : List (List Nat)) :
    (ends16 strings).length = strings.length + 1 := by
  rw [ends16, List.length_cons, boundsOf_length]

theorem ends16_getD (strings : List (List Nat)) :
    ∀ i, i ≤ strings.length →
      (ends16 strings).getD i 0 = ((strings.take i).flatten).length := by
  intro i hi
  cases i with
  | zero => simp [ends16]
  | succ i =>
    rw [ends16, List.getD_cons_succ, boundsOf_getD strings 0 i (by omega)]
    omega

theorem segsOf_length (lpm : LPM16) (d ends : List Nat) (i count : Nat) :
    (segsOf lpm d ends i count).length = count := by
  simp [segsOf]

theorem segsOf_getD {lpm : LPM16} {d ends : List Nat} {i count k : Nat}
    (h : k < count) :
    (segsOf lpm d ends i count).getD k [] =
      parseOne lpm d (ends.getD (i + k) 0) (ends.getD (i + k + 1) 0) := by
  rw [segsOf, List.getD_eq_getElem _ _ (by simpa using h)]
  simp

theorem compressStrings16_char (strings : List (List Nat)) (order : List Nat)
    (threshold : Nat) :
    compressStrings16 strings order threshold =
      { compressed_data := (segs16 strings order threshold).flatten
        string_boundaries := 0 :: boundsOf 0 (segs16 strings order threshold)
        dictionary_data := (trained16 strings order threshold).dict
        dictionary_offsets := (trained16 strings order threshold).offsets } := by
  rw [compressStrings16, flattenStrings_char]
  rw [compressBytes16, parseData, parseLoop_char]
  rw [segs16, trained16, ends16]
  have hlen : (((0 : Nat) :: boundsOf 0 strings)).length - 1 = strings.length := by
    rw [List.length_cons, boundsOf_length]
    omega
  rw [hlen]
  simp [List.length_nil]

theorem sb16_getD (segs : List (List Nat)) :
    ∀ i, i ≤ segs.length →
      ((0 : Nat) :: boundsOf 0 segs).getD i 0 = ((segs.take i).flatten).length := by
  intro i hi
  cases i with
  | zero => simp
  | succ i =>
    rw [List.getD_cons_succ, boundsOf_getD segs 0 i (by omega)]
    omega

theorem segs16_facts (strings : List (List Nat)) (order : List Nat)
    (threshold : Nat) (hbytes : ∀ s ∈ strings, ∀ b ∈ s, b < 256)
    (i : Nat) (hi : i < strings.length) :
    decodeList (trained16 strings order threshold).dict
        (trained16 strings order threshold).offsets
        ((segs16 strings order threshold).getD i []) = strings.getD i [] ∧
      (∀ id ∈ (segs16 strings order threshold).getD i [],
        id < (trained16 strings order threshold).offsets.length - 1) := by
  have hd := flatten_bytes hbytes
  have inv : TrainInv (trained16 strings order threshold) :=
    trainDictionary_inv hd threshold
  have hstart := ends16_getD strings i (by omega)
  have hend := ends16_getD strings (i + 1) (by omega)
  have hjs := joinLen_succ strings i hi
  have htot := joinLen_le_total strings (i + 1)
  have hseg := @segsOf_getD (trained16 strings order threshold).lpm
    strings.flatten (ends16 strings) 0 _ i hi
  rw [Nat.zero_add] at hseg
  have hspec := parseString_spec inv.sound inv.hasB hd
    ((ends16 strings).getD (i + 1) 0 - (ends16 strings).getD i 0)
    ((ends16 strings).getD i 0) ((ends16 strings).getD (i + 1) 0)
    (by rw [hstart, hend]; omega)
    (by rw [hend]; exact htot)
    (by omega)
  obtain ⟨hpos, hdec, hids⟩ := hspec
  have hsegeq : (segs16 strings order threshold).getD i [] =
      (parseString (trained16 strings order threshold).lpm strings.flatten
        ((ends16 strings).getD (i + 1) 0)
        ((ends16 strings).getD (i + 1) 0 - (ends16 strings).getD i 0)
        ((ends16 strings).getD i 0) []).1 := by
    rw [segs16, hseg, parseOne]
  refine ⟨?_, ?_⟩
  · rw [hsegeq, hdec, hstart, hend]
    have hdiff : ((strings.take (i + 1)).flatten).length -
        ((strings.take i).flatten).length = (strings.getD i []).length := by
      omega
    rw [hdiff]
    exact join_segment strings i hi
  · intro id hid
    rw [hsegeq] at hid
    exact hids id hid

/-- C1. Round-trip: for every vector of byte strings (bytes < 256, as
`uint8_t` guarantees), any shuffled visit order and promotion threshold
(both nondeterministic in the source), and any output buffer, after
`compress_strings(strings)` the call `decompress_string(i, out)` returns
`len(strings[i])` and the first `len(strings[i])` bytes of `out` equal
`strings[i]` byte-for-byte, for every index `i < S`. -/
theorem C1_round_trip (strings : List (List Nat)) (order : List Nat)
    (threshold : Nat) (buf : Nat → Nat) (i : Nat)
    (hbytes : ∀ s ∈ strings, ∀ b ∈ s, b < 256) (hi : i < strings.length) :
    (decompressString16 (compressStrings16 strings order threshold) i buf).2 =
      (strings.getD i []).length ∧
    ∀ j, j < (strings.getD i []).length →
      (decompressString16 (compressStrings16 strings order threshold) i buf).1 j =
        (strings.getD i []).getD j 0 := by
  have hd := flatten_bytes hbytes
  have inv : TrainInv (trained16 strings order threshold) :=
    trainDictionary_inv hd threshold
  rw [compressStrings16_char, decompressString16]
  simp only
  have hslen : (segs16 strings order threshold).length = strings.length := by
    rw [segs16, segsOf_length]
  have hds := sb16_getD (segs16 strings order threshold) i (by omega)
  have hde := sb16_getD (segs16 strings order threshold) (i + 1) (by omega)
  have hjs := joinLen_succ (segs16 strings order threshold) i (by omega)
  obtain ⟨hdec, hids⟩ := segs16_facts strings order threshold hbytes i hi
  have htok : (((segs16 strings order threshold).flatten).drop
      (((0 : Nat) :: boundsOf 0 (segs16 strings order threshold)).getD i 0)).take
      ((((0 : Nat) :: boundsOf 0 (segs16 strings order threshold)).getD (i + 1) 0) -
        ((0 : Nat) :: boundsOf 0 (segs16 strings order threshold)).getD i 0) =
      (segs16 strings order threshold).getD i [] := by
    rw [hds, hde]
    have hdiff : (((segs16 strings order threshold).take (i + 1)).flatten).length -
        (((segs16 strings order threshold).take i).flatten).length =
        ((segs16 strings order threshold).getD i []).length := by
      omega
    rw [hdiff]
    exact join_segment (segs16 strings order threshold) i (by omega)
  rw [htok]
  obtain ⟨hsz, hframe, hcontent⟩ := decompressTokens_spec inv.mono inv.bounded
    inv.len16 ((segs16 strings order threshold).getD i []) buf 0
    (fun id hid => by have h1 := hids id hid; have h2 := inv.olen; omega)
  constructor
  · rw [hsz, hdec]
    omega
  · intro j hj
    have hj2 : j < (decodeList (trained16 strings order threshold).dict
        (trained16 strings order threshold).offsets
        ((segs16 strings order threshold).getD i [])).length := by
      rw [hdec]
      exact hj
    have := hcontent j hj2
    rw [Nat.zero_add] at this
    rw [this, hdec]

theorem length_one_eq {l : List Nat} {b : Nat} (h1 : l.length = 1)
    (h2 : l.getD 0 0 = b) : l = [b] := by
  cases l with
  | nil => simp at h1
  | cons x xs =>
    cases xs with
    | nil => rw [List.getD_cons_zero] at h2; rw [h2]
    | cons y ys => simp at h1

/-- C6. Dictionary offset invariant of the bounded variant: after
`train_dictionary` completes, `dict_offsets[0] = 0`, the offsets are
monotonically non-decreasing, every token is at most 16 bytes long, and
ids 0..255 each store exactly the single byte equal to the id. -/
theorem C6_offset_invariant (d ends order : List Nat) (threshold : Nat)
    (hd : ∀ b ∈ d, b < 256) :
    (trainDictionary d ends order threshold).offsets.getD 0 0 = 0 ∧
    (∀ i, i + 1 < (trainDictionary d ends order threshold).offsets.length →
      (trainDictionary d ends order threshold).offsets.getD i 0 ≤
        (trainDictionary d ends order threshold).offsets.getD (i + 1) 0) ∧
    (∀ i, i + 1 < (trainDictionary d ends order threshold).offsets.length →
      (trainDictionary d ends order threshold).offsets.getD (i + 1) 0 -
        (trainDictionary d ends order threshold).offsets.getD i 0 ≤ 16) ∧
    (∀ b, b < 256 →
      dictSlice (trainDictionary d ends order threshold).dict
        (trainDictionary d ends order threshold).offsets b = [b]) := by
  have inv := @trainDictionary_inv _ ends order hd threshold
  refine ⟨inv.head0, inv.mono, inv.len16, ?_⟩
  intro b hb
  have holen := inv.olen
  have hmono := inv.mono b (by omega)
  have hbnd := inv.bounded (b + 1) (by omega)
  have hib := inv.idinit b (by omega)
  have hib1 := inv.idinit (b + 1) (by omega)
  apply length_one_eq
  · rw [dictSlice_length hmono hbnd, hib, hib1]
    omega
  · rw [dictSlice_getD hmono hbnd (by omega), hib, Nat.add_zero]
    exact inv.dictinit b hb

/-- C7. String-boundary structure: after parsing `S` strings,
`string_boundaries` has `S + 1` entries starting at 0 and ending at the
token-stream length, the sequence is non-decreasing, and every empty input
string contributes an empty boundary interval and decompresses to length
0. -/
theorem C7_boundaries (strings : List (List Nat)) (order : List Nat)
    (threshold : Nat) (buf : Nat → Nat)
    (hbytes : ∀ s ∈ strings, ∀ b ∈ s, b < 256) :
    (compressStrings16 strings order threshold).string_boundaries.length =
      strings.length + 1 ∧
    (compressStrings16 strings order threshold).string_boundaries.getD 0 0 = 0 ∧
    (compressStrings16 strings order threshold).string_boundaries.getD
      strings.length 0 =
      (compressStrings16 strings order threshold).compressed_data.length ∧
    (∀ i, i + 1 <
        (compressStrings16 strings order threshold).string_boundaries.length →
      (compressStrings16 strings order threshold).string_boundaries.getD i 0 ≤
        (compressStrings16 strings order threshold).string_boundaries.getD
          (i + 1) 0) ∧
    (∀ i, i < strings.length → strings.getD i [] = [] →
      (compressStrings16 strings order threshold).string_boundaries.getD i 0 =
        (compressStrings16 strings order threshold).string_boundaries.getD
          (i + 1) 0 ∧
      (decompressString16 (compressStrings16 strings order threshold) i buf).2 =
        0) := by
  have hd := flatten_bytes hbytes
  rw [compressStrings16_char]
  simp only
  have hslen : (segs16 strings order threshold).length = strings.length := by
    rw [segs16, segsOf_length]
  have hempty : ∀ i, i < strings.length → strings.getD i [] = [] →
      (segs16 strings order threshold).getD i [] = [] := by
    intro i hi hstr
    have hseg := @segsOf_getD (trained16 strings order threshold).lpm
      strings.flatten (ends16 strings) 0 _ i hi
    rw [Nat.zero_add] at hseg
    have hstart := ends16_getD strings i (by omega)
    have hend := ends16_getD strings (i + 1) (by omega)
    have hjs := joinLen_succ strings i hi
    have hzero : (ends16 strings).getD (i + 1) 0 -
        (ends16 strings).getD i 0 = 0 := by
      rw [hstr] at hjs
      simp only [List.length_nil] at hjs
      rw [hstart, hend]
      omega
    rw [segs16, hseg, parseOne, hzero]
    rfl
  refine ⟨?_, by simp, ?_, ?_, ?_⟩
  · rw [List.length_cons, boundsOf_length, hslen]
  · rw [sb16_getD _ strings.length (by omega),
      ← hslen, List.take_of_length_le (by omega)]
  · intro i hi
    rw [List.length_cons, boundsOf_length, hslen] at hi
    rw [sb16_getD _ i (by omega), sb16_getD _ (i + 1) (by omega)]
    have := joinLen_succ (segs16 strings order threshold) i (by omega)
    omega
  · intro i hi hstr
    have hsegnil := hempty i hi hstr
    have hds := sb16_getD (segs16 strings order threshold) i (by omega)
    have hde := sb16_getD (segs16 strings order threshold) (i + 1) (by omega)
    have hjs := joinLen_succ (segs16 strings order threshold) i (by omega)
    rw [hsegnil] at hjs
    constructor
    · rw [hds, hde]
      simp only [List.length_nil] at hjs
      omega
    · rw [decompressString16]
      simp only
      have htok : (((segs16 strings order threshold).flatten).drop
          (((0 : Nat) :: boundsOf 0 (segs16 strings order threshold)).getD i 0)).take
          ((((0 : Nat) :: boundsOf 0 (segs16 strings order threshold)).getD (i + 1) 0) -
            ((0 : Nat) :: boundsOf 0 (segs16 strings order threshold)).getD i 0) =
          [] := by
        rw [hds, hde]
        have hdiff : (((segs16 strings order threshold).take (i + 1)).flatten).length -
            (((segs16 strings order threshold).take i).flatten).length = 0 := by
          simp only [List.length_nil] at hjs
          omega
        rw [hdiff]
        simp
      rw [htok]
      rfl

/-- C10. Implicit: every token id in the compressed stream has a stored
dictionary entry, i.e. `id + 1 < dictionary_offsets.length`, so the offset
reads of `decompress_string`/`decompress_all` are always in range. -/
theorem C10_token_ids_in_range (strings : List (List Nat)) (order : List Nat)
    (threshold : Nat) (hbytes : ∀ s ∈ strings, ∀ b ∈ s, b < 256) :
    ∀ id ∈ (compressStrings16 strings order threshold).compressed_data,
      id + 1 <
        (compressStrings16 strings order threshold).dictionary_offsets.length := by
  have hd := flatten_bytes hbytes
  have inv : TrainInv (trained16 strings order threshold) :=
    trainDictionary_inv hd threshold
  rw [compressStrings16_char]
  simp only
  intro id hid
  obtain ⟨seg, hseg, hidseg⟩ := List.mem_flatten.1 hid
  rw [segs16, segsOf] at hseg
  obtain ⟨k, hk, hkeq⟩ := List.mem_map.1 hseg
  have hkS : k < strings.length := List.mem_range.1 hk
  obtain ⟨hdec, hids⟩ := segs16_facts strings order threshold hbytes k hkS
  have hsegk : (segs16 strings order threshold).getD k [] = seg := by
    rw [segs16, segsOf_getD hkS, Nat.zero_add]
    rw [Nat.zero_add] at hkeq
    exact hkeq
  have h1 := hids id (by rw [hsegk]; exact hidseg)
  have h2 := inv.olen
  omega

/-- C8. Parse progress: with all 256 single-byte tokens inserted during
initialisation, the trained matcher answers every non-empty cursor with a
match of length between 1 and the cursor length (never nullopt), and the
parsing loop of `parse_data` advances strictly each step and stops exactly
at the string end. -/
theorem C8_parse_progress (d ends order : List Nat) (threshold : Nat)
    (hd : ∀ b ∈ d, b < 256) :
    HasBytes (trainDictionary d ends order threshold).lpm ∧
    (∀ pos len, 1 ≤ len →
      ∃ id L, (trainDictionary d ends order threshold).lpm.findLongestMatch
          d pos len = some (id, L) ∧ 1 ≤ L ∧ L ≤ len) ∧
    (∀ start endp fuel, start ≤ endp → endp ≤ d.length →
      endp - start ≤ fuel →
      (parseString (trainDictionary d ends order threshold).lpm d endp
        fuel start []).2 = endp) := by
  have inv := @trainDictionary_inv _ ends order hd threshold
  refine ⟨inv.hasB, ?_, ?_⟩
  · intro pos len hlen
    have hprog := @find_progress _ _ pos _ inv.hasB hd hlen
    obtain ⟨r, hr⟩ := Option.isSome_iff_exists.1 hprog
    obtain ⟨id, L⟩ := r
    obtain ⟨h1, h2, _⟩ := find_sound inv.sound hd hr
    exact ⟨id, L, hr, h1, h2⟩
  · intro start endp fuel h1 h2 h3
    exact (parseString_spec inv.sound inv.hasB hd fuel start endp h1 h2 h3).1

/-- C9. Trailing-zero-byte prefix test: for 64-bit words,
`countr_zero(a XOR b) >> 3` equals the number of initial little-endian
bytes on which `a` and `b` agree (8 when `a = b`); consequently
`is_prefix(text, prefix, text_size, prefix_size)` holds iff
`prefix_size ≤ text_size` and the low `prefix_size` bytes agree. -/
theorem C9_shared_prefix :
    (∀ a b : Nat, a < 2 ^ 64 → b < 2 ^ 64 →
      sharedPrefixSize a b = commonBytes 8 a b) ∧
    (∀ text pre ts ps : Nat, ps ≤ 8 →
      (isPrefix64 text pre ts ps = true ↔
        ps ≤ ts ∧ ∀ i, i < ps → byteAt text i = byteAt pre i)) := by
  constructor
  · intro a b _ _
    have hs8 : sharedPrefixSize a b ≤ 8 := sharedPrefixSize_le a b
    have hc8 : commonBytes 8 a b ≤ 8 := commonBytes_le 8 a b
    have hdir1 : sharedPrefixSize a b ≤ commonBytes 8 a b := by
      rw [commonBytes_ge_iff]
      refine ⟨hs8, ?_⟩
      have := (sharedPrefixSize_ge_iff (a := a) (b := b) hs8).1 (le_refl _)
      rw [pow256]
      exact this
    have hdir2 : commonBytes 8 a b ≤ sharedPrefixSize a b := by
      rw [sharedPrefixSize_ge_iff hc8]
      have := (commonBytes_ge_iff 8 a b (commonBytes 8 a b)).1 (le_refl _)
      rw [← pow256]
      exact this.2
    omega
  · intro text pre ts ps hps
    rw [isPrefix64_true_iff hps]
    constructor
    · intro ⟨h1, h2⟩
      refine ⟨h1, ?_⟩
      rw [← pow256] at h2
      exact (mod_pow256_eq_iff text pre ps).1 h2
    · intro ⟨h1, h2⟩
      refine ⟨h1, ?_⟩
      rw [← pow256]
      exact (mod_pow256_eq_iff text pre ps).2 h2

/-! ### Space accounting (C3) -/

theorem parseLoopU_sb_mono (lpm : LPMU) (d ends : List Nat) :
    ∀ (count i : Nat) (cd sb : List Nat),
      sb.length ≤ (parseLoopU lpm d ends count i cd sb).2.length := by
  intro count
  induction count with
  | zero =>
    intro i cd sb
    rw [parseLoopU]
  | succ count ih =>
    intro i cd sb
    rw [parseLoopU]
    split
    · exact le_trans (by rw [List.length_append]; omega)
        (ih (i + 1) cd (sb ++ [cd.length]))
    · exact le_trans (by rw [List.length_append]; omega)
        (ih (i + 1)
          ((parseStringU lpm d (ends.getD (i + 1) 0)
            (ends.getD (i + 1) 0 - ends.getD i 0) (ends.getD i 0) cd).1)
          (sb ++ [((parseStringU lpm d (ends.getD (i + 1) 0)
            (ends.getD (i + 1) 0 - ends.getD i 0) (ends.getD i 0) cd).1).length]))

theorem compressStringsU_sb (strings : List (List Nat)) (order : List Nat)
    (threshold : Nat) :
    1 ≤ (compressStringsU strings order threshold).string_boundaries.length := by
  rw [compressStringsU, compressBytesU]
  simp only
  rw [parseDataU]
  have h := parseLoopU_sb_mono
    (trainDictionaryU (flattenStrings strings).1 (flattenStrings strings).2
      order threshold).lpm
    (flattenStrings strings).1 (flattenStrings strings).2
    ((flattenStrings strings).2.length - 1) 0 [] [0]
  simpa using h

/-- C3 counterexample: on input `["a"]` the unbounded `OnPair::space_used`
omits the `8*|string_boundaries|` term of the claimed formula, and
`string_boundaries` is non-empty after compression, so the two values
differ. -/
theorem C3_counterexample :
    spaceUsedU (compressStringsU [[97]] [0] 2) ≠
      2 * (compressStringsU [[97]] [0] 2).compressed_data.length +
        (compressStringsU [[97]] [0] 2).dictionary.length +
        4 * (compressStringsU [[97]] [0] 2).token_boundaries.length +
        8 * (compressStringsU [[97]] [0] 2).string_boundaries.length := by
  have h := compressStringsU_sb [[97]] [0] 2
  rw [spaceUsedU]
  omega

/-- C3 amended: `OnPair16::space_used` returns exactly
`2*|token_stream| + |dict_blob| + 4*|dict_offsets| + 8*|string_boundaries|`;
the unbounded `OnPair::space_used` returns the same sum WITHOUT the
`8*|string_boundaries|` term. -/
theorem C3_space_accounting (strings : List (List Nat)) (order : List Nat)
    (threshold : Nat) (strings2 : List (List Nat)) (order2 : List Nat)
    (threshold2 : Nat) :
    spaceUsed16 (compressStrings16 strings order threshold) =
      2 * (compressStrings16 strings order threshold).compressed_data.length +
        (compressStrings16 strings order threshold).dictionary_data.length +
        4 * (compressStrings16 strings order threshold).dictionary_offsets.length +
        8 * (compressStrings16 strings order threshold).string_boundaries.length ∧
    spaceUsedU (compressStringsU strings2 order2 threshold2) =
      2 * (compressStringsU strings2 order2 threshold2).compressed_data.length +
        (compressStringsU strings2 order2 threshold2).dictionary.length +
        4 * (compressStringsU strings2 order2 threshold2).token_boundaries.length :=
  ⟨rfl, rfl⟩

/-! ### Pair counting (C4) -/

/-- C4 counterexample: with a matcher holding the byte token `a` (id 0)
and the 16-byte token `a^16` (id 1), on the cursor `a^17` at position 16
where the previous match was the 16-byte token, one iteration of the
bounded trainer's loop does NOT count the adjacency (1, 0) (combined
length 17 exceeds 16, counter stays 0) while the same iteration of the
unbounded trainer's loop counts it (counter 1): the frequency estimates
differ between the variants on the same traversal. -/
theorem C4_counterexample :
    freqGet (trainLoop (List.replicate 17 97) 17 5 1 16 1 16
        ⟨(((LPM16.empty.insert [97] 0 1 0).2).insert
            (List.replicate 16 97) 0 16 1).2, [], [], [], 2, false⟩).freq
      (1, 0) = 0 ∧
    freqGet (trainLoopU (List.replicate 17 97) 17 5 1 16 1 16
        ⟨(LPMU.empty.insert [97] 0 1 0).insert
            (List.replicate 16 97) 0 16 1, [], [], [], 2, false⟩).freq
      (1, 0) = 1 := by
  constructor <;> decide

/-- C4 amended: in the bounded trainer the pair counter is incremented only
when `prev_len + match_len ≤ 16` (over-length adjacencies are not counted);
in the unbounded trainer it is incremented on every observed adjacency.
Stated on a single iteration of each training loop. -/
theorem C4_gated_counting (d : List Nat) (endp threshold pos prevId prevLen : Nat)
    (st : TrainSt) (stU : TrainStU) (matchId matchLen : Nat)
    (hpos : pos < endp)
    (hm : st.lpm.findLongestMatch d pos (endp - pos) = some (matchId, matchLen))
    (hmU : stU.lpm.findLongestMatch d pos (endp - pos) = some (matchId, matchLen)) :
    (16 < matchLen + prevLen →
      (trainLoop d endp threshold 1 pos prevId prevLen st).freq = st.freq) ∧
    (matchLen + prevLen ≤ 16 →
      (freqGet st.freq (prevId, matchId) + 1) % 65536 < threshold →
      (trainLoop d endp threshold 1 pos prevId prevLen st).freq =
        freqSet st.freq (prevId, matchId)
          ((freqGet st.freq (prevId, matchId) + 1) % 65536)) ∧
    ((freqGet stU.freq (prevId, matchId) + 1) % 65536 < threshold →
      (trainLoopU d endp threshold 1 pos prevId prevLen stU).freq =
        freqSet stU.freq (prevId, matchId)
          ((freqGet stU.freq (prevId, matchId) + 1) % 65536)) := by
  refine ⟨?_, ?_, ?_⟩
  · intro hgate
    simp only [trainLoop, hm, if_pos hpos,
      if_neg (show ¬ matchLen + prevLen ≤ 16 by omega)]
  · intro hgate hth
    simp only [trainLoop, hm, if_pos hpos, if_pos hgate,
      if_neg (show ¬ threshold ≤
        (freqGet st.freq (prevId, matchId) + 1) % 65536 by omega)]
  · intro hth
    simp only [trainLoopU, hmU, if_pos hpos,
      if_neg (show ¬ threshold ≤
        (freqGet stU.freq (prevId, matchId) + 1) % 65536 by omega)]

/-! ### Bucket cap (C5) -/

/-- Matcher state reached by a sequence of insert calls on raw patterns. -/
def lpmFold (ps : List (List Nat × Nat)) : LPM16 :=
  ps.foldl (fun s p => (s.insert p.1 0 p.1.length p.2).2) LPM16.empty

/-- The unbounded matcher after 129 insert calls on a 9-byte pattern, all
sharing the same 8-byte prefix key. -/
def lpmuFold : LPMU :=
  (List.range 129).foldl
    (fun s i => s.insert [0, 0, 0, 0, 0, 0, 0, 0, 7] 0 9 i) LPMU.empty

theorem bucketsGetU_set_self (bs : List (Nat × List Nat)) (k : Nat)
    (b : List Nat) : bucketsGetU (bucketsSetU bs k b) k = b := by
  induction bs with
  | nil => simp [bucketsSetU, bucketsGetU]
  | cons kb rest ih =>
    obtain ⟨k0, b0⟩ := kb
    rw [bucketsSetU]
    split
    · rename_i h
      rw [bucketsGetU, if_pos h]
    · rename_i h
      rw [bucketsGetU, if_neg h]
      exact ih

theorem length_sortInsertU (ends : List Nat) (id : Nat) (l : List Nat) :
    (sortInsertU ends id l).length = l.length + 1 := by
  induction l with
  | nil => rfl
  | cons x xs ih =>
    rw [sortInsertU]
    split <;> simp [ih]

theorem length_sortDescU (ends : List Nat) (l : List Nat) :
    (sortDescU ends l).length = l.length := by
  induction l with
  | nil => rfl
  | cons x xs ih =>
    rw [sortDescU, length_sortInsertU, ih, List.length_cons]

theorem lpmuFold_bucket : ∀ n : Nat,
    (bucketsGetU (((List.range n).foldl
      (fun s i => s.insert [0, 0, 0, 0, 0, 0, 0, 0, 7] 0 9 i)
      LPMU.empty)).buckets
      (bytesToU64LE [0, 0, 0, 0, 0, 0, 0, 0, 7] 0 8)).length = n := by
  intro n
  induction n with
  | zero => rfl
  | succ n ih =>
    rw [List.range_succ, List.foldl_append, List.foldl_cons, List.foldl_nil]
    set st := (List.range n).foldl
      (fun s i => s.insert [0, 0, 0, 0, 0, 0, 0, 0, 7] 0 9 i) LPMU.empty with hst
    simp only [LPMU.insert, if_pos (show (8 : Nat) < 9 by omega)]
    rw [bucketsGetU_set_self, length_sortDescU, List.length_append]
    simp only [List.length_singleton]
    rw [hst, ih]

/-- C5 counterexample: the unbounded `LongestPrefixMatcher::insert` has no
bucket cap (and returns void, not false): after 129 inserts sharing one
prefix key its bucket holds 129 > 128 entries. -/
theorem C5_counterexample :
    128 < (bucketsGetU lpmuFold.buckets
      (bytesToU64LE [0, 0, 0, 0, 0, 0, 0, 0, 7] 0 8)).length := by
  rw [lpmuFold, lpmuFold_bucket 129]
  omega

theorem insert_cap {s : LPM16}
    (hs : ∀ pk, (bucketsGet s.buckets pk).length ≤ 128)
    (d : List Nat) (pos len id : Nat) :
    ∀ pk, (bucketsGet ((s.insert d pos len id).2).buckets pk).length ≤ 128 := by
  intro pk
  simp only [LPM16.insert]
  split
  · exact hs pk
  · split
    · exact hs pk
    · rename_i hcap
      by_cases hpk : bytesToU64LE d pos 8 = pk
      · rw [← hpk, bucketsGet_set_self, length_sortDesc16, List.length_append]
        have := hs (bytesToU64LE d pos 8)
        simp only [List.length_singleton]
        omega
      · rw [bucketsGet_set_ne _ _ hpk]
        exact hs pk

/-- C5 amended: only the bounded variant `LongestPrefixMatcher16` enforces
the cap: inserting a pattern of length > 8 whose bucket already holds 128
entries returns false without modifying the matcher, and consequently no
bucket of a matcher reachable by inserts ever exceeds 128 entries.  (The
unbounded variant has no cap; see the counterexample.) -/
theorem C5_bucket_cap :
    (∀ (s : LPM16) (d : List Nat) (pos len id : Nat), 8 < len →
      (bucketsGet s.buckets (bytesToU64LE d pos 8)).length = 128 →
      s.insert d pos len id = (false, s)) ∧
    (∀ (ps : List (List Nat × Nat)) (pk : Nat),
      (bucketsGet (lpmFold ps).buckets pk).length ≤ 128) := by
  constructor
  · intro s d pos len id hlen hfull
    simp only [LPM16.insert, if_neg (by omega : ¬ len ≤ 8)]
    rw [if_pos (by omega)]
  · intro ps
    rw [lpmFold]
    have hgen : ∀ (ps : List (List Nat × Nat)) (s : LPM16),
        (∀ pk, (bucketsGet s.buckets pk).length ≤ 128) →
        ∀ pk, (bucketsGet ((ps.foldl
          (fun s p => (s.insert p.1 0 p.1.length p.2).2) s)).buckets pk).length ≤ 128 := by
      intro ps
      induction ps with
      | nil => intro s hs pk; exact hs pk
      | cons p rest ih =>
        intro s hs pk
        rw [List.foldl_cons]
        exact ih _ (insert_cap hs p.1 0 p.1.length p.2) pk
    apply hgen
    intro pk
    simp [LPM16.empty, bucketsGet]

/-! ### Completeness of the bounded matcher (for LPM maximality) -/

/-- Patterns actually retained by a sequence of raw inserts (those whose
insert returned true), threading the evolving state. -/
def storedOf : List (List Nat × Nat) → LPM16 → List (List Nat × Nat)
  | [], _ => []
  | p :: rest, s =>
    match s.insert p.1 0 p.1.length p.2 with
    | (true, s2) => p :: storedOf rest s2
    | (false, s2) => storedOf rest s2

/-- Every retained short pattern is present in the short map. -/
def CompleteShort (s : LPM16) (A : List (List Nat × Nat)) : Prop :=
  ∀ p id, (p, id) ∈ A → p.length ≤ 8 →
    (lookupShort s.dictionary (wordOf p, p.length)).isSome

/-- Every retained long pattern has its split entry in its prefix bucket. -/
def CompleteLong (s : LPM16) (A : List (List Nat × Nat)) : Prop :=
  ∀ p id, (p, id) ∈ A → 8 < p.length →
    ∃ id2, (wordOf (p.drop 8), p.length - 8, id2) ∈
      bucketsGet s.buckets (wordOf (p.take 8))

/-- All buckets are sorted by suffix length, descending. -/
def SortedBuckets (s : LPM16) : Prop :=
  ∀ pk, BucketSorted (bucketsGet s.buckets pk)

/-- Soundness and completeness of a matcher state w.r.t. retained patterns. -/
def MatchInv (s : LPM16) (A : List (List Nat × Nat)) : Prop :=
  Sound s A ∧ CompleteShort s A ∧ CompleteLong s A ∧ SortedBuckets s

theorem matchInv_empty : MatchInv LPM16.empty [] := by
  refine ⟨sound_empty, ?_, ?_, ?_⟩
  · intro p id h _
    simp at h
  · intro p id h _
    simp at h
  · intro pk
    simp [LPM16.empty, bucketsGet, BucketSorted]

theorem matchInv_congr {s : LPM16} {A B : List (List Nat × Nat)}
    (hab : ∀ x, x ∈ A ↔ x ∈ B) (h : MatchInv s A) : MatchInv s B := by
  obtain ⟨hs, hcs, hcl, hsb⟩ := h
  refine ⟨sound_mono (fun x hx => (hab x).1 hx) hs, ?_, ?_, hsb⟩
  · intro p id hp hlen
    exact hcs p id ((hab _).2 hp) hlen
  · intro p id hp hlen
    exact hcl p id ((hab _).2 hp) hlen

theorem window_prefix_eq {p : List Nat} (n : Nat) (h : n ≤ p.length) :
    window p 0 n = p.take n := by
  rw [window_eq_slice (by omega)]
  simp

theorem matchInv_insert {s : LPM16} {A : List (List Nat × Nat)}
    {p : List Nat} {id : Nat} (hv : MatchInv s A)
    (h1 : 1 ≤ p.length) (h16 : p.length ≤ 16) (hb : ∀ b ∈ p, b < 256) :
    (∀ s2, s.insert p 0 p.length id = (true, s2) → MatchInv s2 ((p, id) :: A)) ∧
    (∀ s2, s.insert p 0 p.length id = (false, s2) → MatchInv s2 A) := by
  obtain ⟨hs, hcs, hcl, hsb⟩ := hv
  constructor
  · intro s2 hins
    have hsound : Sound s2 ((p, id) :: A) := by
      have := @insert_sound _ _ p 0 p.length id hs hb h1 h16
      rw [hins, window_self] at this
      exact this
    by_cases hlen : p.length ≤ 8
    · -- short insert
      have hdict : s2.dictionary =
          emplaceShort s.dictionary (bytesToU64LE p 0 p.length, p.length) id := by
        have := @insert_short_dictionary s p 0 p.length id hlen
        rw [hins] at this
        exact this
      have hbuck : s2.buckets = s.buckets := by
        simp only [LPM16.insert, if_pos hlen] at hins
        injection hins with ha hb
        rw [← hb]
      have hkey : bytesToU64LE p 0 p.length = wordOf p := by
        rw [bytesToU64LE_eq hb 0 hlen, window_self]
      refine ⟨hsound, ?_, ?_, ?_⟩
      · intro q qid hq hql
        rcases List.mem_cons.1 hq with heq | hold
        · obtain ⟨hq1, _⟩ := Prod.ext_iff.1 heq
          simp only at hq1
          subst hq1
          rw [hdict, hkey]
          exact emplace_self_isSome ..
        · rw [hdict]
          exact emplace_isSome _ _ (hcs q qid hold hql)
      · intro q qid hq hql
        rcases List.mem_cons.1 hq with heq | hold
        · obtain ⟨hq1, _⟩ := Prod.ext_iff.1 heq
          simp only at hq1
          subst hq1
          omega
        · rw [hbuck]
          exact hcl q qid hold hql
      · intro pk
        rw [hbuck]
        exact hsb pk
    · -- long insert (succeeded)
      have hlen8 : 8 < p.length := by omega
      have hcap : ¬ 128 ≤ (bucketsGet s.buckets (bytesToU64LE p 0 8)).length := by
        intro hc
        simp only [LPM16.insert, if_neg (by omega : ¬ p.length ≤ 8),
          if_pos hc] at hins
        exact absurd (Prod.ext_iff.1 hins).1 (by simp)
      have hins2 : s2 = { s with
          buckets := bucketsSet s.buckets (bytesToU64LE p 0 8)
            (sortDesc16 (bucketsGet s.buckets (bytesToU64LE p 0 8) ++
              [(bytesToU64LE p 8 (p.length - 8), p.length - 8, id)])) } := by
        simp only [LPM16.insert, if_neg (by omega : ¬ p.length ≤ 8),
          if_neg hcap] at hins
        rw [Nat.zero_add] at hins
        injection hins with ha hb
        exact hb.symm
      have hpk : bytesToU64LE p 0 8 = wordOf (p.take 8) := by
        rw [bytesToU64LE_eq hb 0 (by omega), window_prefix_eq 8 (by omega)]
      have hsfx : bytesToU64LE p 8 (p.length - 8) = wordOf (p.drop 8) := by
        rw [bytesToU64LE_eq hb 8 (by omega)]
        congr 1
        rw [window_eq_slice (by omega)]
        rw [List.take_of_length_le (by rw [List.length_drop])]
      refine ⟨hsound, ?_, ?_, ?_⟩
      · intro q qid hq hql
        rcases List.mem_cons.1 hq with heq | hold
        · obtain ⟨hq1, _⟩ := Prod.ext_iff.1 heq
          simp only at hq1
          subst hq1
          omega
        · have hdict : s2.dictionary = s.dictionary := by
            rw [hins2]
          rw [hdict]
          exact hcs q qid hold hql
      · intro q qid hq hql
        rcases List.mem_cons.1 hq with heq | hold
        · obtain ⟨hq1, _⟩ := Prod.ext_iff.1 heq
          simp only at hq1
          subst hq1
          refine ⟨id, ?_⟩
          rw [hins2]
          simp only
          rw [← hpk, bucketsGet_set_self, mem_sortDesc16]
          apply List.mem_append.2
          right
          rw [← hsfx]
          exact List.mem_singleton.2 rfl
        · obtain ⟨id2, hid2⟩ := hcl q qid hold hql
          refine ⟨id2, ?_⟩
          rw [hins2]
          simp only
          by_cases hqpk : bytesToU64LE p 0 8 = wordOf (q.take 8)
          · rw [← hqpk, bucketsGet_set_self, mem_sortDesc16]
            apply List.mem_append.2
            left
            rw [hqpk]
            exact hid2
          · rw [bucketsGet_set_ne _ _ hqpk]
            exact hid2
      · intro pk
        rw [hins2]
        simp only
        by_cases hqpk : bytesToU64LE p 0 8 = pk
        · rw [← hqpk, bucketsGet_set_self]
          exact sortDesc16_sorted ..
        · rw [bucketsGet_set_ne _ _ hqpk]
          exact hsb pk
  · intro s2 hins
    have heq : s2 = s := insert_false hins
    subst heq
    exact ⟨hs, hcs, hcl, hsb⟩

theorem storedOf_sub : ∀ (ps : List (List Nat × Nat)) (s : LPM16),
    ∀ x ∈ storedOf ps s, x ∈ ps := by
  intro ps
  induction ps with
  | nil =>
    intro s x hx
    rw [storedOf] at hx
    simp at hx
  | cons p rest ih =>
    intro s x hx
    rw [storedOf] at hx
    revert hx
    cases hins : s.insert p.1 0 p.1.length p.2 with
    | mk ok s2 =>
      cases ok with
      | true =>
        intro hx
        rcases List.mem_cons.1 hx with rfl | hx2
        · exact List.mem_cons_self ..
        · exact List.mem_cons_of_mem _ (ih s2 x hx2)
      | false =>
        intro hx
        exact List.mem_cons_of_mem _ (ih s2 x hx)

theorem mem_storedOf_short : ∀ (ps : List (List Nat × Nat)) (s : LPM16)
    {x : List Nat × Nat}, x ∈ ps → x.1.length ≤ 8 → x ∈ storedOf ps s := by
  intro ps
  induction ps with
  | nil =>
    intro s x hx _
    simp at hx
  | cons p rest ih =>
    intro s x hx hlen
    rw [storedOf]
    cases hins : s.insert p.1 0 p.1.length p.2 with
    | mk ok s2 =>
      rcases List.mem_cons.1 hx with rfl | hx2
      · have hok : ok = true := by
          simp only [LPM16.insert, if_pos hlen] at hins
          injection hins with h1 _
          exact h1.symm
        subst hok
        exact List.mem_cons_self ..
      · cases ok with
        | true => exact List.mem_cons_of_mem _ (ih s2 hx2 hlen)
        | false => exact ih s2 hx2 hlen

theorem matchInv_fold : ∀ (ps : List (List Nat × Nat)) (s : LPM16)
    (A : List (List Nat × Nat)), MatchInv s A →
    (∀ p ∈ ps, 1 ≤ p.1.length ∧ p.1.length ≤ 16 ∧ ∀ b ∈ p.1, b < 256) →
    MatchInv (ps.foldl (fun s p => (s.insert p.1 0 p.1.length p.2).2) s)
      (storedOf ps s ++ A) := by
  intro ps
  induction ps with
  | nil =>
    intro s A hv _
    rw [storedOf]
    simp only [List.foldl_nil, List.nil_append]
    exact hv
  | cons p rest ih =>
    intro s A hv hps
    simp only [List.foldl_cons]
    rw [storedOf]
    obtain ⟨hp1, hp16, hpb⟩ := hps p (List.mem_cons_self ..)
    have hrest : ∀ q ∈ rest, 1 ≤ q.1.length ∧ q.1.length ≤ 16 ∧
        ∀ b ∈ q.1, b < 256 :=
      fun q hq => hps q (List.mem_cons_of_mem _ hq)
    cases hins : s.insert p.1 0 p.1.length p.2 with
    | mk ok s2 =>
      cases ok with
      | true =>
        have hv2 : MatchInv s2 (p :: A) :=
          (matchInv_insert hv hp1 hp16 hpb).1 s2 hins
        have hv3 := ih s2 (p :: A) hv2 hrest
        apply matchInv_congr _ hv3
        intro x
        simp only [List.mem_append, List.mem_cons]
        tauto
      | false =>
        have hv2 : MatchInv s2 A :=
          (matchInv_insert hv hp1 hp16 hpb).2 s2 hins
        exact ih s2 A hv2 hrest

theorem matchInv_lpmFold (ps : List (List Nat × Nat))
    (hps : ∀ p ∈ ps, 1 ≤ p.1.length ∧ p.1.length ≤ 16 ∧ ∀ b ∈ p.1, b < 256) :
    MatchInv (lpmFold ps) (storedOf ps LPM16.empty) := by
  have h := matchInv_fold ps LPM16.empty [] matchInv_empty hps
  rw [lpmFold]
  simpa using h

theorem find_progress_key {s : LPM16} {d : List Nat} {pos len : Nat}
    (hd : ∀ b ∈ d, b < 256) (h1 : 1 ≤ len)
    (hk : (lookupShort s.dictionary (d.getD pos 0, 1)).isSome) :
    (s.findLongestMatch d pos len).isSome := by
  simp only [LPM16.findLongestMatch]
  have hkey : bytesToU64LE d pos 8 % 256 = d.getD pos 0 := by
    rw [bytesToU64LE_eq hd pos (by omega)]
    have h256 : (256 : Nat) = 2 ^ (8 * 1) := by norm_num
    rw [h256, maskedWord_eq hd pos (by omega), window_one, wordOf, wordOf]
    omega
  have hshort : (findShort s.dictionary (bytesToU64LE d pos 8)
      (min len 8)).isSome := by
    apply findShort_isSome (by omega) (by omega)
    rw [hkey]
    exact hk
  by_cases h8 : 8 < len
  · rw [if_pos h8]
    cases hlong : findLongBucket (bytesToU64LE d (pos + 8) (min len 16 - 8))
        (min len 16 - 8) (bucketsGet s.buckets (bytesToU64LE d pos 8)) with
    | some r => simp
    | none => exact hshort
  · rw [if_neg h8]
    exact hshort

theorem findShort_none_above {m : List ((Nat × Nat) × Nat)} {d : List Nat}
    {pos : Nat} (hd : ∀ b ∈ d, b < 256) :
    ∀ (sl w : Nat), sl ≤ 8 →
      w % 2 ^ (8 * sl) = wordOf (window d pos 8) % 2 ^ (8 * sl) →
      ∀ {L2 : Nat}, 1 ≤ L2 → L2 ≤ sl →
        (∀ id L, findShort m w sl = some (id, L) → L < L2 →
          lookupShort m (wordOf (window d pos L2), L2) = none) ∧
        (findShort m w sl = none →
          lookupShort m (wordOf (window d pos L2), L2) = none) := by
  intro sl
  induction sl with
  | zero =>
    intro w _ _ L2 h1 h0
    exact absurd h0 (by omega)
  | succ len ih =>
    intro w hsl hw L2 h1 hL2
    have hw2 : w &&& MASKS (len + 1) = wordOf (window d pos (len + 1)) := by
      rw [and_MASKS _ hsl, hw, maskedWord_eq hd pos hsl]
    rw [findShort]
    cases hlk : lookupShort m (w &&& MASKS (len + 1), len + 1) with
    | some id0 =>
      constructor
      · intro id L heq hlt
        exfalso
        simp only [Option.some.injEq, Prod.mk.injEq] at heq
        omega
      · intro heq
        exact Option.noConfusion heq
    | none =>
      have hmod : (w &&& MASKS (len + 1)) % 2 ^ (8 * len) =
          wordOf (window d pos 8) % 2 ^ (8 * len) := by
        rw [hw2, ← maskedWord_eq hd pos hsl]
        exact Nat.mod_mod_of_dvd _ (pow_dvd_pow 2 (by omega))
      by_cases htop : L2 = len + 1
      · subst htop
        rw [← hw2]
        exact ⟨fun id L heq hlt => hlk, fun heq => hlk⟩
      · have hih := ih (w &&& MASKS (len + 1)) (by omega) hmod h1 (by omega)
        exact ⟨fun id L heq hlt => hih.1 id L heq hlt, fun heq => hih.2 heq⟩

theorem findLongBucket_max {sfx sfxLen : Nat} :
    ∀ {l : List Entry16} {id L : Nat}, BucketSorted l →
      findLongBucket sfx sfxLen l = some (id, L) →
      ∀ e ∈ l, isPrefix64 sfx e.1 sfxLen e.2.1 = true → 8 + e.2.1 ≤ L := by
  intro l
  induction l with
  | nil =>
    intro id L _ h
    simp [findLongBucket] at h
  | cons e0 rest ih =>
    intro id L hsort h e he hpre
    obtain ⟨es, esl, eid⟩ := e0
    rw [BucketSorted, List.pairwise_cons] at hsort
    rw [findLongBucket] at h
    by_cases hp : isPrefix64 sfx es sfxLen esl = true
    · rw [if_pos hp] at h
      simp only [Option.some.injEq, Prod.mk.injEq] at h
      rcases List.mem_cons.1 he with rfl | he2
      · show 8 + esl ≤ L
        omega
      · have hes : e.2.1 ≤ esl := hsort.1 e he2
        omega
    · rw [if_neg hp] at h
      rcases List.mem_cons.1 he with rfl | he2
      · exact absurd hpre hp
      · exact ih hsort.2 h e he2 hpre

theorem findLongBucket_none {sfx sfxLen : Nat} :
    ∀ {l : List Entry16}, findLongBucket sfx sfxLen l = none →
      ∀ e ∈ l, isPrefix64 sfx e.1 sfxLen e.2.1 = false := by
  intro l
  induction l with
  | nil =>
    intro _ e he
    simp at he
  | cons e0 rest ih =>
    intro h e he
    obtain ⟨es, esl, eid⟩ := e0
    rw [findLongBucket] at h
    by_cases hp : isPrefix64 sfx es sfxLen esl = true
    · rw [if_pos hp] at h
      exact absurd h (by simp)
    · rw [if_neg hp] at h
      rcases List.mem_cons.1 he with rfl | he2
      · show isPrefix64 sfx es sfxLen esl = false
        cases hb : isPrefix64 sfx es sfxLen esl with
        | true => exact absurd hb hp
        | false => rfl
      · exact ih h e he2

theorem prefix_entry_true {d q : List Nat} (hd : ∀ b ∈ d, b < 256)
    (hqb : ∀ b ∈ q, b < 256) (hpre : d.take q.length = q)
    (h8 : 8 < q.length) (h16 : q.length ≤ 16) (hqd : q.length ≤ d.length) :
    isPrefix64 (bytesToU64LE d 8 (min d.length 16 - 8)) (wordOf (q.drop 8))
      (min d.length 16 - 8) (q.length - 8) = true := by
  rw [isPrefix64_true_iff (by omega)]
  refine ⟨by omega, ?_⟩
  have hqdlen : (q.drop 8).length = q.length - 8 := by
    rw [List.length_drop]
  have hqlt : wordOf (q.drop 8) < 2 ^ (8 * (q.length - 8)) := by
    have h := wordOf_lt (q.drop 8) (fun b hb => hqb b (List.mem_of_mem_drop hb))
    rwa [hqdlen, pow256] at h
  rw [Nat.mod_eq_of_lt hqlt]
  rw [bytesToU64LE_eq hd 8 (by omega), ← pow256,
    wordOf_mod _ (window_bytes_lt hd 8 _) (q.length - 8),
    window_take, Nat.min_eq_left (by omega : q.length - 8 ≤ min d.length 16 - 8)]
  congr 1
  have hdt := congrArg (List.drop 8) hpre
  rw [List.drop_take] at hdt
  rw [window_eq_slice (by omega : 8 + (q.length - 8) ≤ d.length)]
  exact hdt

/-- Maximality of the bounded matcher: built by any sequence of inserts of
distinct patterns (lengths 1..16, bytes < 256, as the bounded variant's
callers guarantee, with arbitrary ids since its bucket entries carry their
own suffix data), on any non-empty cursor whose first byte was inserted as
a single-byte pattern, `find_longest_match` returns `(id, L)` with the
pattern retained for `id` equal to the first `L` bytes of the cursor, and
no retained pattern of length greater than `L` is a prefix of the
cursor. -/
theorem lpm16_maximality (ps : List (List Nat × Nat)) (d : List Nat)
    (hdist : ps.Pairwise (fun a b => a.1 ≠ b.1))
    (hps : ∀ p ∈ ps, 1 ≤ p.1.length ∧ p.1.length ≤ 16 ∧ ∀ b ∈ p.1, b < 256)
    (hd : ∀ b ∈ d, b < 256) (hlen : 1 ≤ d.length)
    (hbyte : ∃ id0, ([d.getD 0 0], id0) ∈ ps) :
    ∃ id L, (lpmFold ps).findLongestMatch d 0 d.length = some (id, L) ∧
      1 ≤ L ∧ L ≤ d.length ∧ (d.take L, id) ∈ storedOf ps LPM16.empty ∧
      ∀ q ∈ storedOf ps LPM16.empty, L < q.1.length →
        d.take q.1.length ≠ q.1 := by
  obtain ⟨id0, hid0⟩ := hbyte
  obtain ⟨hs, hcs, hcl, hsb⟩ := matchInv_lpmFold ps hps
  have hid0s : ([d.getD 0 0], id0) ∈ storedOf ps LPM16.empty :=
    mem_storedOf_short ps LPM16.empty hid0 (by simp)
  have hkey0 : (lookupShort (lpmFold ps).dictionary (d.getD 0 0, 1)).isSome := by
    have h := hcs [d.getD 0 0] id0 hid0s (by simp)
    simpa [wordOf] using h
  obtain ⟨r, hfind⟩ := Option.isSome_iff_exists.1 (find_progress_key hd hlen hkey0)
  obtain ⟨id, L⟩ := r
  obtain ⟨hL1, hLlen, hmemA⟩ := find_sound hs hd hfind
  have hwin : window d 0 L = d.take L := window_prefix_eq L hLlen
  refine ⟨id, L, hfind, hL1, hLlen, by rw [← hwin]; exact hmemA, ?_⟩
  intro q hq hLq hpre
  obtain ⟨hq1, hq16, hqb⟩ := hps q (storedOf_sub ps LPM16.empty q hq)
  have hqd : q.1.length ≤ d.length := by
    have hl := congrArg List.length hpre
    rw [List.length_take] at hl
    omega
  rw [LPM16.findLongestMatch] at hfind
  rw [Nat.zero_add] at hfind
  by_cases hq8 : q.1.length ≤ 8
  · have hlk := hcs q.1 q.2 hq hq8
    have hshortNone : lookupShort (lpmFold ps).dictionary
        (wordOf (window d 0 q.1.length), q.1.length) = none → False := by
      intro hnone
      rw [window_prefix_eq q.1.length hqd, hpre] at hnone
      rw [hnone] at hlk
      simp at hlk
    have hw8 : bytesToU64LE d 0 8 % 2 ^ (8 * min d.length 8) =
        wordOf (window d 0 8) % 2 ^ (8 * min d.length 8) := by
      rw [bytesToU64LE_eq hd 0 (by omega)]
    by_cases h8d : 8 < d.length
    · rw [if_pos h8d] at hfind
      revert hfind
      cases hlong : findLongBucket (bytesToU64LE d 8 (min d.length 16 - 8))
          (min d.length 16 - 8)
          (bucketsGet (lpmFold ps).buckets (bytesToU64LE d 0 8)) with
      | some r2 =>
        intro hfind
        simp only [Option.some.injEq] at hfind
        subst hfind
        obtain ⟨es, esl, hmem, hp, hL⟩ := findLongBucket_sound hlong
        obtain ⟨p2, hpa, hpl, hesl1, hesl8, hpk2, hsfx2, hpb2⟩ :=
          hs.2 _ _ _ _ hmem
        omega
      | none =>
        intro hfind
        simp only at hfind
        exact hshortNone ((findShort_none_above hd (min d.length 8)
          (bytesToU64LE d 0 8) (by omega) hw8 hq1 (by omega)).1 id L hfind hLq)
    · rw [if_neg h8d] at hfind
      simp only at hfind
      exact hshortNone ((findShort_none_above hd (min d.length 8)
        (bytesToU64LE d 0 8) (by omega) hw8 hq1 (by omega)).1 id L hfind hLq)
  · push_neg at hq8
    have h8d : 8 < d.length := by omega
    obtain ⟨id2, hent⟩ := hcl q.1 q.2 hq hq8
    have htake : q.1.take 8 = d.take 8 := by
      have h := congrArg (List.take 8) hpre
      rw [List.take_take, Nat.min_eq_left (by omega)] at h
      exact h.symm
    have hpk : wordOf (q.1.take 8) = bytesToU64LE d 0 8 := by
      rw [htake, bytesToU64LE_eq hd 0 (by omega), window_prefix_eq 8 (by omega)]
    rw [hpk] at hent
    have hmatch : isPrefix64 (bytesToU64LE d 8 (min d.length 16 - 8))
        (wordOf (q.1.drop 8)) (min d.length 16 - 8) (q.1.length - 8) = true :=
      prefix_entry_true hd hqb hpre hq8 hq16 hqd
    rw [if_pos h8d] at hfind
    revert hfind
    cases hlong : findLongBucket (bytesToU64LE d 8 (min d.length 16 - 8))
        (min d.length 16 - 8)
        (bucketsGet (lpmFold ps).buckets (bytesToU64LE d 0 8)) with
    | some r2 =>
      intro hfind
      simp only [Option.some.injEq] at hfind
      subst hfind
      have hmax : 8 + (q.1.length - 8) ≤ L :=
        findLongBucket_max (hsb (bytesToU64LE d 0 8)) hlong
          (wordOf (q.1.drop 8), q.1.length - 8, id2) hent hmatch
      omega
    | none =>
      intro hfind
      have hfalse : isPrefix64 (bytesToU64LE d 8 (min d.length 16 - 8))
          (wordOf (q.1.drop 8)) (min d.length 16 - 8) (q.1.length - 8) = false :=
        findLongBucket_none hlong (wordOf (q.1.drop 8), q.1.length - 8, id2) hent
      rw [hmatch] at hfalse
      simp at hfalse

/-! ### Maximality of the unbounded matcher (insertion-order ids) -/

/-- Unbounded matcher built by inserting the given patterns in order, the
k-th insert carrying id `base + k`.  The source indexes `end_positions` by
token id, and both callers assign ids in insertion order. -/
def lpmuSeqFrom (base : Nat) (s : LPMU) : List (List Nat) → LPMU
  | [] => s
  | p :: rest => lpmuSeqFrom (base + 1) (s.insert p 0 p.length base) rest

/-- Unbounded matcher of a pattern list with ids 0, 1, 2, ... in insertion
order. -/
def lpmuSeq (ps : List (List Nat)) : LPMU := lpmuSeqFrom 0 LPMU.empty ps

theorem bucketsGetU_set_ne (bs : List (Nat × List Nat)) {k k2 : Nat}
    (b : List Nat) (h : k ≠ k2) :
    bucketsGetU (bucketsSetU bs k b) k2 = bucketsGetU bs k2 := by
  induction bs with
  | nil => simp [bucketsSetU, bucketsGetU, h]
  | cons kb rest ih =>
    obtain ⟨k0, b0⟩ := kb
    rw [bucketsSetU]
    split
    · rename_i h0
      subst h0
      rw [bucketsGetU, bucketsGetU, if_neg (fun hc => h hc)]
      simp [fun hc => h hc]
    · rw [bucketsGetU, bucketsGetU]
      split
      · rfl
      · exact ih

theorem mem_sortInsertU {ends : List Nat} {k id : Nat} {l : List Nat} :
    k ∈ sortInsertU ends id l ↔ k = id ∨ k ∈ l := by
  induction l with
  | nil => simp [sortInsertU]
  | cons x xs ih =>
    rw [sortInsertU]
    split
    · simp
    · simp only [List.mem_cons, ih]
      tauto

theorem mem_sortDescU {ends : List Nat} {k : Nat} {l : List Nat} :
    k ∈ sortDescU ends l ↔ k ∈ l := by
  induction l with
  | nil => simp [sortDescU]
  | cons x xs ih =>
    rw [sortDescU, mem_sortInsertU]
    simp [ih]

/-- Descending order of an id bucket by stored suffix length, read from the
end-position table exactly as the source comparator does. -/
def BucketSortedU (ends : List Nat) (l : List Nat) : Prop :=
  l.Pairwise (fun i j =>
    ends.getD (j + 1) 0 - ends.getD j 0 ≤ ends.getD (i + 1) 0 - ends.getD i 0)

theorem sortInsertU_sorted {ends : List Nat} {id : Nat} {l : List Nat}
    (h : BucketSortedU ends l) :
    BucketSortedU ends (sortInsertU ends id l) := by
  induction l with
  | nil => simp [sortInsertU, BucketSortedU]
  | cons x xs ih =>
    rw [BucketSortedU, List.pairwise_cons] at h
    rw [sortInsertU]
    split
    · rename_i hlt
      rw [BucketSortedU, List.pairwise_cons]
      constructor
      · intro y hy
        rcases List.mem_cons.1 hy with rfl | hy2
        · omega
        · have := h.1 y hy2
          omega
      · exact List.Pairwise.cons h.1 h.2
    · rename_i hge
      rw [BucketSortedU, List.pairwise_cons]
      constructor
      · intro y hy
        rcases mem_sortInsertU.1 hy with rfl | hy2
        · omega
        · exact h.1 y hy2
      · exact ih h.2

theorem sortDescU_sorted (ends : List Nat) (l : List Nat) :
    BucketSortedU ends (sortDescU ends l) := by
  induction l with
  | nil => simp [sortDescU, BucketSortedU]
  | cons x xs ih => exact sortInsertU_sorted ih

/-- Invariant of the unbounded matcher built by inserting the patterns of
`A` in order with ids 0, 1, 2, ...: the end-position table describes each
pattern's split at byte 8, the suffix blob stores the long suffixes, the
short map and the prefix buckets are sound and complete for `A`, and every
bucket is sorted by stored suffix length, descending. -/
structure UInv (s : LPMU) (A : List (List Nat)) : Prop where
  elen : s.ends.length = A.length + 1
  elast : s.ends.getD A.length 0 = s.dict.length
  mono : ∀ k, k < A.length → s.ends.getD k 0 ≤ s.ends.getD (k + 1) 0
  bound : ∀ k, k ≤ A.length → s.ends.getD k 0 ≤ s.dict.length
  diff : ∀ k, k < A.length →
    s.ends.getD (k + 1) 0 - s.ends.getD k 0 = (A.getD k []).length - 8
  slice : ∀ k, k < A.length → dictSlice s.dict s.ends k = (A.getD k []).drop 8
  ssound : ∀ w len id, lookupShort s.short (w, len) = some id →
    id < A.length ∧ (A.getD id []).length = len ∧ 1 ≤ len ∧ len ≤ 8 ∧
      w = wordOf (A.getD id [])
  scomp : ∀ k, k < A.length → (A.getD k []).length ≤ 8 →
    (lookupShort s.short (wordOf (A.getD k []), (A.getD k []).length)).isSome
  bsound : ∀ pk id, id ∈ bucketsGetU s.buckets pk →
    id < A.length ∧ 8 < (A.getD id []).length ∧
      pk = wordOf ((A.getD id []).take 8)
  bcomp : ∀ k, k < A.length → 8 < (A.getD k []).length →
    k ∈ bucketsGetU s.buckets (wordOf ((A.getD k []).take 8))
  sorted : ∀ pk, BucketSortedU s.ends (bucketsGetU s.buckets pk)

theorem uinv_empty : UInv LPMU.empty [] := by
  refine ⟨rfl, rfl, ?_, ?_, ?_, ?_, ?_, ?_, ?_, ?_, ?_⟩
  · intro k hk
    simp at hk
  · intro k hk
    simp only [List.length_nil, Nat.le_zero] at hk
    subst hk
    exact le_refl 0
  · intro k hk
    simp at hk
  · intro k hk
    simp at hk
  · intro w len id h
    simp [LPMU.empty, lookupShort] at h
  · intro k hk
    simp at hk
  · intro pk id h
    simp [LPMU.empty, bucketsGetU] at h
  · intro k hk
    simp at hk
  · intro pk
    simp [LPMU.empty, bucketsGetU, BucketSortedU]

theorem uinv_insert {s : LPMU} {A : List (List Nat)} {p : List Nat}
    (hv : UInv s A) (h1 : 1 ≤ p.length) (hb : ∀ b ∈ p, b < 256) :
    UInv (s.insert p 0 p.length A.length) (A ++ [p]) := by
  obtain ⟨elen, elast, mono, bound, diff, slice, ssound, scomp, bsound, bcomp,
    sorted⟩ := hv
  have hlen2 : (A ++ [p]).length = A.length + 1 := by
    rw [List.length_append, List.length_singleton]
  have hAold : ∀ k, k < A.length → (A ++ [p]).getD k [] = A.getD k [] :=
    fun k hk => List.getD_append A [p] [] k hk
  have hAnew : (A ++ [p]).getD A.length [] = p := by
    rw [List.getD_append_right A [p] [] A.length (le_refl _), Nat.sub_self,
      List.getD_cons_zero]
  have hEold : ∀ (x k : Nat), k ≤ A.length →
      (s.ends ++ [x]).getD k 0 = s.ends.getD k 0 :=
    fun x k hk => List.getD_append s.ends [x] 0 k (by omega)
  have hEnew : ∀ x : Nat, (s.ends ++ [x]).getD (A.length + 1) 0 = x := by
    intro x
    have h0 : A.length + 1 - s.ends.length = 0 := by omega
    rw [List.getD_append_right s.ends [x] 0 (A.length + 1) (by omega), h0,
      List.getD_cons_zero]
  by_cases hlong : 8 < p.length
  · -- long insert
    have hw : window p (0 + 8) (p.length - 8) = p.drop 8 := by
      rw [Nat.zero_add,
        window_eq_slice (by omega : 8 + (p.length - 8) ≤ p.length),
        List.take_of_length_le (by rw [List.length_drop])]
    have hwlen : (window p (0 + 8) (p.length - 8)).length = p.length - 8 :=
      window_length ..
    have hSh : (s.insert p 0 p.length A.length).short = s.short := by
      simp only [LPMU.insert, if_pos hlong]
    have hDc : (s.insert p 0 p.length A.length).dict =
        s.dict ++ window p (0 + 8) (p.length - 8) := by
      simp only [LPMU.insert, if_pos hlong]
    have hE : (s.insert p 0 p.length A.length).ends =
        s.ends ++ [(s.dict ++ window p (0 + 8) (p.length - 8)).length] := by
      simp only [LPMU.insert, if_pos hlong]
    have hBk : (s.insert p 0 p.length A.length).buckets =
        bucketsSetU s.buckets (bytesToU64LE p 0 8)
          (sortDescU
            (s.ends ++ [(s.dict ++ window p (0 + 8) (p.length - 8)).length])
            (bucketsGetU s.buckets (bytesToU64LE p 0 8) ++ [A.length])) := by
      simp only [LPMU.insert, if_pos hlong]
    have hpkw : bytesToU64LE p 0 8 = wordOf (p.take 8) := by
      rw [bytesToU64LE_eq hb 0 (by omega), window_prefix_eq 8 (by omega)]
    refine ⟨?_, ?_, ?_, ?_, ?_, ?_, ?_, ?_, ?_, ?_, ?_⟩
    · rw [hE, hlen2, List.length_append, elen, List.length_singleton]
    · rw [hE, hDc, hlen2, hEnew]
    · intro k hk
      rw [hlen2] at hk
      rw [hE]
      by_cases hka : k < A.length
      · rw [hEold _ k (by omega), hEold _ (k + 1) (by omega)]
        exact mono k hka
      · have hke : k = A.length := by omega
        subst hke
        rw [hEold _ A.length (le_refl _), hEnew, elast, List.length_append]
        omega
    · intro k hk
      rw [hlen2] at hk
      rw [hE, hDc, List.length_append]
      by_cases hka : k ≤ A.length
      · rw [hEold _ k hka]
        have := bound k hka
        omega
      · have hke : k = A.length + 1 := by omega
        subst hke
        rw [hEnew]
    · intro k hk
      rw [hlen2] at hk
      rw [hE]
      by_cases hka : k < A.length
      · rw [hEold _ k (by omega), hEold _ (k + 1) (by omega), hAold k hka]
        exact diff k hka
      · have hke : k = A.length := by omega
        subst hke
        rw [hEold _ A.length (le_refl _), hEnew, hAnew, elast,
          List.length_append, hwlen]
        omega
    · intro k hk
      rw [hlen2] at hk
      rw [hDc, hE]
      by_cases hka : k < A.length
      · rw [dictSlice_append _ _ (by omega) (bound (k + 1) (by omega))
          (mono k hka), hAold k hka]
        exact slice k hka
      · have hke : k = A.length := by omega
        subst hke
        rw [hAnew]
        have h3 : s.ends.length - 1 = A.length := by omega
        have hlast2 : s.ends.getD (s.ends.length - 1) 0 = s.dict.length := by
          rw [h3]
          exact elast
        have hnew := @dictSlice_new s.dict s.ends
          (window p (0 + 8) (p.length - 8)) (by omega) hlast2
        rw [h3] at hnew
        rw [List.length_append, hnew]
        exact hw
    · intro w2 len2 id2 hlk
      rw [hSh] at hlk
      obtain ⟨ha, hb2, hc, hd2, he⟩ := ssound w2 len2 id2 hlk
      exact ⟨by rw [hlen2]; omega, by rw [hAold id2 ha]; exact hb2, hc, hd2,
        by rw [hAold id2 ha]; exact he⟩
    · intro k hk hql
      rw [hlen2] at hk
      rw [hSh]
      by_cases hka : k < A.length
      · rw [hAold k hka] at hql ⊢
        exact scomp k hka hql
      · have hke : k = A.length := by omega
        subst hke
        rw [hAnew] at hql
        exact absurd hql (by omega)
    · intro pk2 id2 hmem2
      rw [hBk] at hmem2
      by_cases hpk2 : bytesToU64LE p 0 8 = pk2
      · rw [← hpk2, bucketsGetU_set_self, mem_sortDescU] at hmem2
        rcases List.mem_append.1 hmem2 with hold | hnew2
        · obtain ⟨ha, hbl, hpk3⟩ := bsound _ _ hold
          exact ⟨by rw [hlen2]; omega, by rw [hAold id2 ha]; exact hbl,
            by rw [hAold id2 ha, ← hpk2]; exact hpk3⟩
        · have hide : id2 = A.length := List.mem_singleton.1 hnew2
          subst hide
          refine ⟨by rw [hlen2]; omega, ?_, ?_⟩
          · rw [hAnew]
            exact hlong
          · rw [hAnew, ← hpk2]
            exact hpkw
      · rw [bucketsGetU_set_ne _ _ hpk2] at hmem2
        obtain ⟨ha, hbl, hpk3⟩ := bsound _ _ hmem2
        exact ⟨by rw [hlen2]; omega, by rw [hAold id2 ha]; exact hbl,
          by rw [hAold id2 ha]; exact hpk3⟩
    · intro k hk hql
      rw [hlen2] at hk
      rw [hBk]
      by_cases hka : k < A.length
      · rw [hAold k hka] at hql ⊢
        have hmem3 := bcomp k hka hql
        by_cases hpk2 : bytesToU64LE p 0 8 = wordOf ((A.getD k []).take 8)
        · rw [← hpk2, bucketsGetU_set_self, mem_sortDescU]
          apply List.mem_append.2
          left
          rw [hpk2]
          exact hmem3
        · rw [bucketsGetU_set_ne _ _ hpk2]
          exact hmem3
      · have hke : k = A.length := by omega
        subst hke
        rw [hAnew]
        rw [← hpkw, bucketsGetU_set_self, mem_sortDescU]
        apply List.mem_append.2
        right
        exact List.mem_singleton.2 rfl
    · intro pk2
      rw [hBk, hE]
      by_cases hpk2 : bytesToU64LE p 0 8 = pk2
      · rw [← hpk2, bucketsGetU_set_self]
        exact sortDescU_sorted ..
      · rw [bucketsGetU_set_ne _ _ hpk2, BucketSortedU]
        have hs := sorted pk2
        rw [BucketSortedU] at hs
        apply List.Pairwise.imp_of_mem ?_ hs
        intro a b ha2 hb2 hab
        obtain ⟨haA, _, _⟩ := bsound pk2 a ha2
        obtain ⟨hbA, _, _⟩ := bsound pk2 b hb2
        rw [hEold _ a (by omega), hEold _ (a + 1) (by omega),
          hEold _ b (by omega), hEold _ (b + 1) (by omega)]
        exact hab
  · -- short insert
    have hp8 : p.length ≤ 8 := by omega
    have hSh : (s.insert p 0 p.length A.length).short =
        emplaceShort s.short (bytesToU64LE p 0 p.length, p.length)
          A.length := by
      simp only [LPMU.insert, if_neg hlong]
    have hDc : (s.insert p 0 p.length A.length).dict = s.dict := by
      simp only [LPMU.insert, if_neg hlong]
    have hE : (s.insert p 0 p.length A.length).ends =
        s.ends ++ [s.dict.length] := by
      simp only [LPMU.insert, if_neg hlong]
    have hBk : (s.insert p 0 p.length A.length).buckets = s.buckets := by
      simp only [LPMU.insert, if_neg hlong]
    have hkeyw : bytesToU64LE p 0 p.length = wordOf p := by
      rw [bytesToU64LE_eq hb 0 hp8, window_self]
    refine ⟨?_, ?_, ?_, ?_, ?_, ?_, ?_, ?_, ?_, ?_, ?_⟩
    · rw [hE, hlen2, List.length_append, elen, List.length_singleton]
    · rw [hE, hDc, hlen2, hEnew]
    · intro k hk
      rw [hlen2] at hk
      rw [hE]
      by_cases hka : k < A.length
      · rw [hEold _ k (by omega), hEold _ (k + 1) (by omega)]
        exact mono k hka
      · have hke : k = A.length := by omega
        subst hke
        rw [hEold _ A.length (le_refl _), hEnew, elast]
    · intro k hk
      rw [hlen2] at hk
      rw [hE, hDc]
      by_cases hka : k ≤ A.length
      · rw [hEold _ k hka]
        exact bound k hka
      · have hke : k = A.length + 1 := by omega
        subst hke
        rw [hEnew]
    · intro k hk
      rw [hlen2] at hk
      rw [hE]
      by_cases hka : k < A.length
      · rw [hEold _ k (by omega), hEold _ (k + 1) (by omega), hAold k hka]
        exact diff k hka
      · have hke : k = A.length := by omega
        subst hke
        rw [hEold _ A.length (le_refl _), hEnew, hAnew, elast]
        omega
    · intro k hk
      rw [hlen2] at hk
      rw [hDc, hE]
      by_cases hka : k < A.length
      · rw [hAold k hka]
        have hslice2 : dictSlice s.dict (s.ends ++ [s.dict.length]) k =
            dictSlice s.dict s.ends k := by
          rw [dictSlice, dictSlice,
            List.getD_append s.ends [s.dict.length] 0 k (by omega),
            List.getD_append s.ends [s.dict.length] 0 (k + 1) (by omega)]
        rw [hslice2]
        exact slice k hka
      · have hke : k = A.length := by omega
        subst hke
        rw [hAnew, dictSlice,
          List.getD_append s.ends [s.dict.length] 0 A.length (by omega),
          hEnew, elast, Nat.sub_self, List.take_zero]
        exact (List.drop_eq_nil_of_le hp8).symm
    · intro w2 len2 id2 hlk
      rw [hSh] at hlk
      rcases lookupShort_emplace_cases hlk with hold | hnew2
      · obtain ⟨ha, hb2, hc, hd2, he⟩ := ssound w2 len2 id2 hold
        exact ⟨by rw [hlen2]; omega, by rw [hAold id2 ha]; exact hb2, hc, hd2,
          by rw [hAold id2 ha]; exact he⟩
      · obtain ⟨hkeq, hveq⟩ := hnew2
        injection hkeq with hw2 hl2
        subst hw2
        subst hl2
        subst hveq
        refine ⟨by rw [hlen2]; omega, ?_, h1, hp8, ?_⟩
        · rw [hAnew]
        · rw [hAnew]
          exact hkeyw
    · intro k hk hql
      rw [hlen2] at hk
      rw [hSh]
      by_cases hka : k < A.length
      · rw [hAold k hka] at hql ⊢
        exact emplace_isSome _ _ (scomp k hka hql)
      · have hke : k = A.length := by omega
        subst hke
        rw [hAnew, ← hkeyw]
        exact emplace_self_isSome ..
    · intro pk2 id2 hmem2
      rw [hBk] at hmem2
      obtain ⟨ha, hbl, hpk3⟩ := bsound pk2 id2 hmem2
      exact ⟨by rw [hlen2]; omega, by rw [hAold id2 ha]; exact hbl,
        by rw [hAold id2 ha]; exact hpk3⟩
    · intro k hk hql
      rw [hlen2] at hk
      rw [hBk]
      by_cases hka : k < A.length
      · rw [hAold k hka] at hql ⊢
        exact bcomp k hka hql
      · have hke : k = A.length := by omega
        subst hke
        rw [hAnew] at hql
        exact absurd hql (by omega)
    · intro pk2
      rw [hBk, hE, BucketSortedU]
      have hs := sorted pk2
      rw [BucketSortedU] at hs
      apply List.Pairwise.imp_of_mem ?_ hs
      intro a b ha2 hb2 hab
      obtain ⟨haA, _, _⟩ := bsound pk2 a ha2
      obtain ⟨hbA, _, _⟩ := bsound pk2 b hb2
      rw [hEold _ a (by omega), hEold _ (a + 1) (by omega),
        hEold _ b (by omega), hEold _ (b + 1) (by omega)]
      exact hab

theorem uinv_fold : ∀ (rest : List (List Nat)) (s : LPMU)
    (A : List (List Nat)), UInv s A →
    (∀ p ∈ rest, 1 ≤ p.length ∧ ∀ b ∈ p, b < 256) →
    UInv (lpmuSeqFrom A.length s rest) (A ++ rest) := by
  intro rest
  induction rest with
  | nil =>
    intro s A hv _
    rw [lpmuSeqFrom]
    simpa using hv
  | cons p rest2 ih =>
    intro s A hv hps
    rw [lpmuSeqFrom]
    obtain ⟨hp1, hpb⟩ := hps p (List.mem_cons_self ..)
    have hv2 := uinv_insert hv hp1 hpb
    have hih := ih (s.insert p 0 p.length A.length) (A ++ [p]) hv2
      (fun q hq => hps q (List.mem_cons_of_mem _ hq))
    rw [List.length_append, List.length_singleton] at hih
    rw [show A ++ p :: rest2 = (A ++ [p]) ++ rest2 by simp]
    exact hih

theorem uinv_lpmuSeq (ps : List (List Nat))
    (hps : ∀ p ∈ ps, 1 ≤ p.length ∧ ∀ b ∈ p, b < 256) :
    UInv (lpmuSeq ps) ps := by
  have h := uinv_fold ps LPMU.empty [] uinv_empty hps
  rw [lpmuSeq]
  simpa using h

theorem findShortU_sound {m : List ((Nat × Nat) × Nat)} {d : List Nat}
    {pos : Nat} : ∀ {sl id L : Nat}, findShortU m d pos sl = some (id, L) →
      1 ≤ L ∧ L ≤ sl ∧ lookupShort m (bytesToU64LE d pos L, L) = some id := by
  intro sl
  induction sl with
  | zero =>
    intro id L h
    simp [findShortU] at h
  | succ len ih =>
    intro id L h
    rw [findShortU] at h
    revert h
    cases hlk : lookupShort m (bytesToU64LE d pos (len + 1), len + 1) with
    | some id0 =>
      intro h
      simp only [Option.some.injEq, Prod.mk.injEq] at h
      obtain ⟨hia, hla⟩ := h
      subst hia
      subst hla
      exact ⟨by omega, by omega, hlk⟩
    | none =>
      intro h
      obtain ⟨ha, hb2, hc⟩ := ih h
      exact ⟨ha, by omega, hc⟩

theorem findShortU_none_above {m : List ((Nat × Nat) × Nat)} {d : List Nat}
    {pos : Nat} : ∀ {sl L2 : Nat}, 1 ≤ L2 → L2 ≤ sl →
      (∀ id L, findShortU m d pos sl = some (id, L) → L < L2 →
        lookupShort m (bytesToU64LE d pos L2, L2) = none) ∧
      (findShortU m d pos sl = none →
        lookupShort m (bytesToU64LE d pos L2, L2) = none) := by
  intro sl
  induction sl with
  | zero =>
    intro L2 h1 h0
    exact absurd h0 (by omega)
  | succ len ih =>
    intro L2 h1 hL2
    rw [findShortU]
    cases hlk : lookupShort m (bytesToU64LE d pos (len + 1), len + 1) with
    | some id0 =>
      constructor
      · intro id L heq hlt
        exfalso
        simp only [Option.some.injEq, Prod.mk.injEq] at heq
        omega
      · intro heq
        exact Option.noConfusion heq
    | none =>
      by_cases htop : L2 = len + 1
      · subst htop
        exact ⟨fun id L heq hlt => hlk, fun heq => hlk⟩
      · have hih := ih h1 (by omega)
        exact ⟨fun id L heq hlt => hih.1 id L heq hlt, fun heq => hih.2 heq⟩

theorem findShortU_isSome {m : List ((Nat × Nat) × Nat)} {d : List Nat}
    {pos : Nat} : ∀ {sl : Nat}, 1 ≤ sl →
      (lookupShort m (bytesToU64LE d pos 1, 1)).isSome →
      (findShortU m d pos sl).isSome := by
  intro sl
  induction sl with
  | zero =>
    intro h
    exact absurd h (by omega)
  | succ len ih =>
    intro h1 hk
    rw [findShortU]
    cases hlk : lookupShort m (bytesToU64LE d pos (len + 1), len + 1) with
    | some id0 => simp
    | none =>
      cases len with
      | zero =>
        exfalso
        have h0 : lookupShort m (bytesToU64LE d pos 1, 1) = none := hlk
        rw [h0] at hk
        simp at hk
      | succ len2 =>
        exact ih (by omega) hk

theorem findLongBucketU_sound {s : LPMU} {d : List Nat} {pos len : Nat} :
    ∀ {l : List Nat} {id L : Nat},
      findLongBucketU s d pos len l = some (id, L) →
      id ∈ l ∧
      8 + (s.ends.getD (id + 1) 0 - s.ends.getD id 0) ≤ len ∧
      window d (pos + 8) (s.ends.getD (id + 1) 0 - s.ends.getD id 0) =
        (s.dict.drop (s.ends.getD id 0)).take
          (s.ends.getD (id + 1) 0 - s.ends.getD id 0) ∧
      L = 8 + (s.ends.getD (id + 1) 0 - s.ends.getD id 0) := by
  intro l
  induction l with
  | nil =>
    intro id L h
    simp [findLongBucketU] at h
  | cons k rest ih =>
    intro id L h
    rw [findLongBucketU] at h
    by_cases hc : 8 + (s.ends.getD (k + 1) 0 - s.ends.getD k 0) ≤ len ∧
        window d (pos + 8) (s.ends.getD (k + 1) 0 - s.ends.getD k 0) =
          (s.dict.drop (s.ends.getD k 0)).take
            (s.ends.getD (k + 1) 0 - s.ends.getD k 0)
    · rw [if_pos hc] at h
      simp only [Option.some.injEq, Prod.mk.injEq] at h
      obtain ⟨hid, hL⟩ := h
      subst hid
      exact ⟨List.mem_cons_self .., hc.1, hc.2, hL.symm⟩
    · rw [if_neg hc] at h
      obtain ⟨hm, hrest⟩ := ih h
      exact ⟨List.mem_cons_of_mem _ hm, hrest⟩

theorem findLongBucketU_max {s : LPMU} {d : List Nat} {pos len : Nat} :
    ∀ {l : List Nat} {id L : Nat}, BucketSortedU s.ends l →
      findLongBucketU s d pos len l = some (id, L) →
      ∀ k ∈ l,
        8 + (s.ends.getD (k + 1) 0 - s.ends.getD k 0) ≤ len →
        window d (pos + 8) (s.ends.getD (k + 1) 0 - s.ends.getD k 0) =
          (s.dict.drop (s.ends.getD k 0)).take
            (s.ends.getD (k + 1) 0 - s.ends.getD k 0) →
        8 + (s.ends.getD (k + 1) 0 - s.ends.getD k 0) ≤ L := by
  intro l
  induction l with
  | nil =>
    intro id L _ h
    simp [findLongBucketU] at h
  | cons k0 rest ih =>
    intro id L hsort h k hk hk1 hk2
    rw [BucketSortedU, List.pairwise_cons] at hsort
    rw [findLongBucketU] at h
    by_cases hc : 8 + (s.ends.getD (k0 + 1) 0 - s.ends.getD k0 0) ≤ len ∧
        window d (pos + 8) (s.ends.getD (k0 + 1) 0 - s.ends.getD k0 0) =
          (s.dict.drop (s.ends.getD k0 0)).take
            (s.ends.getD (k0 + 1) 0 - s.ends.getD k0 0)
    · rw [if_pos hc] at h
      simp only [Option.some.injEq, Prod.mk.injEq] at h
      obtain ⟨hid, hL⟩ := h
      rcases List.mem_cons.1 hk with rfl | hk3
      · omega
      · have := hsort.1 k hk3
        omega
    · rw [if_neg hc] at h
      rcases List.mem_cons.1 hk with rfl | hk3
      · exact absurd ⟨hk1, hk2⟩ hc
      · exact ih hsort.2 h k hk3 hk1 hk2

theorem findLongBucketU_none {s : LPMU} {d : List Nat} {pos len : Nat} :
    ∀ {l : List Nat}, findLongBucketU s d pos len l = none →
      ∀ k ∈ l, ¬(8 + (s.ends.getD (k + 1) 0 - s.ends.getD k 0) ≤ len ∧
        window d (pos + 8) (s.ends.getD (k + 1) 0 - s.ends.getD k 0) =
          (s.dict.drop (s.ends.getD k 0)).take
            (s.ends.getD (k + 1) 0 - s.ends.getD k 0)) := by
  intro l
  induction l with
  | nil =>
    intro _ k hk
    simp at hk
  | cons k0 rest ih =>
    intro h k hk
    rw [findLongBucketU] at h
    by_cases hc : 8 + (s.ends.getD (k0 + 1) 0 - s.ends.getD k0 0) ≤ len ∧
        window d (pos + 8) (s.ends.getD (k0 + 1) 0 - s.ends.getD k0 0) =
          (s.dict.drop (s.ends.getD k0 0)).take
            (s.ends.getD (k0 + 1) 0 - s.ends.getD k0 0)
    · rw [if_pos hc] at h
      exact absurd h (by simp)
    · rw [if_neg hc] at h
      rcases List.mem_cons.1 hk with rfl | hk3
      · exact hc
      · exact ih h k hk3

theorem findU_sound {s : LPMU} {A : List (List Nat)} {d : List Nat}
    {id L : Nat} (hv : UInv s A) (hA : ∀ p ∈ A, ∀ b ∈ p, b < 256)
    (hd : ∀ b ∈ d, b < 256)
    (h : s.findLongestMatch d 0 d.length = some (id, L)) :
    1 ≤ L ∧ L ≤ d.length ∧ id < A.length ∧ A.getD id [] = d.take L := by
  have hgb : ∀ k, k < A.length → ∀ b ∈ A.getD k [], b < 256 := by
    intro k hk b hbb
    apply hA (A.getD k [])
    · rw [List.getD_eq_getElem _ _ hk]
      exact List.getElem_mem ..
    · exact hbb
  rw [LPMU.findLongestMatch] at h
  by_cases h8 : 8 < d.length
  · rw [if_pos h8] at h
    revert h
    cases hlong : findLongBucketU s d 0 d.length
        (bucketsGetU s.buckets (bytesToU64LE d 0 8)) with
    | some r =>
      intro h
      simp only [Option.some.injEq] at h
      subst h
      obtain ⟨hmem, hle, hweq, hL⟩ := findLongBucketU_sound hlong
      obtain ⟨hid, hplen, hpk⟩ := hv.bsound _ _ hmem
      have hdiff := hv.diff id hid
      have hslice := hv.slice id hid
      have hpb := hgb id hid
      have htake8 : (A.getD id []).take 8 = window d 0 8 := by
        apply wordOf_inj
        · rw [List.length_take, window_length]
          omega
        · exact fun b hbb => hpb b (List.mem_of_mem_take hbb)
        · exact window_bytes_lt hd 0 8
        · rw [← hpk, bytesToU64LE_eq hd 0 (by omega)]
      have hdrop : window d (0 + 8)
          (s.ends.getD (id + 1) 0 - s.ends.getD id 0) =
          (A.getD id []).drop 8 := by
        rw [hweq]
        exact hslice
      rw [hdiff] at hdrop hle hL
      have hpeq : A.getD id [] =
          window d 0 (8 + ((A.getD id []).length - 8)) := by
        conv_lhs => rw [← List.take_append_drop 8 (A.getD id [])]
        rw [htake8, ← hdrop, window_append]
      have h8p : 8 + ((A.getD id []).length - 8) = (A.getD id []).length := by
        omega
      rw [h8p] at hpeq
      refine ⟨by omega, by omega, hid, ?_⟩
      rw [hpeq, hL, h8p, window_prefix_eq _ (by omega)]
    | none =>
      intro h
      simp only at h
      obtain ⟨h1L, hLsl, hlk⟩ := findShortU_sound h
      obtain ⟨hid, hplen, h1p, hp8, hword⟩ := hv.ssound _ _ _ hlk
      have hpb := hgb id hid
      have hpeq : A.getD id [] = window d 0 L := by
        apply wordOf_inj
        · rw [hplen, window_length]
        · exact hpb
        · exact window_bytes_lt hd 0 L
        · rw [← hword, bytesToU64LE_eq hd 0 (by omega)]
      refine ⟨h1L, by omega, hid, ?_⟩
      rw [hpeq, window_prefix_eq _ (by omega)]
  · rw [if_neg h8] at h
    simp only at h
    obtain ⟨h1L, hLsl, hlk⟩ := findShortU_sound h
    obtain ⟨hid, hplen, h1p, hp8, hword⟩ := hv.ssound _ _ _ hlk
    have hpb := hgb id hid
    have hpeq : A.getD id [] = window d 0 L := by
      apply wordOf_inj
      · rw [hplen, window_length]
      · exact hpb
      · exact window_bytes_lt hd 0 L
      · rw [← hword, bytesToU64LE_eq hd 0 (by omega)]
    refine ⟨h1L, by omega, hid, ?_⟩
    rw [hpeq, window_prefix_eq _ (by omega)]

theorem lpmu_maximality (ps : List (List Nat)) (d : List Nat)
    (hdist : ps.Pairwise (fun a b => a ≠ b))
    (hps : ∀ p ∈ ps, 1 ≤ p.length ∧ ∀ b ∈ p, b < 256)
    (hd : ∀ b ∈ d, b < 256) (hlen : 1 ≤ d.length)
    (hbyte : ∃ k0, k0 < ps.length ∧ ps.getD k0 [] = [d.getD 0 0]) :
    ∃ id L, (lpmuSeq ps).findLongestMatch d 0 d.length = some (id, L) ∧
      1 ≤ L ∧ L ≤ d.length ∧ id < ps.length ∧ ps.getD id [] = d.take L ∧
      ∀ k, k < ps.length → L < (ps.getD k []).length →
        d.take (ps.getD k []).length ≠ ps.getD k [] := by
  obtain ⟨k0, hk0, hk0p⟩ := hbyte
  have hv := uinv_lpmuSeq ps hps
  have hA : ∀ p ∈ ps, ∀ b ∈ p, b < 256 := fun p hp => (hps p hp).2
  have hkey0 : (lookupShort (lpmuSeq ps).short
      (bytesToU64LE d 0 1, 1)).isSome := by
    have h := hv.scomp k0 hk0 (by rw [hk0p]; simp)
    rw [hk0p] at h
    have hb1 : bytesToU64LE d 0 1 = d.getD 0 0 := by
      rw [bytesToU64LE_eq hd 0 (by omega), window_one]
      simp [wordOf]
    rw [hb1]
    simpa [wordOf] using h
  have hfind0 : ((lpmuSeq ps).findLongestMatch d 0 d.length).isSome := by
    rw [LPMU.findLongestMatch]
    by_cases h8 : 8 < d.length
    · rw [if_pos h8]
      cases hlong : findLongBucketU (lpmuSeq ps) d 0 d.length
          (bucketsGetU (lpmuSeq ps).buckets (bytesToU64LE d 0 8)) with
      | some r => simp
      | none => exact findShortU_isSome (by omega) hkey0
    · rw [if_neg h8]
      exact findShortU_isSome (by omega) hkey0
  obtain ⟨r, hfind⟩ := Option.isSome_iff_exists.1 hfind0
  obtain ⟨id, L⟩ := r
  obtain ⟨hL1, hLd, hid, hpid⟩ := findU_sound hv hA hd hfind
  refine ⟨id, L, hfind, hL1, hLd, hid, hpid, ?_⟩
  intro k hk hLk hpre
  have hmemk : ps.getD k [] ∈ ps := by
    rw [List.getD_eq_getElem _ _ hk]
    exact List.getElem_mem ..
  have hk1 : 1 ≤ (ps.getD k []).length := (hps _ hmemk).1
  have hkd : (ps.getD k []).length ≤ d.length := by
    have hl := congrArg List.length hpre
    rw [List.length_take] at hl
    omega
  rw [LPMU.findLongestMatch] at hfind
  by_cases hq8 : (ps.getD k []).length ≤ 8
  · have hlk := hv.scomp k hk hq8
    have hkey : bytesToU64LE d 0 (ps.getD k []).length =
        wordOf (ps.getD k []) := by
      rw [bytesToU64LE_eq hd 0 (by omega), window_prefix_eq _ hkd, hpre]
    have hshortNone : findShortU (lpmuSeq ps).short d 0 (min d.length 8) =
        some (id, L) → False := by
      intro hsh
      have hnone := (findShortU_none_above hk1
        (by omega : (ps.getD k []).length ≤ min d.length 8)).1 id L hsh hLk
      rw [hkey] at hnone
      rw [hnone] at hlk
      simp at hlk
    by_cases h8d : 8 < d.length
    · rw [if_pos h8d] at hfind
      revert hfind
      cases hlong : findLongBucketU (lpmuSeq ps) d 0 d.length
          (bucketsGetU (lpmuSeq ps).buckets (bytesToU64LE d 0 8)) with
      | some r2 =>
        intro hfind
        simp only [Option.some.injEq] at hfind
        subst hfind
        obtain ⟨hmem, hle, hweq, hL⟩ := findLongBucketU_sound hlong
        obtain ⟨hid2, hplen2, hpk2⟩ := hv.bsound _ _ hmem
        have hd2 := hv.diff _ hid2
        omega
      | none =>
        intro hfind
        simp only at hfind
        exact hshortNone hfind
    · rw [if_neg h8d] at hfind
      simp only at hfind
      exact hshortNone hfind
  · push_neg at hq8
    have h8d : 8 < d.length := by omega
    have hcomp := hv.bcomp k hk hq8
    have htake : (ps.getD k []).take 8 = d.take 8 := by
      have h := congrArg (List.take 8) hpre
      rw [List.take_take, Nat.min_eq_left (by omega)] at h
      exact h.symm
    have hpkk : wordOf ((ps.getD k []).take 8) = bytesToU64LE d 0 8 := by
      rw [htake, bytesToU64LE_eq hd 0 (by omega), window_prefix_eq 8 (by omega)]
    rw [hpkk] at hcomp
    have hdk := hv.diff k hk
    have hsk := hv.slice k hk
    have hwd : window d (0 + 8) ((ps.getD k []).length - 8) =
        (ps.getD k []).drop 8 := by
      rw [Nat.zero_add,
        window_eq_slice (by omega : 8 + ((ps.getD k []).length - 8) ≤ d.length)]
      have hdt := congrArg (List.drop 8) hpre
      rw [List.drop_take] at hdt
      exact hdt
    have hcond1 : 8 + ((lpmuSeq ps).ends.getD (k + 1) 0 -
        (lpmuSeq ps).ends.getD k 0) ≤ d.length := by
      rw [hdk]
      omega
    have hcond2 : window d (0 + 8) ((lpmuSeq ps).ends.getD (k + 1) 0 -
        (lpmuSeq ps).ends.getD k 0) =
        ((lpmuSeq ps).dict.drop ((lpmuSeq ps).ends.getD k 0)).take
          ((lpmuSeq ps).ends.getD (k + 1) 0 - (lpmuSeq ps).ends.getD k 0) := by
      have hgoal : ((lpmuSeq ps).dict.drop ((lpmuSeq ps).ends.getD k 0)).take
          ((lpmuSeq ps).ends.getD (k + 1) 0 - (lpmuSeq ps).ends.getD k 0) =
          dictSlice (lpmuSeq ps).dict (lpmuSeq ps).ends k := rfl
      rw [hgoal, hsk, hdk]
      exact hwd
    rw [if_pos h8d] at hfind
    revert hfind
    cases hlong : findLongBucketU (lpmuSeq ps) d 0 d.length
        (bucketsGetU (lpmuSeq ps).buckets (bytesToU64LE d 0 8)) with
    | some r2 =>
      intro hfind
      simp only [Option.some.injEq] at hfind
      subst hfind
      have hmax := findLongBucketU_max (hv.sorted (bytesToU64LE d 0 8)) hlong
        k hcomp hcond1 hcond2
      rw [hdk] at hmax
      omega
    | none =>
      intro hfind2
      exact absurd ⟨hcond1, hcond2⟩ (findLongBucketU_none hlong k hcomp)

/-- C2 counterexample: the unbounded `LongestPrefixMatcher` indexes
`end_positions` by token id while pushing one entry per insert, so for an
insert sequence whose ids are not in insertion order the table is
misaligned.  Inserting the single byte 97 with id 0, the 9-byte pattern
`97^8 98` with id 2, then the 10-byte pattern `99^10` with id 1 (distinct
patterns, all `end_positions` reads in range), `find_longest_match` on the
9-byte pattern itself returns `(0, 1)`: the inserted 9-byte pattern is a
prefix of the cursor and is longer than 1, violating the claimed
maximality. -/
theorem C2_counterexample :
    (((LPMU.empty.insert [97] 0 1 0).insert
          [97, 97, 97, 97, 97, 97, 97, 97, 98] 0 9 2).insert
        [99, 99, 99, 99, 99, 99, 99, 99, 99, 99] 0 10 1).findLongestMatch
      [97, 97, 97, 97, 97, 97, 97, 97, 98] 0 9 = some (0, 1) ∧
    ([97, 97, 97, 97, 97, 97, 97, 97, 98] : List Nat).take 9 =
      [97, 97, 97, 97, 97, 97, 97, 97, 98] ∧
    1 < 9 := by
  refine ⟨by decide, by decide, by decide⟩

/-- C2 (amended). LPM maximality in both variants: for the bounded matcher
(`LongestPrefixMatcher16`) built by any insert sequence of distinct
patterns (lengths 1..16, bytes < 256, arbitrary ids), and for the
unbounded matcher (`LongestPrefixMatcher`) built by inserts whose ids
follow insertion order (0, 1, 2, ..., as both trainers assign them),
`find_longest_match` on a non-empty cursor whose first byte was inserted
as a single-byte pattern returns `(id, L)` with the pattern of `id` equal
to the first `L` bytes of the cursor, and no retained pattern of length
greater than `L` is a prefix of the cursor.  (With out-of-order ids the
unbounded matcher's id-indexed end-position table is misaligned and the
property fails; see the counterexample.) -/
theorem C2_lpm_maximality :
    (∀ (ps : List (List Nat × Nat)) (d : List Nat),
      ps.Pairwise (fun a b => a.1 ≠ b.1) →
      (∀ p ∈ ps, 1 ≤ p.1.length ∧ p.1.length ≤ 16 ∧ ∀ b ∈ p.1, b < 256) →
      (∀ b ∈ d, b < 256) → 1 ≤ d.length →
      (∃ id0, ([d.getD 0 0], id0) ∈ ps) →
      ∃ id L, (lpmFold ps).findLongestMatch d 0 d.length = some (id, L) ∧
        1 ≤ L ∧ L ≤ d.length ∧ (d.take L, id) ∈ storedOf ps LPM16.empty ∧
        ∀ q ∈ storedOf ps LPM16.empty, L < q.1.length →
          d.take q.1.length ≠ q.1) ∧
    (∀ (ps : List (List Nat)) (d : List Nat),
      ps.Pairwise (fun a b => a ≠ b) →
      (∀ p ∈ ps, 1 ≤ p.length ∧ ∀ b ∈ p, b < 256) →
      (∀ b ∈ d, b < 256) → 1 ≤ d.length →
      (∃ k0, k0 < ps.length ∧ ps.getD k0 [] = [d.getD 0 0]) →
      ∃ id L, (lpmuSeq ps).findLongestMatch d 0 d.length = some (id, L) ∧
        1 ≤ L ∧ L ≤ d.length ∧ id < ps.length ∧ ps.getD id [] = d.take L ∧
        ∀ k, k < ps.length → L < (ps.getD k []).length →
          d.take (ps.getD k []).length ≠ ps.getD k []) :=
  ⟨lpm16_maximality, lpmu_maximality⟩

/-! ### Concrete instantiations of the hypothesised theorems -/

theorem C1_round_trip_witness :
    (∀ s ∈ ([[104]] : List (List Nat)), ∀ b ∈ s, b < 256) ∧
    ((decompressString16 (compressStrings16 [[104]] [0] 2) 0 (fun _ => 0)).2 =
        (([[104]] : List (List Nat)).getD 0 []).length ∧
      ∀ j, j < (([[104]] : List (List Nat)).getD 0 []).length →
        (decompressString16 (compressStrings16 [[104]] [0] 2) 0
            (fun _ => 0)).1 j =
          (([[104]] : List (List Nat)).getD 0 []).getD j 0) :=
  ⟨by decide, C1_round_trip [[104]] [0] 2 (fun _ => 0) 0 (by decide) (by decide)⟩

theorem C2_lpm_maximality_witness :
    (∃ id L,
      (lpmFold [([97], 5)]).findLongestMatch [97, 98] 0
          ([97, 98] : List Nat).length = some (id, L) ∧
      1 ≤ L ∧ L ≤ ([97, 98] : List Nat).length ∧
      (([97, 98] : List Nat).take L, id) ∈ storedOf [([97], 5)] LPM16.empty ∧
      ∀ q ∈ storedOf [([97], 5)] LPM16.empty, L < q.1.length →
        ([97, 98] : List Nat).take q.1.length ≠ q.1) ∧
    (∃ id L,
      (lpmuSeq [[97]]).findLongestMatch [97, 98] 0
          ([97, 98] : List Nat).length = some (id, L) ∧
      1 ≤ L ∧ L ≤ ([97, 98] : List Nat).length ∧
      id < ([[97]] : List (List Nat)).length ∧
      ([[97]] : List (List Nat)).getD id [] = ([97, 98] : List Nat).take L ∧
      ∀ k, k < ([[97]] : List (List Nat)).length →
        L < (([[97]] : List (List Nat)).getD k []).length →
        ([97, 98] : List Nat).take
            (([[97]] : List (List Nat)).getD k []).length ≠
          ([[97]] : List (List Nat)).getD k []) :=
  ⟨C2_lpm_maximality.1 [([97], 5)] [97, 98] (by simp) (by decide) (by decide)
      (by decide) ⟨5, by decide⟩,
   C2_lpm_maximality.2 [[97]] [97, 98] (by simp) (by decide) (by decide)
      (by decide) ⟨0, by decide, by decide⟩⟩

/-- A one-token trainer state for exercising a single bounded loop
iteration. -/
def c4St : TrainSt :=
  ⟨(LPM16.empty.insert [97] 0 1 0).2, [], [97], [0, 1], 1, false⟩

/-- A one-token trainer state for exercising a single unbounded loop
iteration. -/
def c4StU : TrainStU :=
  ⟨LPMU.empty.insert [97] 0 1 0, [], [97], [0, 1], 1, false⟩

theorem C4_gated_counting_witness :
    (16 < 1 + 0 → (trainLoop [97] 1 5 1 0 0 0 c4St).freq = c4St.freq) ∧
    (1 + 0 ≤ 16 →
      (freqGet c4St.freq (0, 0) + 1) % 65536 < 5 →
      (trainLoop [97] 1 5 1 0 0 0 c4St).freq =
        freqSet c4St.freq (0, 0) ((freqGet c4St.freq (0, 0) + 1) % 65536)) ∧
    ((freqGet c4StU.freq (0, 0) + 1) % 65536 < 5 →
      (trainLoopU [97] 1 5 1 0 0 0 c4StU).freq =
        freqSet c4StU.freq (0, 0) ((freqGet c4StU.freq (0, 0) + 1) % 65536)) :=
  C4_gated_counting [97] 1 5 0 0 0 c4St c4StU 0 1 (by decide) (by decide)
    (by decide)

theorem C6_offset_invariant_witness :
    (trainDictionary [104] [0, 1] [0] 2).offsets.getD 0 0 = 0 ∧
    (∀ i, i + 1 < (trainDictionary [104] [0, 1] [0] 2).offsets.length →
      (trainDictionary [104] [0, 1] [0] 2).offsets.getD i 0 ≤
        (trainDictionary [104] [0, 1] [0] 2).offsets.getD (i + 1) 0) ∧
    (∀ i, i + 1 < (trainDictionary [104] [0, 1] [0] 2).offsets.length →
      (trainDictionary [104] [0, 1] [0] 2).offsets.getD (i + 1) 0 -
        (trainDictionary [104] [0, 1] [0] 2).offsets.getD i 0 ≤ 16) ∧
    (∀ b, b < 256 →
      dictSlice (trainDictionary [104] [0, 1] [0] 2).dict
        (trainDictionary [104] [0, 1] [0] 2).offsets b = [b]) :=
  C6_offset_invariant [104] [0, 1] [0] 2 (by decide)

theorem C7_boundaries_witness :
    (compressStrings16 [[104]] [0] 2).string_boundaries.length =
      ([[104]] : List (List Nat)).length + 1 ∧
    (compressStrings16 [[104]] [0] 2).string_boundaries.getD 0 0 = 0 ∧
    (compressStrings16 [[104]] [0] 2).string_boundaries.getD
      ([[104]] : List (List Nat)).length 0 =
      (compressStrings16 [[104]] [0] 2).compressed_data.length ∧
    (∀ i, i + 1 <
        (compressStrings16 [[104]] [0] 2).string_boundaries.length →
      (compressStrings16 [[104]] [0] 2).string_boundaries.getD i 0 ≤
        (compressStrings16 [[104]] [0] 2).string_boundaries.getD (i + 1) 0) ∧
    (∀ i, i < ([[104]] : List (List Nat)).length →
      ([[104]] : List (List Nat)).getD i [] = [] →
      (compressStrings16 [[104]] [0] 2).string_boundaries.getD i 0 =
        (compressStrings16 [[104]] [0] 2).string_boundaries.getD (i + 1) 0 ∧
      (decompressString16 (compressStrings16 [[104]] [0] 2) i
        (fun _ => 0)).2 = 0) :=
  C7_boundaries [[104]] [0] 2 (fun _ => 0) (by decide)

theorem C8_parse_progress_witness :
    HasBytes (trainDictionary [104] [0, 1] [0] 2).lpm ∧
    (∀ pos len, 1 ≤ len →
      ∃ id L, (trainDictionary [104] [0, 1] [0] 2).lpm.findLongestMatch
          [104] pos len = some (id, L) ∧ 1 ≤ L ∧ L ≤ len) ∧
    (∀ start endp fuel, start ≤ endp → endp ≤ ([104] : List Nat).length →
      endp - start ≤ fuel →
      (parseString (trainDictionary [104] [0, 1] [0] 2).lpm [104] endp
        fuel start []).2 = endp) :=
  C8_parse_progress [104] [0, 1] [0] 2 (by decide)

theorem C10_token_ids_witness :
    (∀ s ∈ ([[104]] : List (List Nat)), ∀ b ∈ s, b < 256) ∧
    (∀ id ∈ (compressStrings16 [[104]] [0] 2).compressed_data,
      id + 1 <
        (compressStrings16 [[104]] [0] 2).dictionary_offsets.length) :=
  ⟨by decide, C10_token_ids_in_range [[104]] [0] 2 (by decide)⟩

end OnPairModel

